import Mathlib

/-
  Verification development for the news-scraper acquisition-and-consolidation
  pipeline (scripts/scrape_news.py, scripts/consolidate.py and the src/
  package: pipeline.py, scrapers.py, utils.py, labelers.py, balance.py).

  Each Python function relevant to the checked properties is embedded as an
  executable Lean definition; machine floats are modelled as exact rationals,
  byte strings as lists of characters, and external capabilities (HTTP fetch,
  the permissive date parser, HTML parsing) as explicit parameters, following
  the specification's own external-collaborator boundary.
-/

unseal Rat.add Rat.sub Rat.mul Rat.inv

namespace Pipeline

/-- Dataset row as assembled by the normalizer in src/pipeline.py.  Only the
two deduplication keys are semantically relevant here; `title` stands in for
the remaining payload columns so that distinct rows can share a key. -/
structure Row where
  title : String
  url_canonical : String
  content_hash : String
deriving DecidableEq

/-- Model of pandas `drop_duplicates(subset=[...], keep="first")`: keep the
first row carrying each key value, preserving the original order.  The `seen`
accumulator holds the key values already emitted. -/
def dropDupGo {α κ : Type} [DecidableEq κ] (key : α → κ) : List κ → List α → List α
  | _, [] => []
  | seen, r :: rs =>
    if key r ∈ seen then dropDupGo key seen rs
    else r :: dropDupGo key (key r :: seen) rs

/-- Entry point of the `drop_duplicates` model (empty `seen` accumulator). -/
def drop_duplicates {α κ : Type} [DecidableEq κ] (key : α → κ) (rows : List α) : List α :=
  dropDupGo key [] rows

/-- Deduplication applied to one run's rows in `_run_block`
(src/pipeline.py lines 128-131): first by `url_canonical`, then by
`content_hash`. -/
def run_block_dedup (rows : List Row) : List Row :=
  drop_duplicates (fun r => r.content_hash)
    (drop_duplicates (fun r => r.url_canonical) rows)

/-- Master-file merge in `save_outputs` (src/pipeline.py lines 163-173):
concatenate the existing master with the new snapshot and drop duplicates of
the pair `["content_hash", "url_canonical"]`. -/
def merge_master (master newRows : List Row) : List Row :=
  drop_duplicates (fun r => (r.content_hash, r.url_canonical)) (master ++ newRows)

theorem key_not_mem_of_mem_dropDupGo {α κ : Type} [DecidableEq κ] (key : α → κ) :
    ∀ (seen : List κ) (l : List α) (a : α), a ∈ dropDupGo key seen l → key a ∉ seen := by
  intro seen l
  induction l generalizing seen with
  | nil => intro a h; simp [dropDupGo] at h
  | cons r rs ih =>
    intro a h
    simp only [dropDupGo] at h
    by_cases hk : key r ∈ seen
    · rw [if_pos hk] at h
      exact ih seen a h
    · rw [if_neg hk] at h
      rcases List.mem_cons.mp h with rfl | h2
      · exact hk
      · intro hmem
        exact ih (key r :: seen) a h2 (List.mem_cons_of_mem _ hmem)

theorem pairwise_dropDupGo {α κ : Type} [DecidableEq κ] (key : α → κ) :
    ∀ (seen : List κ) (l : List α),
      (dropDupGo key seen l).Pairwise (fun a b => key a ≠ key b) := by
  intro seen l
  induction l generalizing seen with
  | nil => simp [dropDupGo]
  | cons r rs ih =>
    simp only [dropDupGo]
    by_cases hk : key r ∈ seen
    · rw [if_pos hk]; exact ih seen
    · rw [if_neg hk]
      refine List.Pairwise.cons ?_ (ih (key r :: seen))
      intro b hb
      have := key_not_mem_of_mem_dropDupGo key (key r :: seen) rs b hb
      intro heq
      exact this (heq ▸ List.mem_cons_self _ _)

theorem pairwise_drop_duplicates {α κ : Type} [DecidableEq κ] (key : α → κ) (rows : List α) :
    (drop_duplicates key rows).Pairwise (fun a b => key a ≠ key b) :=
  pairwise_dropDupGo key [] rows

theorem dropDupGo_sublist {α κ : Type} [DecidableEq κ] (key : α → κ) :
    ∀ (seen : List κ) (l : List α), (dropDupGo key seen l).Sublist l := by
  intro seen l
  induction l generalizing seen with
  | nil => simp [dropDupGo]
  | cons r rs ih =>
    simp only [dropDupGo]
    by_cases hk : key r ∈ seen
    · rw [if_pos hk]; exact (ih seen).cons r
    · rw [if_neg hk]; exact (ih (key r :: seen)).cons₂ r

theorem drop_duplicates_sublist {α κ : Type} [DecidableEq κ] (key : α → κ) (rows : List α) :
    (drop_duplicates key rows).Sublist rows :=
  dropDupGo_sublist key [] rows

end Pipeline

/-- Claim C1 counterexample: the master merge deduplicates only by the pair
(content_hash, url_canonical), so two rows that share a canonical URL but have
different fingerprints both survive the merge into the master collection — the
canonical URL is not individually unique there, contradicting the claim. -/
theorem c1_master_merge_keeps_duplicate_canonical_url :
    Pipeline.merge_master
        [⟨"old title", "https://site.com/a", "h1"⟩]
        [⟨"new title", "https://site.com/a", "h2"⟩]
      = [⟨"old title", "https://site.com/a", "h1"⟩, ⟨"new title", "https://site.com/a", "h2"⟩]
    ∧ ¬ (Pipeline.merge_master
          [⟨"old title", "https://site.com/a", "h1"⟩]
          [⟨"new title", "https://site.com/a", "h2"⟩]).Pairwise
        (fun a b => a.url_canonical ≠ b.url_canonical) := by
  constructor
  · rfl
  · intro h
    rw [show Pipeline.merge_master
          [⟨"old title", "https://site.com/a", "h1"⟩]
          [⟨"new title", "https://site.com/a", "h2"⟩]
        = [⟨"old title", "https://site.com/a", "h1"⟩,
           ⟨"new title", "https://site.com/a", "h2"⟩] from rfl] at h
    exact (List.pairwise_cons.mp h).1 _ (List.mem_singleton.mpr rfl) rfl

/-- Claim C1 (amended): within one run's deduplicated block, the canonical URL
and the content fingerprint are each individually unique; the master merge, in
contrast, enforces only that no two rows agree on both keys simultaneously
(pair uniqueness). -/
theorem c1_snapshot_keys_unique_master_pair_unique :
    (∀ rows : List Pipeline.Row,
        (Pipeline.run_block_dedup rows).Pairwise
            (fun a b => a.url_canonical ≠ b.url_canonical)
      ∧ (Pipeline.run_block_dedup rows).Pairwise
            (fun a b => a.content_hash ≠ b.content_hash))
    ∧ ∀ master newRows : List Pipeline.Row,
        (Pipeline.merge_master master newRows).Pairwise
          (fun a b => a.content_hash ≠ b.content_hash ∨ a.url_canonical ≠ b.url_canonical) := by
  refine ⟨fun rows => ⟨?_, ?_⟩, fun master newRows => ?_⟩
  · exact (Pipeline.pairwise_drop_duplicates
        (fun r : Pipeline.Row => r.url_canonical) rows).sublist
      (Pipeline.drop_duplicates_sublist (fun r : Pipeline.Row => r.content_hash) _)
  · exact Pipeline.pairwise_drop_duplicates (fun r : Pipeline.Row => r.content_hash) _
  · have := Pipeline.pairwise_drop_duplicates
      (fun r : Pipeline.Row => (r.content_hash, r.url_canonical)) (master ++ newRows)
    refine this.imp ?_
    intro a b hne
    by_cases h : a.content_hash = b.content_hash
    · right; intro hc; exact hne (by rw [h, hc])
    · left; exact h

namespace Verdict

/-- Single-word alternatives of the first bucket ("falso") of the ordered
pattern list VERDICT_PATTERNS in scripts/scrape_news.py (lines 223-227).  The
regexes are word-boundary alternations; texts are modelled as lists of
lowercase word tokens, so a pattern matches exactly when one of its
single-word alternatives occurs as a token.  The multi-word alternatives
("es falso", "completamente falso") always contain the single word "falso" as
a token and are subsumed in this model. -/
def falsoWords : List String := ["falso", "bulo", "fake", "mentira"]

/-- Single-word alternatives of the second bucket ("verdadero"); the phrase
alternative "es verdadero" is subsumed by the word "verdadero". -/
def verdaderoWords : List String := ["verdadero", "cierto", "real"]

/-- Single-word alternatives of the third bucket ("dudoso").  The two phrase
alternatives built around the word "verdadero" ("parcialmente verdadero",
"verdadero pero") can never fire in the original code either, because the
"verdadero" bucket is checked earlier against the same text. -/
def dudosoWords : List String :=
  ["engañoso", "engañosa", "engañosos", "engañosas", "cuestionable",
   "inexacto", "inexacta", "impreciso", "imprecisa", "inchequeable"]

/-- Ordered pattern list of detect_verdict: false before true before
doubtful. -/
def VERDICT_PATTERNS : List (List String × String) :=
  [(falsoWords, "falso"), (verdaderoWords, "verdadero"), (dudosoWords, "dudoso")]

/-- Matching one pattern bucket against one element text (token list). -/
def matchesBucket (ws : List String) (tokens : List String) : Bool :=
  ws.any (fun w => tokens.contains w)

/-- Inner loop of detect_verdict over one scanned text: the first pattern of
VERDICT_PATTERNS whose bucket matches wins. -/
def firstVerdictLabel (tokens : List String) : Option String :=
  (VERDICT_PATTERNS.find? (fun p => matchesBucket p.1 tokens)).map (fun p => p.2)

/-- Scan a list of texts in order, returning the first verdict found.  An
empty text matches no pattern, which models the `if not txt: continue` line. -/
def scanTexts : List (List String) → Option String
  | [] => none
  | t :: ts =>
    match firstVerdictLabel t with
    | some l => some l
    | none => scanTexts ts

/-- Model of detect_verdict (scripts/scrape_news.py lines 229-248): scan the
texts of the CSS-selected elements first, then the meta-tag contents, then the
whole body text, in that order. -/
def detect_verdict (elementTexts metaTexts : List (List String))
    (bodyTokens : List String) : Option String :=
  match scanTexts elementTexts with
  | some l => some l
  | none =>
    match scanTexts metaTexts with
    | some l => some l
    | none => firstVerdictLabel bodyTokens

/-- Helper: needle occurs at the head of hay. -/
def startsList : List Char → List Char → Bool
  | [], _ => true
  | _ :: _, [] => false
  | a :: as, b :: bs => a = b && startsList as bs

/-- Helper: needle occurs somewhere in hay, modelling Python's substring
containment test `w in r`. -/
def hasSub (needle : List Char) : List Char → Bool
  | [] => needle.isEmpty
  | h :: t => startsList needle (h :: t) || hasSub needle t

/-- Model of pick in src/labelers.py (lines 5-10): the per-source raw-label
normalizer.  It lowercases the text and tests substring containment of each
candidate word, checking the pos (true) list before neg (false) before dub
(doubtful) — the opposite precedence to VERDICT_PATTERNS. -/
def pick (txt : String) (pos neg dub : List String) : Option String :=
  let r := txt.toLower
  if pos.any (fun w => hasSub w.toList r.toList) then some "true"
  else if neg.any (fun w => hasSub w.toList r.toList) then some "false"
  else if dub.any (fun w => hasSub w.toList r.toList) then some "doubtful"
  else none

end Verdict

/-- Claim C2: whenever a scanned text contains both a word of the "false"
bucket (falso/bulo/fake/mentira) and a word of the "true" bucket
(verdadero/cierto/real), the verdict classifier labels it "falso", because
VERDICT_PATTERNS checks the false bucket before the true bucket before the
doubtful bucket; consequently detect_verdict on a document whose first
non-empty scanned element is that text returns "falso" as well. -/
theorem c2_false_bucket_precedes_true_bucket (tokens : List String)
    (hf : ∃ w ∈ Verdict.falsoWords, w ∈ tokens)
    (hv : ∃ w ∈ Verdict.verdaderoWords, w ∈ tokens) :
    Verdict.firstVerdictLabel tokens = some "falso"
    ∧ ∀ metas body, Verdict.detect_verdict [tokens] metas body = some "falso" := by
  have hm : Verdict.matchesBucket Verdict.falsoWords tokens = true := by
    obtain ⟨w, hw, hwt⟩ := hf
    simp only [Verdict.matchesBucket, List.any_eq_true]
    exact ⟨w, hw, by simpa using hwt⟩
  have hfirst : Verdict.firstVerdictLabel tokens = some "falso" := by
    simp [Verdict.firstVerdictLabel, Verdict.VERDICT_PATTERNS, List.find?_cons, hm]
  refine ⟨hfirst, fun metas body => ?_⟩
  simp [Verdict.detect_verdict, Verdict.scanTexts, hfirst]

/-- Witness for claim C2 at a concrete co-occurrence text. -/
theorem c2_false_bucket_precedes_true_bucket_witness :
    ((∃ w ∈ Verdict.falsoWords, w ∈ ["es", "falso", "pero", "cierto"])
      ∧ (∃ w ∈ Verdict.verdaderoWords, w ∈ ["es", "falso", "pero", "cierto"]))
    ∧ Verdict.firstVerdictLabel ["es", "falso", "pero", "cierto"] = some "falso" :=
  ⟨⟨by decide, by decide⟩,
    (c2_false_bucket_precedes_true_bucket _ (by decide) (by decide)).1⟩

namespace Balance

/-- Row of the day's dataframe as seen by the balancer
(balanced_sample_by_ratio, scripts/scrape_news.py lines 499-557); only the
class label `estado` is inspected by the balancer, `url` stands in for the
remaining columns. -/
structure NewsRow where
  estado : String
  url : String
deriving DecidableEq

/-- Point update of a tally function, modelling an assignment `d[c] = x` on a
Python dict whose key set never changes. -/
def upd (f : String → ℤ) (c : String) (x : ℤ) : String → ℤ :=
  fun d => if d = c then x else f d

/-- Sum of a tally over a list of keys, modelling `sum(d.values())` when the
list holds the dict's keys. -/
def sumOn {β : Type} [AddCommMonoid β] (cs : List String) (f : String → β) : β :=
  (cs.map f).sum

/-- Rounding half to even on exact rationals, modelling Python's builtin
`round` (floats are modelled as exact rationals throughout). -/
def bround (x : ℚ) : ℤ :=
  if x - ⌊x⌋ < 1/2 then ⌊x⌋
  else if (1 : ℚ)/2 < x - ⌊x⌋ then ⌊x⌋ + 1
  else if Even ⌊x⌋ then ⌊x⌋ else ⌊x⌋ + 1

/-- Ratio normalization (lines 501-503): divide each ratio by the sum of all
ratios, substituting 1 for a zero sum (`sum(ratios.values()) or 1.0`). -/
def normRatios (ratiosL : List (String × ℚ)) : List (String × ℚ) :=
  let s0 := (ratiosL.map (fun p => p.2)).sum
  let s := if s0 = 0 then 1 else s0
  ratiosL.map (fun p => (p.1, p.2 / s))

/-- Lookup with default 0, modelling `ratios.get(c, 0.0)`. -/
def ratioOf (ratiosL : List (String × ℚ)) (c : String) : ℚ :=
  match ratiosL.find? (fun p => p.1 = c) with
  | some p => p.2
  | none => 0

/-- Class labels in dict order, modelling `classes = list(ratios.keys())`. -/
def classesOf (ratiosL : List (String × ℚ)) : List String :=
  (normRatios ratiosL).map (fun p => p.1)

/-- Per-class supply, modelling `df_in["estado"].value_counts().to_dict()`
followed by `avail.get(c, 0)`. -/
def availOf (pool : List NewsRow) (c : String) : ℤ :=
  ((pool.filter (fun r => r.estado = c)).length : ℤ)

/-- Number of rows of one class in a row list (used to state per-class counts
of the balancer's output). -/
def classCount (rows : List NewsRow) (c : String) : ℤ :=
  ((rows.filter (fun r => r.estado = c)).length : ℤ)

/-- First-pass desired counts (line 510): `round(target_total * ratio)` per
class. -/
def desiredInit (ratiosL : List (String × ℚ)) (target : ℤ) (c : String) : ℤ :=
  bround ((target : ℚ) * ratioOf (normRatios ratiosL) c)

/-- Rounding discrepancy (line 513): `target_total - sum(desired.values())`. -/
def diffOf (ratiosL : List (String × ℚ)) (target : ℤ) : ℤ :=
  target - sumOn (classesOf ratiosL) (desiredInit ratiosL target)

/-- Sort key of the adjustment pass (line 516): the fractional remainder
`target_total * ratio - desired[c]`, computed against the pre-loop desired
counts. -/
def remainderKey (ratiosL : List (String × ℚ)) (target : ℤ) (c : String) : ℚ :=
  (target : ℚ) * ratioOf (normRatios ratiosL) c - (desiredInit ratiosL target c : ℚ)

/-- Stable descending sort by a key, modelling
`sorted(xs, key=k, reverse=True)`.  Python's sorted is a stable sort; a stable
sort's output is uniquely determined by the (total, transitive) comparison, so
insertion sort — which is stable — produces exactly the same list. -/
def sortDescBy {β : Type} [LinearOrder β] (key : String → β) (cs : List String) : List String :=
  List.insertionSort (fun a b => key b ≤ key a) cs

/-- Stable ascending sort by a key, modelling `sorted(xs, key=k)`. -/
def sortAscBy {β : Type} [LinearOrder β] (key : String → β) (cs : List String) : List String :=
  List.insertionSort (fun a b => key a ≤ key b) cs

/-- Visiting order of the adjustment pass (line 516): classes sorted by
remainder, descending when the desired counts fall short (`diff > 0`),
ascending when they overshoot. -/
def orderOf (ratiosL : List (String × ℚ)) (target : ℤ) : List String :=
  if 0 < diffOf ratiosL target
  then sortDescBy (remainderKey ratiosL target) (classesOf ratiosL)
  else sortAscBy (remainderKey ratiosL target) (classesOf ratiosL)

/-- Body recursion of the rounding-adjustment loop (lines 517-521): while
`diff` is nonzero and the index is in range, add one to the visited class when
`diff > 0`, subtract one when `diff < 0` and the visited count is positive
(otherwise change nothing), always move `diff` one step toward zero, and
advance the index cyclically.  Every iteration moves `diff` exactly one step
toward zero, so running the recursion on `diff.natAbs` steps of fuel (see
`adjustLoop`) is exactly the Python `while` loop. -/
def adjustLoopF (order : List String) : ℕ → (String → ℤ) → ℤ → ℕ → (String → ℤ)
  | 0, desired, _, _ => desired
  | fuel + 1, desired, diff, i =>
    if diff = 0 ∨ order.length ≤ i then desired
    else
      adjustLoopF order fuel
        (if 0 < diff then upd desired (order.getD i "") (desired (order.getD i "") + 1)
         else if 0 < desired (order.getD i "") then
           upd desired (order.getD i "") (desired (order.getD i "") - 1)
         else desired)
        (if 0 < diff then diff - 1 else diff + 1)
        ((i + 1) % order.length)

/-- The rounding-adjustment loop, run for its exact iteration count. -/
def adjustLoop (order : List String) (desired : String → ℤ) (diff : ℤ) (i : ℕ) : String → ℤ :=
  adjustLoopF order diff.natAbs desired diff i

/-- Adjusted desired counts after the rounding-adjustment loop. -/
def desiredAdj (ratiosL : List (String × ℚ)) (target : ℤ) : String → ℤ :=
  adjustLoop (orderOf ratiosL target) (desiredInit ratiosL target) (diffOf ratiosL target) 0

/-- Supply clipping (line 524): `take[c] = min(desired[c], avail[c])`. -/
def takeInit (pool : List NewsRow) (ratiosL : List (String × ℚ)) (target : ℤ) (c : String) : ℤ :=
  min (desiredAdj ratiosL target c) (availOf pool c)

/-- Deficit after clipping (line 525): `target_total - sum(take.values())`. -/
def deficitOf (pool : List NewsRow) (ratiosL : List (String × ℚ)) (target : ℤ) : ℤ :=
  target - sumOn (classesOf ratiosL) (takeInit pool ratiosL target)

/-- Remaining unused supply (line 530): `max(avail[c] - take[c], 0)`. -/
def remInit (pool : List NewsRow) (ratiosL : List (String × ℚ)) (target : ℤ) (c : String) : ℤ :=
  max (availOf pool c - takeInit pool ratiosL target c) 0

/-- Visiting order of the redistribution loop (line 532): classes sorted by
remaining supply, largest first. -/
def poolOrderOf (pool : List NewsRow) (ratiosL : List (String × ℚ)) (target : ℤ) : List String :=
  sortDescBy (remInit pool ratiosL target) (classesOf ratiosL)

/-- The redistribution loop (lines 533-540): while a deficit remains and some
class has remaining supply, cycle through the classes, taking one more row
from any visited class with remaining supply.  The Python `while` is mirrored
with explicit fuel; `redistLoop_exit` below shows the fuel used by the
balancer suffices to reach the loop's exit condition. -/
def redistLoop (pool : List String) :
    ℕ → (String → ℤ) → (String → ℤ) → ℤ → ℕ → ((String → ℤ) × (String → ℤ) × ℤ)
  | 0, takeT, remT, deficit, _ => (takeT, remT, deficit)
  | fuel + 1, takeT, remT, deficit, j =>
    if 0 < deficit ∧ pool.any (fun c => decide (0 < remT c)) then
      let c := pool.getD (j % pool.length) ""
      if 0 < remT c then
        redistLoop pool fuel (upd takeT c (takeT c + 1)) (upd remT c (remT c - 1)) (deficit - 1) (j + 1)
      else
        redistLoop pool fuel takeT remT deficit (j + 1)
    else (takeT, remT, deficit)

/-- Fuel given to the redistribution loop; large enough that the loop always
reaches its exit condition (proved below). -/
def redistFuel (pool : List NewsRow) (ratiosL : List (String × ℚ)) (target : ℤ) : ℕ :=
  ((deficitOf pool ratiosL target).toNat + 1) * ((poolOrderOf pool ratiosL target).length + 1)

/-- Final per-class take counts after redistribution. -/
def takeFinal (pool : List NewsRow) (ratiosL : List (String × ℚ)) (target : ℤ) : String → ℤ :=
  (redistLoop (poolOrderOf pool ratiosL target) (redistFuel pool ratiosL target)
    (takeInit pool ratiosL target) (remInit pool ratiosL target)
    (deficitOf pool ratiosL target) 0).1

/-- One class bucket of the output (lines 544-552): all of the class's rows
when supply does not exceed the take count, otherwise a seeded uniform sample
of `n` rows without replacement.  Which rows the seeded generator draws is
external behaviour; the draw is modelled as taking the first `n` rows of the
class subset — the verified properties depend only on how many rows of each
class are drawn. -/
def takePart (pool : List NewsRow) (takeT : String → ℤ) (c : String) : List NewsRow :=
  if ((pool.filter (fun r => r.estado = c)).length : ℤ) ≤ takeT c
  then pool.filter (fun r => r.estado = c)
  else (pool.filter (fun r => r.estado = c)).take (takeT c).toNat

/-- Model of balanced_sample_by_ratio (scripts/scrape_news.py lines 499-557):
normalize the ratios, round per-class quotas, fix the rounding discrepancy,
clip to supply, redistribute the deficit, then concatenate the per-class
buckets — and fall back to a copy of the whole input when every bucket is
empty (lines 553-557). -/
def balanced_sample_by_ratio (pool : List NewsRow) (ratiosL : List (String × ℚ))
    (target : ℤ) : List NewsRow :=
  let takeT := takeFinal pool ratiosL target
  let parts := ((classesOf ratiosL).filter (fun c => decide (0 < takeT c))).map
    (fun c => takePart pool takeT c)
  if parts.isEmpty then pool else parts.flatten

end Balance

/-- Claim C10: whenever quota computation, supply clipping and redistribution
leave every ratio class with a take count of zero, balanced_sample_by_ratio
skips every class bucket and falls through to returning a copy of the entire
input pool rather than an empty subset. -/
theorem c10_all_zero_take_returns_whole_pool
    (pool : List Balance.NewsRow) (ratiosL : List (String × ℚ)) (target : ℤ)
    (h : ∀ c ∈ Balance.classesOf ratiosL, Balance.takeFinal pool ratiosL target c = 0) :
    Balance.balanced_sample_by_ratio pool ratiosL target = pool := by
  unfold Balance.balanced_sample_by_ratio
  have hf : (Balance.classesOf ratiosL).filter
      (fun c => decide (0 < Balance.takeFinal pool ratiosL target c)) = [] := by
    apply List.filter_eq_nil_iff.mpr
    intro c hc
    simp [h c hc]
  simp [hf]

/-- Witness for claim C10: a pool whose single row carries a label that does
not occur among the target ratios; every take count is zero and the whole pool
comes back. -/
theorem c10_all_zero_take_returns_whole_pool_witness :
    (∀ c ∈ Balance.classesOf [("falso", (1 : ℚ))],
        Balance.takeFinal [⟨"dudoso", "u1"⟩] [("falso", (1 : ℚ))] 5 c = 0)
    ∧ Balance.balanced_sample_by_ratio [⟨"dudoso", "u1"⟩] [("falso", (1 : ℚ))] 5
        = [⟨"dudoso", "u1"⟩] :=
  ⟨by decide, c10_all_zero_take_returns_whole_pool _ _ _ (by decide)⟩

set_option maxRecDepth 8000

/-- Claim C3 counterexample.  Part 1: with targetTotal = 0 (ratios summing to
1) every take count is zero, so the balancer returns the whole pool — the
subset has 1 row, violating both `len(subset) <= targetTotal` and
`total = min(targetTotal, supply)` (which would be 0).  Part 2: at the
specification's own scenario (ratios 0.4/0.4/0.2, targetTotal 10, supply
falso 3 / verdadero 20 / dudoso 20), the redistribution hands the shortfall of
"falso" to "dudoso": dudoso contributes 3 rows though its rounded quota is
round(10 * 0.2) = 2 and its supply of 20 forces no shortfall at all, so the
per-class deviation bound fails. -/
theorem c3_quota_law_fails :
    ((Balance.balanced_sample_by_ratio [⟨"falso", "u"⟩] [("falso", (1 : ℚ))] 0).length = 1
      ∧ ¬ ((Balance.balanced_sample_by_ratio [⟨"falso", "u"⟩]
            [("falso", (1 : ℚ))] 0).length : ℤ) ≤ 0)
    ∧ (Balance.classCount
          (Balance.balanced_sample_by_ratio
            (List.replicate 3 ⟨"falso", ""⟩ ++ List.replicate 20 ⟨"verdadero", ""⟩
              ++ List.replicate 20 ⟨"dudoso", ""⟩)
            [("falso", (2 : ℚ)/5), ("verdadero", (2 : ℚ)/5), ("dudoso", (1 : ℚ)/5)] 10)
          "dudoso" = 3
        ∧ Balance.bround ((10 : ℚ) * Balance.ratioOf
            (Balance.normRatios
              [("falso", (2 : ℚ)/5), ("verdadero", (2 : ℚ)/5), ("dudoso", (1 : ℚ)/5)])
            "dudoso") = 2
        ∧ Balance.availOf
            (List.replicate 3 ⟨"falso", ""⟩ ++ List.replicate 20 ⟨"verdadero", ""⟩
              ++ List.replicate 20 ⟨"dudoso", ""⟩) "dudoso" = 20) := by
  exact ⟨⟨by decide, by decide⟩, by decide, by decide, by decide⟩

namespace Balance

theorem upd_same (f : String → ℤ) (c : String) (x : ℤ) : upd f c x c = x := by
  simp [upd]

theorem upd_other (f : String → ℤ) (c : String) (x : ℤ) {d : String} (h : d ≠ c) :
    upd f c x d = f d := by
  simp [upd, h]

theorem sumOn_nil {β : Type} [AddCommMonoid β] (f : String → β) : sumOn [] f = 0 := rfl

theorem sumOn_cons {β : Type} [AddCommMonoid β] (c : String) (cs : List String)
    (f : String → β) : sumOn (c :: cs) f = f c + sumOn cs f := by
  simp [sumOn]

theorem sumOn_congr {β : Type} [AddCommMonoid β] {cs : List String} {f g : String → β}
    (h : ∀ c ∈ cs, f c = g c) : sumOn cs f = sumOn cs g := by
  induction cs with
  | nil => rfl
  | cons c cs ih =>
    rw [sumOn_cons, sumOn_cons, h c (List.mem_cons_self _ _),
      ih (fun d hd => h d (List.mem_cons_of_mem _ hd))]

theorem sumOn_upd {cs : List String} {c : String} (f : String → ℤ) (x : ℤ)
    (hc : c ∈ cs) (hnd : cs.Nodup) :
    sumOn cs (upd f c x) = sumOn cs f + (x - f c) := by
  induction cs with
  | nil => cases hc
  | cons d ds ih =>
    rw [sumOn_cons, sumOn_cons]
    by_cases hdc : d = c
    · subst hdc
      rw [upd_same]
      have hnotin : d ∉ ds := (List.nodup_cons.mp hnd).1
      have hrest : sumOn ds (upd f d x) = sumOn ds f :=
        sumOn_congr (fun e he => upd_other f d x (fun hde => hnotin (hde ▸ he)))
      rw [hrest]; ring
    · rw [upd_other f c x hdc]
      have hmem : c ∈ ds := by
        rcases List.mem_cons.mp hc with h | h
        · exact absurd h.symm hdc
        · exact h
      rw [ih hmem (List.nodup_cons.mp hnd).2]
      ring

theorem sumOn_le {cs : List String} {f g : String → ℤ}
    (h : ∀ c ∈ cs, f c ≤ g c) : sumOn cs f ≤ sumOn cs g := by
  induction cs with
  | nil => simp [sumOn_nil]
  | cons c cs ih =>
    rw [sumOn_cons, sumOn_cons]
    exact add_le_add (h c (List.mem_cons_self _ _))
      (ih (fun d hd => h d (List.mem_cons_of_mem _ hd)))

theorem sumOn_intCast (cs : List String) (f : String → ℤ) :
    ((sumOn cs f : ℤ) : ℚ) = sumOn cs (fun c => (f c : ℚ)) := by
  induction cs with
  | nil => simp [sumOn_nil]
  | cons c cs ih => rw [sumOn_cons, sumOn_cons, Int.cast_add, ih]

theorem sumOn_mul_left (cs : List String) (a : ℚ) (f : String → ℚ) :
    sumOn cs (fun c => a * f c) = a * sumOn cs f := by
  induction cs with
  | nil => simp [sumOn_nil]
  | cons c cs ih => rw [sumOn_cons, sumOn_cons, ih]; ring

theorem floor_le_bround (x : ℚ) : ⌊x⌋ ≤ bround x := by
  unfold bround
  split
  · exact le_refl _
  · split
    · omega
    · split
      · exact le_refl _
      · omega

theorem bround_le_add (x : ℚ) : (bround x : ℚ) ≤ x + 1/2 := by
  have hfl : (⌊x⌋ : ℚ) ≤ x := Int.floor_le x
  have hfr : x < ⌊x⌋ + 1 := Int.lt_floor_add_one x
  unfold bround
  split
  · linarith
  · split
    · push_cast; linarith
    · split
      · linarith
      · push_cast; linarith

theorem sub_le_bround (x : ℚ) : x - 1/2 ≤ (bround x : ℚ) := by
  have hfl : (⌊x⌋ : ℚ) ≤ x := Int.floor_le x
  have hfr : x < ⌊x⌋ + 1 := Int.lt_floor_add_one x
  unfold bround
  split
  · next h => linarith
  · split
    · push_cast; linarith
    · split
      · next h1 h2 _ =>
        push_neg at h1 h2
        linarith
      · next h1 h2 _ =>
        push_neg at h1 h2
        push_cast
        linarith

theorem bround_nonneg {x : ℚ} (h : 0 ≤ x) : 0 ≤ bround x :=
  le_trans (Int.floor_nonneg.mpr h) (floor_le_bround x)

end Balance

namespace Balance

theorem ratioOf_cons_self (k : String) (v : ℚ) (t : List (String × ℚ)) :
    ratioOf ((k, v) :: t) k = v := by
  simp [ratioOf, List.find?_cons]

theorem ratioOf_cons_other (k : String) (v : ℚ) (t : List (String × ℚ))
    {c : String} (h : c ≠ k) : ratioOf ((k, v) :: t) c = ratioOf t c := by
  simp only [ratioOf, List.find?_cons]
  have : (decide ((k, v).1 = c)) = false := by
    simp [h.symm]
  rw [this]

theorem sumOn_keys_ratioOf :
    ∀ (l : List (String × ℚ)), (l.map (fun p => p.1)).Nodup →
      sumOn (l.map (fun p => p.1)) (ratioOf l) = (l.map (fun p => p.2)).sum := by
  intro l
  induction l with
  | nil => intro _; simp [sumOn_nil]
  | cons p t ih =>
    intro hnd
    obtain ⟨k, v⟩ := p
    simp only [List.map_cons, List.nodup_cons] at hnd
    rw [List.map_cons, sumOn_cons, ratioOf_cons_self, List.map_cons, List.sum_cons]
    congr 1
    rw [← ih hnd.2]
    apply sumOn_congr
    intro c hc
    have hck : c ≠ k := by
      rintro rfl
      exact hnd.1 hc
    exact ratioOf_cons_other k v t hck

theorem ratioOf_mem_or_zero (l : List (String × ℚ)) (c : String) :
    (∃ p ∈ l, p.1 = c ∧ p.2 = ratioOf l c) ∨ ratioOf l c = 0 := by
  unfold ratioOf
  cases hf : l.find? (fun p => decide (p.1 = c)) with
  | none => right; rfl
  | some p =>
    left
    refine ⟨p, List.mem_of_find?_eq_some hf, ?_, rfl⟩
    have := List.find?_some hf
    simpa using this

theorem normRatios_nonneg {ratiosL : List (String × ℚ)}
    (h : ∀ p ∈ ratiosL, 0 ≤ p.2) :
    ∀ p ∈ normRatios ratiosL, 0 ≤ p.2 := by
  intro p hp
  unfold normRatios at hp
  rcases List.mem_map.mp hp with ⟨q, hq, rfl⟩
  have hs0 : 0 ≤ (ratiosL.map (fun p => p.2)).sum := by
    apply List.sum_nonneg
    intro x hx
    rcases List.mem_map.mp hx with ⟨r, hr, rfl⟩
    exact h r hr
  by_cases hz : (ratiosL.map (fun p => p.2)).sum = 0
  · simp only [hz, if_pos rfl]
    have := h q hq
    positivity
  · simp only [if_neg hz]
    exact div_nonneg (h q hq) hs0

theorem ratioOf_nonneg {l : List (String × ℚ)} (h : ∀ p ∈ l, 0 ≤ p.2) (c : String) :
    0 ≤ ratioOf l c := by
  rcases ratioOf_mem_or_zero l c with ⟨p, hp, _, hv⟩ | hz
  · exact hv ▸ h p hp
  · rw [hz]

theorem normRatios_eq_self {ratiosL : List (String × ℚ)}
    (h : (ratiosL.map (fun p => p.2)).sum = 1) : normRatios ratiosL = ratiosL := by
  unfold normRatios
  rw [h]
  simp

theorem classesOf_eq_keys {ratiosL : List (String × ℚ)} :
    classesOf ratiosL = ratiosL.map (fun p => p.1) := by
  unfold classesOf normRatios
  rw [List.map_map]
  rfl

end Balance

namespace Balance

theorem sortAscBy_perm {β : Type} [LinearOrder β] (key : String → β) (cs : List String) :
    List.Perm (sortAscBy key cs) cs :=
  List.perm_insertionSort _ cs

theorem sortDescBy_perm {β : Type} [LinearOrder β] (key : String → β) (cs : List String) :
    List.Perm (sortDescBy key cs) cs :=
  List.perm_insertionSort _ cs

theorem sortAscBy_pairwise {β : Type} [LinearOrder β] (key : String → β) (cs : List String) :
    (sortAscBy key cs).Pairwise (fun a b => key a ≤ key b) := by
  haveI : IsTotal String (fun a b => key a ≤ key b) := ⟨fun a b => le_total _ _⟩
  haveI : IsTrans String (fun a b => key a ≤ key b) := ⟨fun a b c h1 h2 => le_trans h1 h2⟩
  exact List.sorted_insertionSort _ cs

theorem sortDescBy_pairwise {β : Type} [LinearOrder β] (key : String → β) (cs : List String) :
    (sortDescBy key cs).Pairwise (fun a b => key b ≤ key a) := by
  haveI : IsTotal String (fun a b => key b ≤ key a) := ⟨fun a b => (le_total _ _).symm⟩
  haveI : IsTrans String (fun a b => key b ≤ key a) := ⟨fun a b c h1 h2 => le_trans h2 h1⟩
  exact List.sorted_insertionSort _ cs

theorem orderOf_perm (ratiosL : List (String × ℚ)) (target : ℤ) :
    List.Perm (orderOf ratiosL target) (classesOf ratiosL) := by
  unfold orderOf
  split
  · exact sortDescBy_perm _ _
  · exact sortAscBy_perm _ _

theorem neg_sum_le_half_countP (cs : List String) (f : String → ℚ)
    (hb : ∀ c ∈ cs, -(1/2) ≤ f c) :
    -(sumOn cs f) ≤ (1/2) * (cs.countP (fun c => decide (f c < 0)) : ℚ) := by
  induction cs with
  | nil => simp [sumOn_nil]
  | cons c cs ih =>
    have hc := hb c (List.mem_cons_self _ _)
    have ihh := ih (fun d hd => hb d (List.mem_cons_of_mem _ hd))
    rw [sumOn_cons, List.countP_cons]
    by_cases hneg : f c < 0
    · have hd : (decide (f c < 0)) = true := decide_eq_true hneg
      simp [hd]
      push_cast
      linarith
    · have hd : (decide (f c < 0)) = false := decide_eq_false hneg
      simp [hd]
      push_cast
      have h0 : 0 ≤ f c := not_lt.mp hneg
      linarith

theorem pos_sum_le_half_countP (cs : List String) (f : String → ℚ)
    (hb : ∀ c ∈ cs, f c ≤ 1/2) :
    sumOn cs f ≤ (1/2) * (cs.countP (fun c => decide (0 < f c)) : ℚ) := by
  induction cs with
  | nil => simp [sumOn_nil]
  | cons c cs ih =>
    have hc := hb c (List.mem_cons_self _ _)
    have ihh := ih (fun d hd => hb d (List.mem_cons_of_mem _ hd))
    rw [sumOn_cons, List.countP_cons]
    by_cases hpos : 0 < f c
    · have hd : (decide (0 < f c)) = true := decide_eq_true hpos
      simp [hd]
      push_cast
      linarith
    · have hd : (decide (0 < f c)) = false := decide_eq_false hpos
      simp [hd]
      push_cast
      have h0 : f c ≤ 0 := not_lt.mp hpos
      linarith

end Balance

namespace Balance

theorem getD_eq_getElem_of_lt {l : List String} {j : ℕ} (h : j < l.length) :
    l.getD j "" = l[j] := by
  rw [List.getD_eq_getElem?_getD, List.getElem?_eq_getElem h]
  rfl

theorem getD_mem_of_lt {l : List String} {j : ℕ} (h : j < l.length) :
    l.getD j "" ∈ l := by
  rw [getD_eq_getElem_of_lt h]
  exact List.getElem_mem h

theorem nodup_getD_ne {l : List String} (hnd : l.Nodup) {i j : ℕ}
    (hi : i < l.length) (hj : j < l.length) (hij : i ≠ j) :
    l.getD i "" ≠ l.getD j "" := by
  rw [getD_eq_getElem_of_lt hi, getD_eq_getElem_of_lt hj]
  intro heq
  exact hij ((hnd.getElem_inj_iff).mp heq)

theorem sorted_first_neg {o : List String} {key : String → ℚ}
    (hsort : o.Pairwise (fun a b => key a ≤ key b)) {k : ℕ}
    (hk : k ≤ o.countP (fun c => decide (key c < 0))) :
    ∀ j, j < k → key (o.getD j "") < 0 := by
  intro j hj
  by_contra h0
  push_neg at h0
  have hjlen : j < o.length :=
    lt_of_lt_of_le hj (le_trans hk (List.countP_le_length _))
  have hdrop : o.drop j = o[j] :: o.drop (j + 1) := List.drop_eq_getElem_cons hjlen
  have hdropsorted : (o.drop j).Pairwise (fun a b => key a ≤ key b) :=
    hsort.sublist (List.drop_sublist j o)
  have hdropnn : ∀ b ∈ o.drop j, ¬ (decide (key b < 0) = true) := by
    intro b hb
    simp only [decide_eq_true_eq, not_lt]
    rw [hdrop] at hb hdropsorted
    rcases List.mem_cons.mp hb with rfl | hb2
    · rw [getD_eq_getElem_of_lt hjlen] at h0
      exact h0
    · have := (List.pairwise_cons.mp hdropsorted).1 b hb2
      rw [getD_eq_getElem_of_lt hjlen] at h0
      exact le_trans h0 this
  have hsplit : o.countP (fun c => decide (key c < 0))
      = (o.take j).countP (fun c => decide (key c < 0))
        + (o.drop j).countP (fun c => decide (key c < 0)) := by
    conv_lhs => rw [← List.take_append_drop j o]
    exact List.countP_append _ (List.take j o) (List.drop j o)
  have hz : (o.drop j).countP (fun c => decide (key c < 0)) = 0 :=
    List.countP_eq_zero.mpr hdropnn
  have hle : (o.take j).countP (fun c => decide (key c < 0)) ≤ j := by
    calc (o.take j).countP (fun c => decide (key c < 0))
        ≤ (o.take j).length := List.countP_le_length _
      _ ≤ j := by simp [List.length_take]
  omega

theorem sorted_first_pos {o : List String} {key : String → ℚ}
    (hsort : o.Pairwise (fun a b => key b ≤ key a)) {k : ℕ}
    (hk : k ≤ o.countP (fun c => decide (0 < key c))) :
    ∀ j, j < k → 0 < key (o.getD j "") := by
  intro j hj
  by_contra h0
  push_neg at h0
  have hjlen : j < o.length :=
    lt_of_lt_of_le hj (le_trans hk (List.countP_le_length _))
  have hdrop : o.drop j = o[j] :: o.drop (j + 1) := List.drop_eq_getElem_cons hjlen
  have hdropsorted : (o.drop j).Pairwise (fun a b => key b ≤ key a) :=
    hsort.sublist (List.drop_sublist j o)
  have hdropnn : ∀ b ∈ o.drop j, ¬ (decide (0 < key b) = true) := by
    intro b hb
    simp only [decide_eq_true_eq, not_lt]
    rw [hdrop] at hb hdropsorted
    rcases List.mem_cons.mp hb with rfl | hb2
    · rw [getD_eq_getElem_of_lt hjlen] at h0
      exact h0
    · have := (List.pairwise_cons.mp hdropsorted).1 b hb2
      rw [getD_eq_getElem_of_lt hjlen] at h0
      exact le_trans this h0
  have hsplit : o.countP (fun c => decide (0 < key c))
      = (o.take j).countP (fun c => decide (0 < key c))
        + (o.drop j).countP (fun c => decide (0 < key c)) := by
    conv_lhs => rw [← List.take_append_drop j o]
    exact List.countP_append _ (List.take j o) (List.drop j o)
  have hz : (o.drop j).countP (fun c => decide (0 < key c)) = 0 :=
    List.countP_eq_zero.mpr hdropnn
  have hle : (o.take j).countP (fun c => decide (0 < key c)) ≤ j := by
    calc (o.take j).countP (fun c => decide (0 < key c))
        ≤ (o.take j).length := List.countP_le_length _
      _ ≤ j := by simp [List.length_take]
  omega

end Balance

namespace Balance

theorem adjustLoopF_pos_spec (order : List String) (hnd : order.Nodup) :
    ∀ (n : ℕ) (desired : String → ℤ) (i : ℕ), i + n ≤ order.length →
      ((∀ c, (∀ j, i ≤ j → j < i + n → order.getD j "" ≠ c) →
          adjustLoopF order n desired (n : ℤ) i c = desired c)
      ∧ (∀ c, adjustLoopF order n desired (n : ℤ) i c = desired c
            ∨ adjustLoopF order n desired (n : ℤ) i c = desired c + 1)
      ∧ (∀ cs : List String, cs.Nodup →
          (∀ j, i ≤ j → j < i + n → order.getD j "" ∈ cs) →
          sumOn cs (adjustLoopF order n desired (n : ℤ) i) = sumOn cs desired + n)) := by
  intro n
  induction n with
  | zero =>
    intro desired i _
    refine ⟨fun c _ => rfl, fun c => Or.inl rfl, fun cs _ _ => by simp [adjustLoopF]⟩
  | succ n ih =>
    intro desired i hlen
    have hilen : i < order.length := by omega
    have hcond : ¬ (((n + 1 : ℕ) : ℤ) = 0 ∨ order.length ≤ i) := by
      push_neg
      constructor
      · exact_mod_cast Nat.succ_ne_zero n
      · omega
    have hposd : (0 : ℤ) < ((n + 1 : ℕ) : ℤ) := by positivity
    have hstep : adjustLoopF order (n + 1) desired ((n + 1 : ℕ) : ℤ) i
        = adjustLoopF order n
            (upd desired (order.getD i "") (desired (order.getD i "") + 1))
            (n : ℤ) ((i + 1) % order.length) := by
      conv_lhs => rw [adjustLoopF]
      rw [if_neg hcond, if_pos hposd, if_pos hposd]
      congr 1
      push_cast
      ring
    set c0 := order.getD i "" with hc0
    rcases Nat.eq_zero_or_pos n with rfl | hn
    · rw [hstep]
      refine ⟨?_, ?_, ?_⟩
      · intro c hunt
        have hne : c0 ≠ c := hunt i (le_refl i) (by omega)
        simp [adjustLoopF, upd_other _ _ _ (fun h => hne h.symm)]
      · intro c
        by_cases hc : c = c0
        · subst hc
          right
          simp [adjustLoopF, upd_same]
        · left
          simp [adjustLoopF, upd_other _ _ _ hc]
      · intro cs hndcs hmem
        have hc0mem : c0 ∈ cs := hmem i (le_refl i) (by omega)
        simp only [adjustLoopF]
        rw [sumOn_upd desired _ hc0mem hndcs]
        push_cast
        ring
    · have hi1 : (i + 1) % order.length = i + 1 := Nat.mod_eq_of_lt (by omega)
      rw [hstep, hi1]
      set desired' := upd desired c0 (desired c0 + 1) with hd'
      have hlen' : (i + 1) + n ≤ order.length := by omega
      obtain ⟨iha, ihb, ihc⟩ := ih desired' (i + 1) hlen'
      refine ⟨?_, ?_, ?_⟩
      · intro c hunt
        have hne : c0 ≠ c := hunt i (le_refl i) (by omega)
        have : adjustLoopF order n desired' (n : ℤ) (i + 1) c = desired' c :=
          iha c (fun j hj1 hj2 => hunt j (by omega) (by omega))
        rw [this, hd', upd_other _ _ _ (fun h => hne h.symm)]
      · intro c
        by_cases hc : c = c0
        · subst hc
          right
          have huntc : ∀ j, i + 1 ≤ j → j < (i + 1) + n → order.getD j "" ≠ c0 := by
            intro j hj1 hj2
            exact nodup_getD_ne hnd (by omega) hilen (by omega)
          rw [iha c0 huntc, hd', upd_same]
        · have hdc : desired' c = desired c := by
            rw [hd', upd_other _ _ _ hc]
          rcases ihb c with h | h
          · left; rw [h, hdc]
          · right; rw [h, hdc]
      · intro cs hndcs hmem
        have hc0mem : c0 ∈ cs := hmem i (le_refl i) (by omega)
        rw [ihc cs hndcs (fun j hj1 hj2 => hmem j (by omega) (by omega))]
        rw [hd', sumOn_upd desired _ hc0mem hndcs]
        push_cast
        ring

end Balance

namespace Balance

theorem adjustLoopF_neg_spec (order : List String) (hnd : order.Nodup) :
    ∀ (n : ℕ) (desired : String → ℤ) (i : ℕ), i + n ≤ order.length →
      (∀ j, i ≤ j → j < i + n → 0 < desired (order.getD j "")) →
      ((∀ c, (∀ j, i ≤ j → j < i + n → order.getD j "" ≠ c) →
          adjustLoopF order n desired (-(n : ℤ)) i c = desired c)
      ∧ (∀ c, adjustLoopF order n desired (-(n : ℤ)) i c = desired c
            ∨ adjustLoopF order n desired (-(n : ℤ)) i c = desired c - 1)
      ∧ (∀ cs : List String, cs.Nodup →
          (∀ j, i ≤ j → j < i + n → order.getD j "" ∈ cs) →
          sumOn cs (adjustLoopF order n desired (-(n : ℤ)) i) = sumOn cs desired - n)) := by
  intro n
  induction n with
  | zero =>
    intro desired i _ _
    refine ⟨fun c _ => rfl, fun c => Or.inl rfl, fun cs _ _ => by simp [adjustLoopF]⟩
  | succ n ih =>
    intro desired i hlen hpos
    have hilen : i < order.length := by omega
    have hcond : ¬ ((-((n + 1 : ℕ) : ℤ)) = 0 ∨ order.length ≤ i) := by
      push_neg
      constructor
      · intro h
        have : ((n + 1 : ℕ) : ℤ) = 0 := by omega
        exact absurd this (by exact_mod_cast Nat.succ_ne_zero n)
      · omega
    have hnegd : ¬ (0 : ℤ) < (-((n + 1 : ℕ) : ℤ)) := by
      have : (0 : ℤ) < ((n + 1 : ℕ) : ℤ) := by positivity
      omega
    have hc0pos : 0 < desired (order.getD i "") := hpos i (le_refl i) (by omega)
    have hstep : adjustLoopF order (n + 1) desired (-((n + 1 : ℕ) : ℤ)) i
        = adjustLoopF order n
            (upd desired (order.getD i "") (desired (order.getD i "") - 1))
            (-(n : ℤ)) ((i + 1) % order.length) := by
      conv_lhs => rw [adjustLoopF]
      rw [if_neg hcond, if_neg hnegd, if_pos hc0pos, if_neg hnegd]
      congr 1
      push_cast
      ring
    set c0 := order.getD i "" with hc0
    rcases Nat.eq_zero_or_pos n with rfl | hn
    · rw [hstep]
      refine ⟨?_, ?_, ?_⟩
      · intro c hunt
        have hne : c0 ≠ c := hunt i (le_refl i) (by omega)
        simp [adjustLoopF, upd_other _ _ _ (fun h => hne h.symm)]
      · intro c
        by_cases hc : c = c0
        · subst hc
          right
          simp [adjustLoopF, upd_same]
        · left
          simp [adjustLoopF, upd_other _ _ _ hc]
      · intro cs hndcs hmem
        have hc0mem : c0 ∈ cs := hmem i (le_refl i) (by omega)
        simp only [adjustLoopF]
        rw [sumOn_upd desired _ hc0mem hndcs]
        push_cast
        ring
    · have hi1 : (i + 1) % order.length = i + 1 := Nat.mod_eq_of_lt (by omega)
      rw [hstep, hi1]
      set desired' := upd desired c0 (desired c0 - 1) with hd'
      have hlen' : (i + 1) + n ≤ order.length := by omega
      have hpos' : ∀ j, i + 1 ≤ j → j < (i + 1) + n → 0 < desired' (order.getD j "") := by
        intro j hj1 hj2
        have hne : order.getD j "" ≠ c0 :=
          nodup_getD_ne hnd (by omega) hilen (by omega)
        rw [hd', upd_other _ _ _ hne]
        exact hpos j (by omega) (by omega)
      obtain ⟨iha, ihb, ihc⟩ := ih desired' (i + 1) hlen' hpos'
      refine ⟨?_, ?_, ?_⟩
      · intro c hunt
        have hne : c0 ≠ c := hunt i (le_refl i) (by omega)
        have : adjustLoopF order n desired' (-(n : ℤ)) (i + 1) c = desired' c :=
          iha c (fun j hj1 hj2 => hunt j (by omega) (by omega))
        rw [this, hd', upd_other _ _ _ (fun h => hne h.symm)]
      · intro c
        by_cases hc : c = c0
        · subst hc
          right
          have huntc : ∀ j, i + 1 ≤ j → j < (i + 1) + n → order.getD j "" ≠ c0 := by
            intro j hj1 hj2
            exact nodup_getD_ne hnd (by omega) hilen (by omega)
          rw [iha c0 huntc, hd', upd_same]
        · have hdc : desired' c = desired c := by
            rw [hd', upd_other _ _ _ hc]
          rcases ihb c with h | h
          · left; rw [h, hdc]
          · right; rw [h, hdc]
      · intro cs hndcs hmem
        have hc0mem : c0 ∈ cs := hmem i (le_refl i) (by omega)
        rw [ihc cs hndcs (fun j hj1 hj2 => hmem j (by omega) (by omega))]
        rw [hd', sumOn_upd desired _ hc0mem hndcs]
        push_cast
        ring

/-- The adjustment loop never drives a desired count negative: a subtraction
is only performed on a strictly positive count. -/
theorem adjustLoopF_nonneg (order : List String) :
    ∀ (fuel : ℕ) (desired : String → ℤ) (diff : ℤ) (i : ℕ) (c : String),
      0 ≤ desired c → 0 ≤ adjustLoopF order fuel desired diff i c := by
  intro fuel
  induction fuel with
  | zero => intro desired diff i c h; exact h
  | succ n ih =>
    intro desired diff i c h
    rw [adjustLoopF]
    split
    · exact h
    · apply ih
      by_cases hd : 0 < diff
      · rw [if_pos hd]
        by_cases hc : c = order.getD i ""
        · subst hc
          rw [upd_same]
          omega
        · rw [upd_other _ _ _ hc]
          exact h
      · rw [if_neg hd]
        by_cases hp : 0 < desired (order.getD i "")
        · rw [if_pos hp]
          by_cases hc : c = order.getD i ""
          · subst hc
            rw [upd_same]
            omega
          · rw [upd_other _ _ _ hc]
            exact h
        · rw [if_neg hp]
          exact h

end Balance

namespace Balance

theorem sumOn_sub (cs : List String) (f g : String → ℚ) :
    sumOn cs (fun c => f c - g c) = sumOn cs f - sumOn cs g := by
  induction cs with
  | nil => simp [sumOn_nil]
  | cons c cs ih => rw [sumOn_cons, sumOn_cons, sumOn_cons, ih]; ring

theorem remainderKey_bounds (ratiosL : List (String × ℚ)) (target : ℤ) (c : String) :
    -(1/2) ≤ remainderKey ratiosL target c ∧ remainderKey ratiosL target c ≤ 1/2 := by
  unfold remainderKey desiredInit
  constructor
  · have := bround_le_add ((target : ℚ) * ratioOf (normRatios ratiosL) c)
    linarith
  · have := sub_le_bround ((target : ℚ) * ratioOf (normRatios ratiosL) c)
    linarith

theorem desiredInit_nonneg (ratiosL : List (String × ℚ)) (target : ℤ)
    (h2 : ∀ p ∈ ratiosL, 0 ≤ p.2) (h4 : 0 ≤ target) (c : String) :
    0 ≤ desiredInit ratiosL target c := by
  unfold desiredInit
  apply bround_nonneg
  have hr : 0 ≤ ratioOf (normRatios ratiosL) c :=
    ratioOf_nonneg (normRatios_nonneg h2) c
  have ht : (0 : ℚ) ≤ (target : ℚ) := by exact_mod_cast h4
  positivity

theorem ratio_x_nonneg (ratiosL : List (String × ℚ)) (target : ℤ)
    (h2 : ∀ p ∈ ratiosL, 0 ≤ p.2) (h4 : 0 ≤ target) (c : String) :
    0 ≤ (target : ℚ) * ratioOf (normRatios ratiosL) c := by
  have hr : 0 ≤ ratioOf (normRatios ratiosL) c :=
    ratioOf_nonneg (normRatios_nonneg h2) c
  have ht : (0 : ℚ) ≤ (target : ℚ) := by exact_mod_cast h4
  positivity

theorem sum_x_eq_target (ratiosL : List (String × ℚ)) (target : ℤ)
    (h1 : (ratiosL.map (fun p => p.2)).sum = 1)
    (h3 : (ratiosL.map (fun p => p.1)).Nodup) :
    sumOn (classesOf ratiosL)
      (fun c => (target : ℚ) * ratioOf (normRatios ratiosL) c) = (target : ℚ) := by
  rw [normRatios_eq_self h1, classesOf_eq_keys]
  rw [sumOn_mul_left, sumOn_keys_ratioOf ratiosL h3, h1, mul_one]

theorem diffQ_eq_sum_remainder (ratiosL : List (String × ℚ)) (target : ℤ)
    (h1 : (ratiosL.map (fun p => p.2)).sum = 1)
    (h3 : (ratiosL.map (fun p => p.1)).Nodup) :
    ((diffOf ratiosL target : ℤ) : ℚ)
      = sumOn (classesOf ratiosL) (remainderKey ratiosL target) := by
  have hx := sum_x_eq_target ratiosL target h1 h3
  unfold diffOf
  rw [Int.cast_sub, sumOn_intCast]
  unfold remainderKey
  rw [sumOn_sub]
  rw [hx]

theorem sumOn_desiredInit_eq (ratiosL : List (String × ℚ)) (target : ℤ) :
    sumOn (classesOf ratiosL) (desiredInit ratiosL target)
      = target - diffOf ratiosL target := by
  unfold diffOf
  ring

end Balance

namespace Balance

theorem adjustLoop_eq_of_nonneg (order : List String) (desired : String → ℤ) (i : ℕ)
    (n : ℕ) (diff : ℤ) (hd : diff = (n : ℤ)) :
    adjustLoop order desired diff i = adjustLoopF order n desired ((n : ℕ) : ℤ) i := by
  subst hd
  unfold adjustLoop
  rw [Int.natAbs_ofNat n]

theorem adjustLoop_eq_of_neg (order : List String) (desired : String → ℤ) (i : ℕ)
    (n : ℕ) (diff : ℤ) (hd : diff = -(n : ℤ)) :
    adjustLoop order desired diff i = adjustLoopF order n desired (-(n : ℤ)) i := by
  subst hd
  unfold adjustLoop
  have h : (-(n : ℤ)).natAbs = n := by omega
  rw [h]


/-- Net effect of the rounding-adjustment pass: when the ratios are
nonnegative, sum to one, and carry distinct class keys, and the target is
nonnegative, the adjusted quotas sum exactly to the target and each class
moves by at most one from its rounded quota. -/
theorem desiredAdj_spec (ratiosL : List (String × ℚ)) (target : ℤ)
    (h1 : (ratiosL.map (fun p => p.2)).sum = 1)
    (h2 : ∀ p ∈ ratiosL, 0 ≤ p.2)
    (h3 : (ratiosL.map (fun p => p.1)).Nodup)
    (h4 : 0 ≤ target) :
    sumOn (classesOf ratiosL) (desiredAdj ratiosL target) = target
    ∧ (∀ c, desiredAdj ratiosL target c = desiredInit ratiosL target c
          ∨ desiredAdj ratiosL target c = desiredInit ratiosL target c + 1
          ∨ desiredAdj ratiosL target c = desiredInit ratiosL target c - 1) := by
  have hndc : (classesOf ratiosL).Nodup := by
    rw [classesOf_eq_keys]; exact h3
  have hperm := orderOf_perm ratiosL target
  have hndo : (orderOf ratiosL target).Nodup := (hperm.nodup_iff).mpr hndc
  have hmemo : ∀ j, j < (orderOf ratiosL target).length →
      (orderOf ratiosL target).getD j "" ∈ classesOf ratiosL :=
    fun j hj => hperm.mem_iff.mp (getD_mem_of_lt hj)
  have hdiffQ := diffQ_eq_sum_remainder ratiosL target h1 h3
  have hsumInit := sumOn_desiredInit_eq ratiosL target
  rcases lt_trichotomy (diffOf ratiosL target) 0 with hneg | hzero | hpos
  · -- overshoot: one subtraction per visited class, ascending remainder order
    have hd : diffOf ratiosL target = -(((diffOf ratiosL target).natAbs : ℕ) : ℤ) := by
      omega
    have hDA := adjustLoop_eq_of_neg (orderOf ratiosL target) (desiredInit ratiosL target)
      0 (diffOf ratiosL target).natAbs (diffOf ratiosL target) hd
    have horder : orderOf ratiosL target
        = sortAscBy (remainderKey ratiosL target) (classesOf ratiosL) := by
      unfold orderOf
      rw [if_neg (by omega)]
    have hhalf := neg_sum_le_half_countP (classesOf ratiosL) (remainderKey ratiosL target)
      (fun c _ => (remainderKey_bounds ratiosL target c).1)
    have hcounteq : (orderOf ratiosL target).countP
          (fun c => decide (remainderKey ratiosL target c < 0))
        = (classesOf ratiosL).countP
          (fun c => decide (remainderKey ratiosL target c < 0)) :=
      hperm.countP_eq _
    have hnleq : (diffOf ratiosL target).natAbs
        ≤ (orderOf ratiosL target).countP
          (fun c => decide (remainderKey ratiosL target c < 0)) := by
      have hq : (((diffOf ratiosL target).natAbs : ℕ) : ℚ)
          = -(((diffOf ratiosL target) : ℤ) : ℚ) := by
        rw [Int.cast_natAbs, abs_of_neg hneg]
        push_cast
        ring
      have h2n : (((diffOf ratiosL target).natAbs : ℕ) : ℚ)
          ≤ (1/2) * ((classesOf ratiosL).countP
              (fun c => decide (remainderKey ratiosL target c < 0)) : ℚ) := by
        rw [hq, hdiffQ]; exact hhalf
      have hq3 : 2 * (diffOf ratiosL target).natAbs
          ≤ (classesOf ratiosL).countP
              (fun c => decide (remainderKey ratiosL target c < 0)) := by
        have : ((2 * (diffOf ratiosL target).natAbs : ℕ) : ℚ)
            ≤ ((classesOf ratiosL).countP
                (fun c => decide (remainderKey ratiosL target c < 0)) : ℚ) := by
          push_cast
          push_cast at h2n
          linarith
        exact_mod_cast this
      omega
    have hlen : 0 + (diffOf ratiosL target).natAbs ≤ (orderOf ratiosL target).length := by
      have := List.countP_le_length
        (fun c => decide (remainderKey ratiosL target c < 0))
        (l := orderOf ratiosL target)
      omega
    have hfirst : ∀ j, j < (diffOf ratiosL target).natAbs →
        remainderKey ratiosL target ((orderOf ratiosL target).getD j "") < 0 := by
      intro j hj
      have hsorted : (orderOf ratiosL target).Pairwise
          (fun a b => remainderKey ratiosL target a ≤ remainderKey ratiosL target b) := by
        rw [horder]
        exact sortAscBy_pairwise _ _
      exact sorted_first_neg hsorted hnleq j hj
    have hposv : ∀ j, 0 ≤ j → j < 0 + (diffOf ratiosL target).natAbs →
        0 < desiredInit ratiosL target ((orderOf ratiosL target).getD j "") := by
      intro j _ hj
      have hrk := hfirst j (by omega)
      have hx0 := ratio_x_nonneg ratiosL target h2 h4 ((orderOf ratiosL target).getD j "")
      unfold remainderKey at hrk
      have hq : (0 : ℚ) < (desiredInit ratiosL target
          ((orderOf ratiosL target).getD j "") : ℚ) := by linarith
      exact_mod_cast hq
    obtain ⟨sa, sb, sc⟩ := adjustLoopF_neg_spec (orderOf ratiosL target) hndo
      (diffOf ratiosL target).natAbs (desiredInit ratiosL target) 0 hlen hposv
    constructor
    · unfold desiredAdj
      rw [hDA]
      rw [sc (classesOf ratiosL) hndc (fun j _ hj => hmemo j (by omega))]
      rw [hsumInit]
      omega
    · intro c
      unfold desiredAdj
      rw [hDA]
      rcases sb c with h | h
      · left; exact h
      · right; right; exact h
  · -- already exact: the loop does not run
    have hd : diffOf ratiosL target = -((0 : ℕ) : ℤ) := by omega
    have hDA := adjustLoop_eq_of_neg (orderOf ratiosL target) (desiredInit ratiosL target)
      0 0 (diffOf ratiosL target) hd
    constructor
    · unfold desiredAdj
      rw [hDA]
      show sumOn (classesOf ratiosL) (desiredInit ratiosL target) = target
      omega
    · intro c
      unfold desiredAdj
      rw [hDA]
      left
      rfl
  · -- shortfall: one addition per visited class, descending remainder order
    have hd : diffOf ratiosL target = (((diffOf ratiosL target).natAbs : ℕ) : ℤ) := by
      omega
    have hDA := adjustLoop_eq_of_nonneg (orderOf ratiosL target) (desiredInit ratiosL target)
      0 (diffOf ratiosL target).natAbs (diffOf ratiosL target) hd
    have hhalf := pos_sum_le_half_countP (classesOf ratiosL) (remainderKey ratiosL target)
      (fun c _ => (remainderKey_bounds ratiosL target c).2)
    have hcounteq : (orderOf ratiosL target).countP
          (fun c => decide (0 < remainderKey ratiosL target c))
        = (classesOf ratiosL).countP
          (fun c => decide (0 < remainderKey ratiosL target c)) :=
      hperm.countP_eq _
    have hnleq : (diffOf ratiosL target).natAbs
        ≤ (orderOf ratiosL target).countP
          (fun c => decide (0 < remainderKey ratiosL target c)) := by
      have hq : (((diffOf ratiosL target).natAbs : ℕ) : ℚ)
          = (((diffOf ratiosL target) : ℤ) : ℚ) := by
        rw [Int.cast_natAbs, abs_of_pos hpos]
      have h2n : (((diffOf ratiosL target).natAbs : ℕ) : ℚ)
          ≤ (1/2) * ((classesOf ratiosL).countP
              (fun c => decide (0 < remainderKey ratiosL target c)) : ℚ) := by
        rw [hq, hdiffQ]; exact hhalf
      have hq3 : 2 * (diffOf ratiosL target).natAbs
          ≤ (classesOf ratiosL).countP
              (fun c => decide (0 < remainderKey ratiosL target c)) := by
        have : ((2 * (diffOf ratiosL target).natAbs : ℕ) : ℚ)
            ≤ ((classesOf ratiosL).countP
                (fun c => decide (0 < remainderKey ratiosL target c)) : ℚ) := by
          push_cast
          push_cast at h2n
          linarith
        exact_mod_cast this
      omega
    have hlen : 0 + (diffOf ratiosL target).natAbs ≤ (orderOf ratiosL target).length := by
      have := List.countP_le_length
        (fun c => decide (0 < remainderKey ratiosL target c))
        (l := orderOf ratiosL target)
      omega
    obtain ⟨sa, sb, sc⟩ := adjustLoopF_pos_spec (orderOf ratiosL target) hndo
      (diffOf ratiosL target).natAbs (desiredInit ratiosL target) 0 hlen
    constructor
    · unfold desiredAdj
      rw [hDA]
      rw [sc (classesOf ratiosL) hndc (fun j _ hj => hmemo j (by omega))]
      rw [hsumInit]
      omega
    · intro c
      unfold desiredAdj
      rw [hDA]
      rcases sb c with h | h
      · left; exact h
      · right; left; exact h

/-- The adjusted quotas are nonnegative whenever ratios and target are. -/
theorem desiredAdj_nonneg (ratiosL : List (String × ℚ)) (target : ℤ)
    (h2 : ∀ p ∈ ratiosL, 0 ≤ p.2) (h4 : 0 ≤ target) (c : String) :
    0 ≤ desiredAdj ratiosL target c := by
  unfold desiredAdj adjustLoop
  exact adjustLoopF_nonneg _ _ _ _ _ _ (desiredInit_nonneg ratiosL target h2 h4 c)

end Balance

namespace Balance

theorem redistLoop_of_nonpos (pool : List String) (fuel : ℕ) (takeT remT : String → ℤ)
    (deficit : ℤ) (j : ℕ) (h : deficit ≤ 0) :
    redistLoop pool fuel takeT remT deficit j = (takeT, remT, deficit) := by
  cases fuel with
  | zero => rfl
  | succ n =>
    rw [redistLoop]
    rw [if_neg]
    rintro ⟨h1, _⟩
    omega

theorem redistLoop_invariants (pool classes : List String)
    (hmem : ∀ c ∈ pool, c ∈ classes) (hndc : classes.Nodup) (avail : String → ℤ) :
    ∀ (fuel : ℕ) (takeT remT : String → ℤ) (deficit : ℤ) (j : ℕ),
      (∀ c, takeT c + remT c = avail c) →
      (∀ c, 0 ≤ remT c) →
      0 ≤ deficit →
      ((∀ c, (redistLoop pool fuel takeT remT deficit j).1 c
            + (redistLoop pool fuel takeT remT deficit j).2.1 c = avail c)
      ∧ (∀ c, 0 ≤ (redistLoop pool fuel takeT remT deficit j).2.1 c)
      ∧ 0 ≤ (redistLoop pool fuel takeT remT deficit j).2.2
      ∧ ((redistLoop pool fuel takeT remT deficit j).2.2
            + sumOn classes (redistLoop pool fuel takeT remT deficit j).1
          = deficit + sumOn classes takeT)
      ∧ (∀ c, takeT c ≤ (redistLoop pool fuel takeT remT deficit j).1 c)) := by
  intro fuel
  induction fuel with
  | zero =>
    intro takeT remT deficit j hsum hrem hdef
    exact ⟨hsum, hrem, hdef, by simp [redistLoop], fun c => le_refl _⟩
  | succ n ih =>
    intro takeT remT deficit j hsum hrem hdef
    rw [redistLoop]
    by_cases hguard : 0 < deficit ∧ pool.any (fun c => decide (0 < remT c)) = true
    · rw [if_pos hguard]
      have hlenpos : 0 < pool.length := by
        rcases List.any_eq_true.mp hguard.2 with ⟨c, hc, _⟩
        exact List.length_pos.mpr (List.ne_nil_of_mem hc)
      have hc0p : pool.getD (j % pool.length) "" ∈ pool :=
        getD_mem_of_lt (Nat.mod_lt j hlenpos)
      have hc0c : pool.getD (j % pool.length) "" ∈ classes := hmem _ hc0p
      by_cases hr : 0 < remT (pool.getD (j % pool.length) "")
      · rw [if_pos hr]
        have hsum' : ∀ c,
            upd takeT (pool.getD (j % pool.length) "")
              (takeT (pool.getD (j % pool.length) "") + 1) c
            + upd remT (pool.getD (j % pool.length) "")
              (remT (pool.getD (j % pool.length) "") - 1) c = avail c := by
          intro c
          by_cases hc : c = pool.getD (j % pool.length) ""
          · subst hc
            rw [upd_same, upd_same]
            have h0 := hsum (pool.getD (j % pool.length) "")
            omega
          · rw [upd_other _ _ _ hc, upd_other _ _ _ hc]
            exact hsum c
        have hrem' : ∀ c, 0 ≤ upd remT (pool.getD (j % pool.length) "")
            (remT (pool.getD (j % pool.length) "") - 1) c := by
          intro c
          by_cases hc : c = pool.getD (j % pool.length) ""
          · subst hc
            rw [upd_same]
            omega
          · rw [upd_other _ _ _ hc]
            exact hrem c
        have hdef' : (0 : ℤ) ≤ deficit - 1 := by omega
        obtain ⟨ia, ib, ic, id_, ie⟩ := ih _ _ (deficit - 1) (j + 1) hsum' hrem' hdef'
        refine ⟨ia, ib, ic, ?_, ?_⟩
        · rw [id_]
          rw [sumOn_upd takeT _ hc0c hndc]
          ring
        · intro c
          refine le_trans ?_ (ie c)
          by_cases hc : c = pool.getD (j % pool.length) ""
          · subst hc
            rw [upd_same]
            omega
          · rw [upd_other _ _ _ hc]
      · rw [if_neg hr]
        exact ih _ _ deficit (j + 1) hsum hrem hdef
    · rw [if_neg hguard]
      exact ⟨hsum, hrem, hdef, by simp, fun c => le_refl _⟩

end Balance

namespace Balance

theorem cover_hit (pool : List String) (rem : String → ℤ) (j : ℕ)
    (h : pool.any (fun c => decide (0 < rem c)) = true) :
    ∃ k < pool.length, 0 < rem (pool.getD ((j + k) % pool.length) "") := by
  rcases List.any_eq_true.mp h with ⟨c, hc, hcp⟩
  rcases List.getElem_of_mem hc with ⟨m, hm, hcm⟩
  have hcpos : 0 < rem c := of_decide_eq_true hcp
  have hlen : 0 < pool.length := Nat.lt_of_le_of_lt (Nat.zero_le _) hm
  have hjml : j % pool.length < pool.length := Nat.mod_lt _ hlen
  have hdm := Nat.div_add_mod j pool.length
  by_cases hcase : j % pool.length ≤ m
  · refine ⟨m - j % pool.length, by omega, ?_⟩
    have h1 : j + (m - j % pool.length) = pool.length * (j / pool.length) + m := by
      omega
    rw [h1, Nat.mul_add_mod, Nat.mod_eq_of_lt hm, getD_eq_getElem_of_lt hm, hcm]
    exact hcpos
  · refine ⟨m + pool.length - j % pool.length, by omega, ?_⟩
    have h1 : j + (m + pool.length - j % pool.length)
        = pool.length * (j / pool.length + 1) + m := by
      have hexp : pool.length * (j / pool.length + 1)
          = pool.length * (j / pool.length) + pool.length := by ring
      omega
    rw [h1, Nat.mul_add_mod, Nat.mod_eq_of_lt hm, getD_eq_getElem_of_lt hm, hcm]
    exact hcpos

theorem redistLoop_exit (pool : List String) :
    ∀ (D : ℕ), ∀ (w fuel : ℕ) (takeT remT : String → ℤ) (deficit : ℤ) (j : ℕ),
      deficit ≤ (D : ℤ) →
      (0 < deficit → pool.any (fun c => decide (0 < remT c)) = true →
        ∃ k < w, 0 < remT (pool.getD ((j + k) % pool.length) "")) →
      D * (pool.length + 1) + w + 1 ≤ fuel →
      ¬ (0 < (redistLoop pool fuel takeT remT deficit j).2.2
          ∧ pool.any (fun c =>
              decide (0 < (redistLoop pool fuel takeT remT deficit j).2.1 c)) = true) := by
  intro D
  induction D with
  | zero =>
    intro w fuel takeT remT deficit j hD hhit hfuel
    have hd0 : deficit ≤ 0 := by exact_mod_cast hD
    rw [redistLoop_of_nonpos _ _ _ _ _ _ hd0]
    intro hcon
    have h1 : 0 < deficit := hcon.1
    omega
  | succ D ihD =>
    intro w
    induction w with
    | zero =>
      intro fuel takeT remT deficit j hD hhit hfuel
      by_cases hg : 0 < deficit ∧ pool.any (fun c => decide (0 < remT c)) = true
      · rcases hhit hg.1 hg.2 with ⟨k, hk, _⟩
        omega
      · have hres : redistLoop pool fuel takeT remT deficit j = (takeT, remT, deficit) := by
          cases fuel with
          | zero => rfl
          | succ n => rw [redistLoop, if_neg hg]
        rw [hres]
        exact hg
    | succ w ihw =>
      intro fuel takeT remT deficit j hD hhit hfuel
      have hprod0 : 0 ≤ (D + 1) * (pool.length + 1) := Nat.zero_le _
      obtain ⟨f, rfl⟩ : ∃ f, fuel = f + 1 := ⟨fuel - 1, by omega⟩
      by_cases hg : 0 < deficit ∧ pool.any (fun c => decide (0 < remT c)) = true
      · rw [redistLoop, if_pos hg]
        by_cases hr : 0 < remT (pool.getD (j % pool.length) "")
        · rw [if_pos hr]
          apply ihD pool.length
          · push_cast at hD ⊢
            omega
          · intro hdpos hanyp
            exact cover_hit pool _ (j + 1) hanyp
          · have hexp : (D + 1) * (pool.length + 1)
                = D * (pool.length + 1) + (pool.length + 1) := by ring
            omega
        · rw [if_neg hr]
          apply ihw
          · exact hD
          · intro hdpos hanyp
            rcases hhit hdpos hanyp with ⟨k, hk, hkp⟩
            cases k with
            | zero =>
              exact absurd (by simpa using hkp) hr
            | succ k2 =>
              refine ⟨k2, by omega, ?_⟩
              have hjk : j + 1 + k2 = j + (k2 + 1) := by omega
              rw [hjk]
              exact hkp
          · omega
      · rw [redistLoop, if_neg hg]
        exact hg

end Balance

namespace Balance

theorem takeInit_le_avail (pool : List NewsRow) (ratiosL : List (String × ℚ))
    (target : ℤ) (c : String) :
    takeInit pool ratiosL target c ≤ availOf pool c :=
  min_le_right _ _

theorem takeInit_le_desiredAdj (pool : List NewsRow) (ratiosL : List (String × ℚ))
    (target : ℤ) (c : String) :
    takeInit pool ratiosL target c ≤ desiredAdj ratiosL target c :=
  min_le_left _ _

theorem availOf_nonneg (pool : List NewsRow) (c : String) : 0 ≤ availOf pool c := by
  unfold availOf
  positivity

theorem takeInit_nonneg (pool : List NewsRow) (ratiosL : List (String × ℚ)) (target : ℤ)
    (h2 : ∀ p ∈ ratiosL, 0 ≤ p.2) (h4 : 0 ≤ target) (c : String) :
    0 ≤ takeInit pool ratiosL target c :=
  le_min (desiredAdj_nonneg ratiosL target h2 h4 c) (availOf_nonneg pool c)

theorem remInit_eq (pool : List NewsRow) (ratiosL : List (String × ℚ)) (target : ℤ)
    (c : String) :
    takeInit pool ratiosL target c + remInit pool ratiosL target c = availOf pool c := by
  unfold remInit
  have h := takeInit_le_avail pool ratiosL target c
  rw [max_eq_left (by omega)]
  ring

theorem remInit_nonneg (pool : List NewsRow) (ratiosL : List (String × ℚ)) (target : ℤ)
    (c : String) : 0 ≤ remInit pool ratiosL target c :=
  le_max_right _ _

/-- Combined effect of clipping and redistribution: under the amended claim's
hypotheses the final take counts are nonnegative, bounded by supply, at least
the clipped quota, and sum to the minimum of the target and the total supply
over the ratio classes. -/
theorem takeFinal_spec (pool : List NewsRow) (ratiosL : List (String × ℚ)) (target : ℤ)
    (h1 : (ratiosL.map (fun p => p.2)).sum = 1)
    (h2 : ∀ p ∈ ratiosL, 0 ≤ p.2)
    (h3 : (ratiosL.map (fun p => p.1)).Nodup)
    (h4 : 0 ≤ target) :
    sumOn (classesOf ratiosL) (takeFinal pool ratiosL target)
        = min target (sumOn (classesOf ratiosL) (availOf pool))
    ∧ (∀ c, takeInit pool ratiosL target c ≤ takeFinal pool ratiosL target c)
    ∧ (∀ c, takeFinal pool ratiosL target c ≤ availOf pool c)
    ∧ (∀ c, 0 ≤ takeFinal pool ratiosL target c) := by
  have hndc : (classesOf ratiosL).Nodup := by
    rw [classesOf_eq_keys]; exact h3
  have hperm := sortDescBy_perm (remInit pool ratiosL target) (classesOf ratiosL)
  have hpoolmem : ∀ c ∈ poolOrderOf pool ratiosL target, c ∈ classesOf ratiosL := by
    intro c hc
    unfold poolOrderOf at hc
    exact hperm.mem_iff.mp hc
  have hDA := desiredAdj_spec ratiosL target h1 h2 h3 h4
  have hdef0 : 0 ≤ deficitOf pool ratiosL target := by
    unfold deficitOf
    have hle : sumOn (classesOf ratiosL) (takeInit pool ratiosL target)
        ≤ sumOn (classesOf ratiosL) (desiredAdj ratiosL target) :=
      sumOn_le (fun c _ => takeInit_le_desiredAdj pool ratiosL target c)
    rw [hDA.1] at hle
    omega
  obtain ⟨ia, ib, ic, id_, ie⟩ := redistLoop_invariants
    (poolOrderOf pool ratiosL target) (classesOf ratiosL) hpoolmem hndc (availOf pool)
    (redistFuel pool ratiosL target)
    (takeInit pool ratiosL target) (remInit pool ratiosL target)
    (deficitOf pool ratiosL target) 0
    (remInit_eq pool ratiosL target) (remInit_nonneg pool ratiosL target) hdef0
  have hexit := redistLoop_exit (poolOrderOf pool ratiosL target)
    (deficitOf pool ratiosL target).toNat (poolOrderOf pool ratiosL target).length
    (redistFuel pool ratiosL target)
    (takeInit pool ratiosL target) (remInit pool ratiosL target)
    (deficitOf pool ratiosL target) 0
    (by omega)
    (fun _ hany => cover_hit _ _ 0 hany)
    (by
      unfold redistFuel
      have hexp : ((deficitOf pool ratiosL target).toNat + 1)
            * ((poolOrderOf pool ratiosL target).length + 1)
          = (deficitOf pool ratiosL target).toNat
              * ((poolOrderOf pool ratiosL target).length + 1)
            + ((poolOrderOf pool ratiosL target).length + 1) := by ring
      omega)
  have htf : ∀ c, takeFinal pool ratiosL target c ≤ availOf pool c := by
    intro c
    have := ia c
    have := ib c
    unfold takeFinal
    omega
  have htfle : ∀ c, takeInit pool ratiosL target c ≤ takeFinal pool ratiosL target c := by
    intro c
    exact ie c
  have htf0 : ∀ c, 0 ≤ takeFinal pool ratiosL target c := by
    intro c
    exact le_trans (takeInit_nonneg pool ratiosL target h2 h4 c) (htfle c)
  refine ⟨?_, htfle, htf, htf0⟩
  have hsumtake : (redistLoop (poolOrderOf pool ratiosL target)
        (redistFuel pool ratiosL target) (takeInit pool ratiosL target)
        (remInit pool ratiosL target) (deficitOf pool ratiosL target) 0).2.2
      + sumOn (classesOf ratiosL) (takeFinal pool ratiosL target)
      = target := by
    unfold takeFinal
    rw [id_]
    unfold deficitOf
    ring
  have hsumle : sumOn (classesOf ratiosL) (takeFinal pool ratiosL target)
      ≤ sumOn (classesOf ratiosL) (availOf pool) :=
    sumOn_le (fun c _ => htf c)
  rcases not_and_or.mp hexit with hdz | hanyf
  · -- the deficit was fully resolved
    have hd0 : (redistLoop (poolOrderOf pool ratiosL target)
        (redistFuel pool ratiosL target) (takeInit pool ratiosL target)
        (remInit pool ratiosL target) (deficitOf pool ratiosL target) 0).2.2 = 0 := by
      have := ic
      omega
    rw [hd0] at hsumtake
    rw [min_eq_left (by omega)]
    omega
  · -- every class ran out of remaining supply
    have hremz : ∀ c ∈ classesOf ratiosL,
        (redistLoop (poolOrderOf pool ratiosL target)
          (redistFuel pool ratiosL target) (takeInit pool ratiosL target)
          (remInit pool ratiosL target) (deficitOf pool ratiosL target) 0).2.1 c = 0 := by
      intro c hc
      have hcmem : c ∈ poolOrderOf pool ratiosL target := by
        unfold poolOrderOf
        exact hperm.mem_iff.mpr hc
      have hnp : ¬ (0 < (redistLoop (poolOrderOf pool ratiosL target)
          (redistFuel pool ratiosL target) (takeInit pool ratiosL target)
          (remInit pool ratiosL target) (deficitOf pool ratiosL target) 0).2.1 c) := by
        intro hp
        exact hanyf (List.any_eq_true.mpr ⟨c, hcmem, decide_eq_true hp⟩)
      have := ib c
      omega
    have htfav : ∀ c ∈ classesOf ratiosL,
        takeFinal pool ratiosL target c = availOf pool c := by
      intro c hc
      have := ia c
      have := hremz c hc
      unfold takeFinal
      omega
    have hsumav : sumOn (classesOf ratiosL) (takeFinal pool ratiosL target)
        = sumOn (classesOf ratiosL) (availOf pool) :=
      sumOn_congr htfav
    have hd0 := ic
    rw [min_eq_right (by omega)]
    exact hsumav

end Balance

namespace Balance

theorem sumOn_natCast (cs : List String) (f : String → ℕ) :
    ((sumOn cs f : ℕ) : ℤ) = sumOn cs (fun c => (f c : ℤ)) := by
  induction cs with
  | nil => simp [sumOn_nil]
  | cons c cs ih => rw [sumOn_cons, sumOn_cons, Nat.cast_add, ih]

theorem takePart_length (pool : List NewsRow) (t : String → ℤ) (c : String)
    (hnn : 0 ≤ t c) (hle : t c ≤ availOf pool c) :
    (((takePart pool t c).length : ℕ) : ℤ) = t c := by
  unfold takePart availOf at *
  split
  · omega
  · next h =>
    rw [List.length_take]
    push_neg at h
    have htn : (t c).toNat ≤ (pool.filter (fun r => r.estado = c)).length := by
      omega
    rw [Nat.min_eq_left htn]
    omega

theorem takePart_estado (pool : List NewsRow) (t : String → ℤ) (c : String) :
    ∀ r ∈ takePart pool t c, r.estado = c := by
  intro r hr
  unfold takePart at hr
  have hmem : r ∈ pool.filter (fun r => r.estado = c) := by
    split at hr
    · exact hr
    · exact List.take_subset _ _ hr
  have := List.of_mem_filter hmem
  simpa using this

theorem classCount_append (a b : List NewsRow) (c : String) :
    classCount (a ++ b) c = classCount a c + classCount b c := by
  unfold classCount
  rw [List.filter_append, List.length_append]
  push_cast
  ring

theorem classCount_flatten (cs : List String) (g : String → List NewsRow) (c : String) :
    classCount ((cs.map g).flatten) c = sumOn cs (fun d => classCount (g d) c) := by
  induction cs with
  | nil => simp [classCount, sumOn_nil]
  | cons d ds ih =>
    rw [List.map_cons, List.flatten_cons, classCount_append, sumOn_cons, ih]

theorem classCount_of_all {rows : List NewsRow} {c : String}
    (h : ∀ r ∈ rows, r.estado = c) : classCount rows c = (rows.length : ℤ) := by
  unfold classCount
  rw [List.filter_eq_self.mpr (fun r hr => by simpa using h r hr)]

theorem classCount_of_none {rows : List NewsRow} {c : String}
    (h : ∀ r ∈ rows, r.estado ≠ c) : classCount rows c = 0 := by
  unfold classCount
  rw [List.filter_eq_nil_iff.mpr (fun r hr => by simpa using h r hr)]
  rfl

theorem sumOn_ite_single {cs : List String} (hnd : cs.Nodup) (c : String) (x : ℤ) :
    sumOn cs (fun d => if d = c then x else 0) = if c ∈ cs then x else 0 := by
  induction cs with
  | nil => simp [sumOn_nil]
  | cons d ds ih =>
    rw [sumOn_cons, ih (List.nodup_cons.mp hnd).2]
    by_cases hdc : d = c
    · subst hdc
      have hnotin : d ∉ ds := (List.nodup_cons.mp hnd).1
      simp [hnotin]
    · simp only [if_neg hdc, zero_add]
      by_cases hcds : c ∈ ds
      · rw [if_pos hcds, if_pos (List.mem_cons_of_mem _ hcds)]
      · rw [if_neg hcds, if_neg (by
          intro hmem
          rcases List.mem_cons.mp hmem with h | h
          · exact hdc h.symm
          · exact hcds h)]

theorem sumOn_filter_pos {cs : List String} {f : String → ℤ}
    (h : ∀ c ∈ cs, 0 ≤ f c) :
    sumOn (cs.filter (fun c => decide (0 < f c))) f = sumOn cs f := by
  induction cs with
  | nil => simp [sumOn_nil]
  | cons c cs ih =>
    have hc := h c (List.mem_cons_self _ _)
    have ihh := ih (fun d hd => h d (List.mem_cons_of_mem _ hd))
    rw [List.filter_cons]
    by_cases hp : 0 < f c
    · rw [if_pos (by simpa using hp), sumOn_cons, sumOn_cons, ihh]
    · rw [if_neg (by simpa using hp), sumOn_cons, ihh]
      have : f c = 0 := by omega
      omega

end Balance

/-- Claim C3 (amended): for every pool, every nonnegative targetRatios with
distinct class keys summing to 1, and every nonnegative targetTotal, unless
every class's computed take count is zero (in which case the whole pool is
returned, see claim C10), the returned subset satisfies: its total size is
exactly min(targetTotal, total available supply in the ratio classes); each
ratio class contributes exactly its final take count, which never exceeds the
class's supply and is at least min(adjusted quota, supply) — so a class falls
below its quota only through supply shortfall, though redistribution may push
it above the quota; the adjusted quotas sum exactly to targetTotal and each
differs from round(targetTotal * ratio) by at most one. -/
theorem c3_balancer_amended_quota_law (pool : List Balance.NewsRow)
    (ratiosL : List (String × ℚ)) (target : ℤ)
    (h1 : (ratiosL.map (fun p => p.2)).sum = 1)
    (h2 : ∀ p ∈ ratiosL, 0 ≤ p.2)
    (h3 : (ratiosL.map (fun p => p.1)).Nodup)
    (h4 : 0 ≤ target)
    (h5 : ∃ c ∈ Balance.classesOf ratiosL, Balance.takeFinal pool ratiosL target c ≠ 0) :
    ((Balance.balanced_sample_by_ratio pool ratiosL target).length : ℤ)
        = min target (Balance.sumOn (Balance.classesOf ratiosL) (Balance.availOf pool))
    ∧ (∀ c ∈ Balance.classesOf ratiosL,
        Balance.classCount (Balance.balanced_sample_by_ratio pool ratiosL target) c
            = Balance.takeFinal pool ratiosL target c
        ∧ Balance.takeFinal pool ratiosL target c ≤ Balance.availOf pool c
        ∧ min (Balance.desiredAdj ratiosL target c) (Balance.availOf pool c)
            ≤ Balance.takeFinal pool ratiosL target c)
    ∧ Balance.sumOn (Balance.classesOf ratiosL) (Balance.desiredAdj ratiosL target)
        = target
    ∧ (∀ c, Balance.desiredAdj ratiosL target c
          = Balance.bround ((target : ℚ) * Balance.ratioOf ratiosL c)
        ∨ Balance.desiredAdj ratiosL target c
          = Balance.bround ((target : ℚ) * Balance.ratioOf ratiosL c) + 1
        ∨ Balance.desiredAdj ratiosL target c
          = Balance.bround ((target : ℚ) * Balance.ratioOf ratiosL c) - 1) := by
  have hndc : (Balance.classesOf ratiosL).Nodup := by
    rw [Balance.classesOf_eq_keys]; exact h3
  obtain ⟨hsum, hgeInit, hleAv, hnn⟩ := Balance.takeFinal_spec pool ratiosL target h1 h2 h3 h4
  have hDA := Balance.desiredAdj_spec ratiosL target h1 h2 h3 h4
  have hnncls : ∀ c ∈ Balance.classesOf ratiosL, 0 ≤ Balance.takeFinal pool ratiosL target c :=
    fun c _ => hnn c
  -- the class buckets are nonempty
  obtain ⟨c5, hc5, hc5ne⟩ := h5
  have hc5pos : 0 < Balance.takeFinal pool ratiosL target c5 := by
    have := hnn c5
    omega
  have hc5filter : c5 ∈ (Balance.classesOf ratiosL).filter
      (fun c => decide (0 < Balance.takeFinal pool ratiosL target c)) :=
    List.mem_filter.mpr ⟨hc5, decide_eq_true hc5pos⟩
  have hne : ¬ (((Balance.classesOf ratiosL).filter
        (fun c => decide (0 < Balance.takeFinal pool ratiosL target c))).map
        (fun c => Balance.takePart pool (Balance.takeFinal pool ratiosL target) c)).isEmpty = true := by
    intro hempty
    rw [List.isEmpty_iff] at hempty
    have : ((Balance.classesOf ratiosL).filter
        (fun c => decide (0 < Balance.takeFinal pool ratiosL target c))) = [] :=
      List.map_eq_nil_iff.mp hempty
    rw [this] at hc5filter
    cases hc5filter
  have hout : Balance.balanced_sample_by_ratio pool ratiosL target
      = (((Balance.classesOf ratiosL).filter
          (fun c => decide (0 < Balance.takeFinal pool ratiosL target c))).map
          (fun c => Balance.takePart pool (Balance.takeFinal pool ratiosL target) c)).flatten := by
    unfold Balance.balanced_sample_by_ratio
    rw [if_neg hne]
  have hpartlen : ∀ c, (((Balance.takePart pool (Balance.takeFinal pool ratiosL target) c).length : ℕ) : ℤ)
      = Balance.takeFinal pool ratiosL target c :=
    fun c => Balance.takePart_length pool _ c (hnn c) (hleAv c)
  refine ⟨?_, ?_, hDA.1, ?_⟩
  · -- total size
    rw [hout]
    rw [List.length_flatten, List.map_map]
    have hcast := Balance.sumOn_natCast
      ((Balance.classesOf ratiosL).filter
        (fun c => decide (0 < Balance.takeFinal pool ratiosL target c)))
      (fun c => (Balance.takePart pool (Balance.takeFinal pool ratiosL target) c).length)
    rw [show ((Balance.classesOf ratiosL).filter
          (fun c => decide (0 < Balance.takeFinal pool ratiosL target c))).map
          (List.length ∘ fun c => Balance.takePart pool (Balance.takeFinal pool ratiosL target) c)
        = ((Balance.classesOf ratiosL).filter
          (fun c => decide (0 < Balance.takeFinal pool ratiosL target c))).map
          (fun c => (Balance.takePart pool (Balance.takeFinal pool ratiosL target) c).length)
      from rfl]
    rw [show (((Balance.classesOf ratiosL).filter
            (fun c => decide (0 < Balance.takeFinal pool ratiosL target c))).map
            (fun c => (Balance.takePart pool (Balance.takeFinal pool ratiosL target) c).length)).sum
        = Balance.sumOn ((Balance.classesOf ratiosL).filter
            (fun c => decide (0 < Balance.takeFinal pool ratiosL target c)))
            (fun c => (Balance.takePart pool (Balance.takeFinal pool ratiosL target) c).length)
      from rfl]
    rw [hcast]
    rw [Balance.sumOn_congr (fun c _ => hpartlen c)]
    rw [Balance.sumOn_filter_pos hnncls]
    exact hsum
  · -- per-class counts and bounds
    intro c hc
    refine ⟨?_, hleAv c, hgeInit c⟩
    rw [hout]
    rw [Balance.classCount_flatten]
    have hcc : ∀ d ∈ (Balance.classesOf ratiosL).filter
        (fun c => decide (0 < Balance.takeFinal pool ratiosL target c)),
        Balance.classCount (Balance.takePart pool (Balance.takeFinal pool ratiosL target) d) c
          = if d = c then Balance.takeFinal pool ratiosL target c else 0 := by
      intro d _
      by_cases hdc : d = c
      · subst hdc
        rw [if_pos rfl]
        rw [Balance.classCount_of_all (Balance.takePart_estado pool _ d)]
        exact hpartlen d
      · rw [if_neg hdc]
        apply Balance.classCount_of_none
        intro r hr
        rw [Balance.takePart_estado pool _ d r hr]
        exact hdc
    rw [Balance.sumOn_congr hcc]
    rw [Balance.sumOn_ite_single (hndc.filter _) c]
    by_cases hcf : c ∈ (Balance.classesOf ratiosL).filter
        (fun c => decide (0 < Balance.takeFinal pool ratiosL target c))
    · rw [if_pos hcf]
    · rw [if_neg hcf]
      have hz : Balance.takeFinal pool ratiosL target c = 0 := by
        by_contra hnz
        apply hcf
        apply List.mem_filter.mpr
        refine ⟨hc, decide_eq_true ?_⟩
        have := hnn c
        omega
      omega
  · -- quota deviation at most one
    intro c
    have hinit : Balance.desiredInit ratiosL target c
        = Balance.bround ((target : ℚ) * Balance.ratioOf ratiosL c) := by
      unfold Balance.desiredInit
      rw [Balance.normRatios_eq_self h1]
    rcases hDA.2 c with h | h | h
    · left; rw [h, hinit]
    · right; left; rw [h, hinit]
    · right; right; rw [h, hinit]

set_option maxHeartbeats 2000000 in
/-- Witness for claim C3 at the specification's own balancing scenario. -/
theorem c3_balancer_amended_quota_law_witness :
    (((([("falso", (2 : ℚ)/5), ("verdadero", (2 : ℚ)/5), ("dudoso", (1 : ℚ)/5)]).map
          (fun p => p.2)).sum = 1)
      ∧ (0 : ℤ) ≤ 10
      ∧ (∃ c ∈ Balance.classesOf
            [("falso", (2 : ℚ)/5), ("verdadero", (2 : ℚ)/5), ("dudoso", (1 : ℚ)/5)],
          Balance.takeFinal
            (List.replicate 3 ⟨"falso", ""⟩ ++ List.replicate 20 ⟨"verdadero", ""⟩
              ++ List.replicate 20 ⟨"dudoso", ""⟩)
            [("falso", (2 : ℚ)/5), ("verdadero", (2 : ℚ)/5), ("dudoso", (1 : ℚ)/5)] 10 c ≠ 0))
    ∧ ((Balance.balanced_sample_by_ratio
          (List.replicate 3 ⟨"falso", ""⟩ ++ List.replicate 20 ⟨"verdadero", ""⟩
            ++ List.replicate 20 ⟨"dudoso", ""⟩)
          [("falso", (2 : ℚ)/5), ("verdadero", (2 : ℚ)/5), ("dudoso", (1 : ℚ)/5)] 10).length : ℤ)
        = min 10 (Balance.sumOn
            (Balance.classesOf
              [("falso", (2 : ℚ)/5), ("verdadero", (2 : ℚ)/5), ("dudoso", (1 : ℚ)/5)])
            (Balance.availOf
              (List.replicate 3 ⟨"falso", ""⟩ ++ List.replicate 20 ⟨"verdadero", ""⟩
                ++ List.replicate 20 ⟨"dudoso", ""⟩))) := by
  refine ⟨⟨?_, ?_, ?_⟩, ?_⟩
  · decide
  · decide
  · decide
  · have h := (c3_balancer_amended_quota_law
      (List.replicate 3 ⟨"falso", ""⟩ ++ List.replicate 20 ⟨"verdadero", ""⟩
        ++ List.replicate 20 ⟨"dudoso", ""⟩)
      [("falso", (2 : ℚ)/5), ("verdadero", (2 : ℚ)/5), ("dudoso", (1 : ℚ)/5)] 10
      (by decide) (by decide) (by decide) (by decide) (by decide)).1
    exact h

namespace Article

/-- Output record of scrape_article (scripts/scrape_news.py lines 355-395),
with the field names of the Python dict. -/
structure ArticleOut where
  fuente : String
  fecha : String
  titulo : String
  texto : String
  estado : String
  url : String
  url_canonica : String
  url_hash : String
  html_raw_path : String
  fecha_crawl : String
deriving DecidableEq

/-- Observable results of the DOM-extraction capabilities applied to the
fetched page: extract_title, extract_text, extract_date_generic and
detect_verdict.  The HTML parser is an external collaborator, so these are
parameters of the embedding. -/
structure DocCaps where
  extractedTitle : String
  extractedText : String
  extractedDate : Option String
  verdict : Option String

/-- First truthy value of a Python `a or b or c` chain over optional strings
(None and the empty string are both falsy). -/
def firstTruthy : List (Option String) → Option String
  | [] => none
  | a :: rest =>
    match a with
    | some s => if s = "" then firstTruthy rest else some s
    | none => firstTruthy rest

/-- Model of scrape_article (scripts/scrape_news.py lines 355-395).  The
fetch outcome (after the fetcher's bounded retries), the parsed-document
extraction results, the canonicalizer, the hash, the URL-date parser, the
HEAD-request date and the sanitizer are passed as explicit inputs; the model
is a total function, mirroring the contract that the Python function never
raises.  A `none` or empty fetch result takes the early-return path. -/
def scrape_article (fbSource fbTitle : String) (fbPublished : Option String)
    (default_label : Option String) (url : String)
    (fetched : Option (List Char)) (canon sha sanitize : String → String)
    (dateFromUrl : String → Option String) (headDate : Option String)
    (caps : DocCaps) (htmlDir crawlTs : String) : ArticleOut :=
  let out0 : ArticleOut :=
    ⟨fbSource, "", "", "", default_label.getD "", url, "", "", "", crawlTs⟩
  match fetched with
  | none => out0
  | some raw =>
    if raw.isEmpty then out0
    else
      let can := canon url
      let hashv := sha can
      let titulo := sanitize ((firstTruthy [some caps.extractedTitle, some fbTitle]).getD "")
      let texto := sanitize caps.extractedText
      let fecha := (firstTruthy
        [caps.extractedDate, fbPublished, dateFromUrl can, headDate]).getD ""
      let estado :=
        match default_label with
        | some lab => lab
        | none =>
          match caps.verdict with
          | some v => v
          | none => ""
      ⟨fbSource, fecha, titulo, texto, estado, url, can, hashv,
        htmlDir ++ "/" ++ hashv ++ ".html", crawlTs⟩

/-- Downstream caller filter (scripts/scrape_news.py line 476):
`df = df[df["titulo"].str.len() > 0]`. -/
def filter_nonempty_title (rows : List ArticleOut) : List ArticleOut :=
  rows.filter (fun r => 0 < r.titulo.length)

end Article

/-- Claim C8 counterexample: on a failed fetch with a configured fixed label
(the trusted-source path passes "verdadero"), the returned record's estado
field is populated, so it is not true that only source, raw URL and crawl
timestamp are populated. -/
theorem c8_failed_fetch_estado_populated :
    (Article.scrape_article "ElTiempo" "" none (some "verdadero")
        "https://www.eltiempo.com/x" none id id id (fun _ => none) none
        ⟨"", "", none, none⟩ "data/html" "2024-01-20T00:00:00").estado
      = "verdadero"
    ∧ "verdadero" ≠ "" := by
  exact ⟨rfl, by decide⟩

/-- Claim C8 (amended): when the fetch yields no bytes after its bounded
retries, scrape_article returns a record whose title, body text, date,
canonical URL, hash and archive-path fields are all empty, with source, raw
URL, crawl timestamp and — when a fixed default label is configured — the
label populated; the caller's title filter then drops the record. -/
theorem c8_failed_fetch_returns_empty_record (fbSource fbTitle : String)
    (fbPublished : Option String) (default_label : Option String) (url : String)
    (fetched : Option (List Char)) (canon sha sanitize : String → String)
    (dateFromUrl : String → Option String) (headDate : Option String)
    (caps : Article.DocCaps) (htmlDir crawlTs : String)
    (hfail : fetched = none ∨ fetched = some []) :
    Article.scrape_article fbSource fbTitle fbPublished default_label url fetched
        canon sha sanitize dateFromUrl headDate caps htmlDir crawlTs
      = ⟨fbSource, "", "", "", default_label.getD "", url, "", "", "", crawlTs⟩
    ∧ Article.filter_nonempty_title
        [Article.scrape_article fbSource fbTitle fbPublished default_label url fetched
          canon sha sanitize dateFromUrl headDate caps htmlDir crawlTs] = [] := by
  have hrec : Article.scrape_article fbSource fbTitle fbPublished default_label url fetched
      canon sha sanitize dateFromUrl headDate caps htmlDir crawlTs
      = ⟨fbSource, "", "", "", default_label.getD "", url, "", "", "", crawlTs⟩ := by
    rcases hfail with rfl | rfl
    · rfl
    · rfl
  refine ⟨hrec, ?_⟩
  rw [hrec]
  rfl

/-- Witness for claim C8 at a concrete failed fetch. -/
theorem c8_failed_fetch_returns_empty_record_witness :
    ((none : Option (List Char)) = none ∨ (none : Option (List Char)) = some [])
    ∧ Article.scrape_article "Colombiacheck" "" none none "https://colombiacheck.com/x"
        none id id id (fun _ => none) none ⟨"", "", none, none⟩ "data/html"
        "2024-01-20T00:00:00"
      = ⟨"Colombiacheck", "", "", "", "", "https://colombiacheck.com/x", "", "", "",
          "2024-01-20T00:00:00"⟩ :=
  ⟨Or.inl rfl,
    (c8_failed_fetch_returns_empty_record "Colombiacheck" "" none none
      "https://colombiacheck.com/x" none id id id (fun _ => none) none
      ⟨"", "", none, none⟩ "data/html" "2024-01-20T00:00:00" (Or.inl rfl)).1⟩

namespace Dates

/-- A Python datetime, abstracted to its wall-clock reading in seconds and its
tzinfo as a fixed UTC offset in minutes (`none` = naive).  The UTC instant of
an aware datetime is `secs - 60 * off`.  Rendering to an ISO-8601 string is
injective on this data, so string equalities and "carries a UTC offset"
facts are stated on the abstraction. -/
structure PyDateTime where
  secs : ℤ
  tz : Option ℤ
deriving DecidableEq

/-- Model of parse_date_any (scripts/scrape_news.py lines 31-38): the fuzzy
dateutil parse is an external collaborator, so the function takes its result.
An aware parse is converted with astimezone(utc); a naive parse is rendered
with dt.isoformat() unchanged, i.e. passed through still naive. -/
def parse_date_any (parsed : Option PyDateTime) : Option PyDateTime :=
  match parsed with
  | none => none
  | some dt =>
    match dt.tz with
    | none => some dt
    | some off => some ⟨dt.secs - 60 * off, some 0⟩

/-- America/Bogota offset used by `TZ.localize` in utils.py, a constant
UTC-05:00 (the zone has had no transitions since 1993): -300 minutes. -/
def BOGOTA_OFF : ℤ := -300

/-- Model of to_iso (src/utils.py lines 32-37): None renders as the empty
string (modelled `none`); a naive datetime is localized to America/Bogota and
converted to UTC; an aware one is converted to UTC. -/
def to_iso (dt : Option PyDateTime) : Option PyDateTime :=
  match dt with
  | none => none
  | some d =>
    match d.tz with
    | none => some ⟨d.secs - 60 * BOGOTA_OFF, some 0⟩
    | some off => some ⟨d.secs - 60 * off, some 0⟩

end Dates

/-- Claim C6 counterexample: parse_date_any passes a naive parsed timestamp
through unchanged - still naive, neither interpreted in the target local zone
nor converted to UTC - whereas to_iso on the same input localizes to Bogota
and converts, so the emitted date string is not a UTC ISO-8601 string. -/
theorem c6_naive_date_passed_through :
    Dates.parse_date_any (some ⟨1705741200, none⟩) = some ⟨1705741200, none⟩
    ∧ (∀ d, Dates.parse_date_any (some ⟨1705741200, none⟩) = some d → d.tz ≠ some 0)
    ∧ Dates.to_iso (some ⟨1705741200, none⟩) = some ⟨1705759200, some 0⟩
    ∧ Dates.parse_date_any (some ⟨1705741200, none⟩)
        ≠ Dates.to_iso (some ⟨1705741200, none⟩) := by
  refine ⟨rfl, ?_, by decide, by decide⟩
  intro d hd
  have h2 : ({ secs := 1705741200, tz := none } : Dates.PyDateTime) = d := by
    simpa [Dates.parse_date_any] using hd
  subst h2
  decide

/-- Claim C6 (amended): to_iso in utils.py satisfies the claimed contract -
absence of a date yields the empty result rather than an error, a naive
timestamp is interpreted in the America/Bogota local zone and converted to
UTC, an aware one is converted to UTC, and every nonempty output carries the
UTC offset; but parse_date_any in scrape_news.py, the parser the extractor
actually uses on header dates, emits naive timestamps unchanged. -/
theorem c6_to_iso_normalizes_to_utc (d : Dates.PyDateTime) :
    Dates.to_iso none = none
    ∧ (d.tz = none → Dates.to_iso (some d) = some ⟨d.secs + 18000, some 0⟩)
    ∧ (∀ off, d.tz = some off → Dates.to_iso (some d) = some ⟨d.secs - 60 * off, some 0⟩)
    ∧ ∃ e, Dates.to_iso (some d) = some e ∧ e.tz = some 0 := by
  refine ⟨rfl, ?_, ?_, ?_⟩
  · intro h
    simp [Dates.to_iso, h, Dates.BOGOTA_OFF]
  · intro off h
    simp [Dates.to_iso, h]
  · cases h : d.tz with
    | none => exact ⟨⟨d.secs - 60 * Dates.BOGOTA_OFF, some 0⟩, by simp [Dates.to_iso, h], rfl⟩
    | some off => exact ⟨⟨d.secs - 60 * off, some 0⟩, by simp [Dates.to_iso, h], rfl⟩

/-- Witness for claim C6 at a concrete naive and a concrete aware datetime. -/
theorem c6_to_iso_normalizes_to_utc_witness :
    Dates.to_iso (some ⟨100, none⟩) = some ⟨18100, some 0⟩
    ∧ Dates.to_iso (some ⟨100, some 120⟩) = some ⟨-7100, some 0⟩ := by
  constructor
  · have h := (c6_to_iso_normalizes_to_utc ⟨100, none⟩).2.1 rfl
    exact h
  · have h := (c6_to_iso_normalizes_to_utc ⟨100, some 120⟩).2.2.1 120 rfl
    exact h

namespace Sanitize

/-- Python-whitespace test for str.strip over the ASCII range that the
sanitizer's other stages can emit. -/
def isPySpace (c : Char) : Bool :=
  c = ' ' || c = '\t' || c = '\n' || c = '\x0d' || c = '\x0b' || c = '\x0c'

/-- Space-or-tab test, the character class `[ \t]` of the two regexes. -/
def isBlank (c : Char) : Bool := c = ' ' || c = '\t'

/-- `re.sub(r"[ \t]+\n", "\n", s)`: every maximal run of spaces and tabs
immediately before a newline is deleted, which is the same as deleting each
space or tab whose successor (after deletion) is a newline. -/
def stripWsBeforeNl : List Char → List Char
  | [] => []
  | c :: rest =>
    let r := stripWsBeforeNl rest
    if isBlank c ∧ r.head? = some '\n' then r else c :: r

/-- Flush a pending run of spaces and tabs: a run of length at least 2 is the
match of `[ \t]{2,}` and becomes a single space; a shorter run is kept. -/
def flushRun (pending : List Char) : List Char :=
  if 2 ≤ pending.length then [' '] else pending

/-- `re.sub(r"[ \t]{2,}", " ", s)` as a left-to-right state machine carrying
the pending run of spaces and tabs. -/
def collapseBlanks : List Char → List Char → List Char
  | pending, [] => flushRun pending
  | pending, c :: rest =>
    if isBlank c then collapseBlanks (pending ++ [c]) rest
    else flushRun pending ++ c :: collapseBlanks [] rest

/-- Python str.strip(): drop leading and trailing whitespace. -/
def pstrip (l : List Char) : List Char :=
  ((l.dropWhile isPySpace).reverse.dropWhile isPySpace).reverse

/-- Model of sanitize_text (scripts/scrape_news.py lines 89-110) on decoded
text.  html.unescape, ftfy.fix_text and unicodedata NFC normalization are
external collaborators passed as functions; then the control filter keeps a
character iff it is a newline, a tab, or has code point at least 32; then
the two regex passes and the final strip. -/
def sanitize_text (unescape fixText nfc : List Char → List Char)
    (s : List Char) : List Char :=
  pstrip (collapseBlanks []
    (stripWsBeforeNl
      ((nfc (fixText (unescape s))).filter
        (fun c => c = '\n' || c = '\t' || 32 ≤ c.toNat))))

/-- The Excel-safe CSV pass (scripts/scrape_news.py lines 567-570): every
field of every row is mapped through sanitize_text before writing. -/
def excel_row (unescape fixText nfc : List Char → List Char)
    (row : List (List Char)) : List (List Char) :=
  row.map (sanitize_text unescape fixText nfc)

theorem stripWsBeforeNl_subset {c : Char} {l : List Char}
    (h : c ∈ stripWsBeforeNl l) : c ∈ l := by
  induction l with
  | nil => simpa [stripWsBeforeNl] using h
  | cons a rest ih =>
    simp only [stripWsBeforeNl] at h
    split at h
    · exact List.mem_cons_of_mem a (ih h)
    · rcases List.mem_cons.mp h with rfl | hm
      · exact List.mem_cons_self c rest
      · exact List.mem_cons_of_mem a (ih hm)

theorem flushRun_subset {c : Char} {p : List Char}
    (h : c ∈ flushRun p) : c ∈ p ∨ c = ' ' := by
  unfold flushRun at h
  split at h
  · right; simpa using h
  · left; exact h

theorem collapseBlanks_subset {c : Char} : ∀ {p l : List Char},
    c ∈ collapseBlanks p l → c ∈ p ∨ c ∈ l ∨ c = ' ' := by
  intro p l
  induction l generalizing p with
  | nil =>
    intro h
    rcases flushRun_subset (by simpa [collapseBlanks] using h) with h1 | h1
    · exact Or.inl h1
    · exact Or.inr (Or.inr h1)
  | cons a rest ih =>
    intro h
    simp only [collapseBlanks] at h
    split at h
    · rcases ih h with h1 | h1 | h1
      · rcases List.mem_append.mp h1 with h2 | h2
        · exact Or.inl h2
        · exact Or.inr (Or.inl (by simpa using Or.inl (List.mem_singleton.mp h2)))
      · exact Or.inr (Or.inl (List.mem_cons_of_mem a h1))
      · exact Or.inr (Or.inr h1)
    · rcases List.mem_append.mp h with h1 | h1
      · rcases flushRun_subset h1 with h2 | h2
        · exact Or.inl h2
        · exact Or.inr (Or.inr h2)
      · rcases List.mem_cons.mp h1 with rfl | h2
        · exact Or.inr (Or.inl (List.mem_cons_self c rest))
        · rcases ih h2 with h3 | h3 | h3
          · simp at h3
          · exact Or.inr (Or.inl (List.mem_cons_of_mem a h3))
          · exact Or.inr (Or.inr h3)

theorem pstrip_subset {c : Char} {l : List Char}
    (h : c ∈ pstrip l) : c ∈ l := by
  unfold pstrip at h
  rw [List.mem_reverse] at h
  have h1 := List.dropWhile_sublist (l := (l.dropWhile isPySpace).reverse) (p := isPySpace)
  have h2 := h1.mem h
  rw [List.mem_reverse] at h2
  exact (List.dropWhile_sublist (l := l) (p := isPySpace)).mem h2

end Sanitize

/-- Claim C7 counterexample: sanitize_text preserves interior newlines (and
single tabs), so a multi-line body text reaches the Excel-safe CSV with its
newline intact - newlines are not collapsed to spaces.  On this ASCII input
html.unescape, fix_text and NFC normalization are all the identity. -/
theorem c7_excel_csv_keeps_newline :
    Sanitize.excel_row id id id [['a', '\n', 'b'], ['x', '\t', 'y']]
        = [['a', '\n', 'b'], ['x', '\t', 'y']]
    ∧ '\n' ∈ (Sanitize.excel_row id id id [['a', '\n', 'b'], ['x', '\t', 'y']]).getD 0 []
    ∧ '\t' ∈ (Sanitize.excel_row id id id [['a', '\n', 'b'], ['x', '\t', 'y']]).getD 1 [] := by
  refine ⟨by decide, by decide, by decide⟩

/-- Claim C7 (amended): every field of every row written to the Excel-safe
CSV has been through sanitize_text, which removes control characters below
code point 32 other than newline and tab and collapses runs of blanks, but
keeps newlines and tabs: each remaining character is a newline, a tab, or a
printable character of code point at least 32. -/
theorem c7_excel_fields_sanitized (unescape fixText nfc : List Char → List Char)
    (row : List (List Char)) (field : List Char)
    (hf : field ∈ Sanitize.excel_row unescape fixText nfc row) :
    ∀ c ∈ field, c = '\n' ∨ c = '\t' ∨ 32 ≤ c.toNat := by
  intro c hc
  rcases List.mem_map.mp hf with ⟨src, _, rfl⟩
  have h1 := Sanitize.pstrip_subset hc
  rcases Sanitize.collapseBlanks_subset h1 with h2 | h2 | h2
  · simp at h2
  · have h3 := Sanitize.stripWsBeforeNl_subset h2
    have h4 := List.of_mem_filter h3
    simpa [decide_eq_true_eq, or_assoc] using h4
  · subst h2
    right; right; decide

/-- Witness for claim C7 on a concrete row containing control characters. -/
theorem c7_excel_fields_sanitized_witness :
    (Sanitize.sanitize_text id id id ['a', '\x01', '\n', 'b']
        ∈ Sanitize.excel_row id id id [['a', '\x01', '\n', 'b']])
    ∧ ∀ c ∈ Sanitize.sanitize_text id id id ['a', '\x01', '\n', 'b'],
        c = '\n' ∨ c = '\t' ∨ 32 ≤ c.toNat := by
  constructor
  · decide
  · exact c7_excel_fields_sanitized id id id [['a', '\x01', '\n', 'b']]
      (Sanitize.sanitize_text id id id ['a', '\x01', '\n', 'b']) (by decide)

namespace Rss

/-- An `<item>` of a parsed feed: each field is the stripped text of the
corresponding child element, `none` when the element is absent. -/
structure FeedItem where
  title : Option String
  link : Option String
  description : Option String
  pubdate : Option String
  dcdate : Option String
  category : Option String
deriving DecidableEq

/-- A dict appended to scrape_rss's output list (src/scrapers.py lines
102-109); published_at is the parsed datetime, rendered `pub.isoformat()`
when present and `""` otherwise. -/
structure OutRow where
  title : String
  url : String
  summary : String
  label_raw : String
  published_at : Option Dates.PyDateTime
  base_url : String
deriving DecidableEq

/-- `label_raw` under the default label_field_candidates ("category","title"):
the first candidate element that is present with nonempty text. -/
def label_of (it : FeedItem) : String :=
  match it.category with
  | some s => if s = "" then (it.title.getD "") else s
  | none => it.title.getD ""

/-- Python comparison `pub < threshold` where threshold is the naive
`datetime.utcnow() - timedelta(days=limit_days)`: defined between two naive
datetimes, but a TypeError (modelled `Except.error ()`) between an aware
and a naive one. -/
def ltNaive (pub : Dates.PyDateTime) (threshold : ℤ) : Except Unit Bool :=
  match pub.tz with
  | none => Except.ok (decide (pub.secs < threshold))
  | some _ => Except.error ()

/-- Cons a row onto an exception-carrying tail: an exception raised later in
the loop aborts the whole call, discarding rows already collected. -/
def pushRow (r : OutRow) : Except Unit (List OutRow) → Except Unit (List OutRow)
  | Except.error e => Except.error e
  | Except.ok l => Except.ok (r :: l)

/-- The item loop of scrape_rss (src/scrapers.py lines 84-110): skip items
missing a title or link, parse pubDate else dc:date with the fuzzy parser
(an external collaborator `parseDate`), drop an entry whose parsed date is
older than `now - 86400*limit_days`, keep entries without a parseable date.
-/
def rssGo (parseDate : String → Option Dates.PyDateTime) (now limit_days : ℤ)
    (feedUrl : String) : List FeedItem → Except Unit (List OutRow)
  | [] => Except.ok []
  | it :: rest =>
    if it.title.getD "" = "" ∨ it.link.getD "" = "" then
      rssGo parseDate now limit_days feedUrl rest
    else
      let pub : Option Dates.PyDateTime :=
        match it.pubdate with
        | some txt => parseDate txt
        | none =>
          match it.dcdate with
          | some txt => parseDate txt
          | none => none
      let row : OutRow :=
        ⟨it.title.getD "", it.link.getD "", it.description.getD "",
          label_of it, pub, feedUrl⟩
      match pub with
      | none => pushRow row (rssGo parseDate now limit_days feedUrl rest)
      | some p =>
        match ltNaive p (now - 86400 * limit_days) with
        | Except.error e => Except.error e
        | Except.ok true => rssGo parseDate now limit_days feedUrl rest
        | Except.ok false => pushRow row (rssGo parseDate now limit_days feedUrl rest)

/-- Model of scrape_rss (src/scrapers.py lines 79-110): the HTTP fetch and
soup parse are external, passed as their outcome; `none` (fetch or parse
failure) returns the empty list without raising.  `now` is the naive
datetime.utcnow() in seconds. -/
def scrape_rss (fetched : Option (List FeedItem))
    (parseDate : String → Option Dates.PyDateTime) (now limit_days : ℤ)
    (feedUrl : String) : Except Unit (List OutRow) :=
  match fetched with
  | none => Except.ok []
  | some items => rssGo parseDate now limit_days feedUrl items

/-- The fuzzy date parser's behavior on the three timestamp strings of the
scenario: a Z-suffixed ISO string parses AWARE (tzutc, offset 0); a plain
one parses naive; anything else fails.  Seconds are the wall-clock reading
(2024-01-05T10:00:00 = 1704448800). -/
def parseDateScenario (txt : String) : Option Dates.PyDateTime :=
  if txt = "2024-01-05T10:00:00Z" then some ⟨1704448800, some 0⟩
  else if txt = "2024-01-05 10:00:00" then some ⟨1704448800, none⟩
  else none

/-- 2024-01-20T00:00:00 as naive utcnow, in seconds. -/
def NOW_2024_01_20 : ℤ := 1705708800

end Rss

/-- Claim C5: on feed fetch or parse failure scrape_rss returns an empty
list without raising, and an entry with an unparseable or absent date is
kept; but at the spec's own scenario - entry published
"2024-01-05T10:00:00Z", lookbackDays 10, run date 2024-01-20 - the fuzzy
parser returns an aware datetime and the comparison `pub <
datetime.utcnow() - timedelta(days=limit_days)` mixes it with the naive
utcnow, raising TypeError to the caller instead of dropping the entry (a
naive date of the same age is dropped as claimed). -/
theorem c5_aware_date_raises_typeerror :
    (∀ (pd : String → Option Dates.PyDateTime) (now d : ℤ) (u : String),
      Rss.scrape_rss none pd now d u = Except.ok [])
    ∧ Rss.scrape_rss
        (some [⟨some "t", some "https://a/x", some "s", some "2024-01-05T10:00:00Z",
                none, none⟩])
        Rss.parseDateScenario Rss.NOW_2024_01_20 10 "feed" = Except.error ()
    ∧ Rss.scrape_rss
        (some [⟨some "t", some "https://a/x", some "s", some "2024-01-05 10:00:00",
                none, none⟩])
        Rss.parseDateScenario Rss.NOW_2024_01_20 10 "feed" = Except.ok []
    ∧ Rss.scrape_rss
        (some [⟨some "t", some "https://a/x", some "s", none, none, none⟩])
        Rss.parseDateScenario Rss.NOW_2024_01_20 10 "feed"
      = Except.ok [⟨"t", "https://a/x", "s", "t", none, "feed"⟩] := by
  refine ⟨fun pd now d u => rfl, by rfl, by rfl, by rfl⟩

namespace Url

/-- Split a character list at the first occurrence of `sep`: returns the part
before and, when `sep` occurs, the part after it.  This is Python
`s.split(sep, 1)` together with the `sep in s` test. -/
def splitFirst (sep : Char) : List Char → List Char × Option (List Char)
  | [] => ([], none)
  | c :: rest =>
    if c = sep then ([], some rest)
    else
      let p := splitFirst sep rest
      (c :: p.1, p.2)

/-- Python `s.split(sep)` (all occurrences), via an accumulator. -/
def splitAllGo (sep : Char) : List Char → List Char → List (List Char)
  | acc, [] => [acc.reverse]
  | acc, c :: rest =>
    if c = sep then acc.reverse :: splitAllGo sep [] rest
    else splitAllGo sep (c :: acc) rest

def splitAll (sep : Char) (l : List Char) : List (List Char) := splitAllGo sep [] l

/-- Python `sep.join(parts)`. -/
def joinSep (sep : Char) : List (List Char) → List Char
  | [] => []
  | [a] => a
  | a :: b :: rest => a ++ sep :: joinSep sep (b :: rest)

/-- ASCII letter test, matching `url[0].isascii() and url[0].isalpha()`. -/
def isAsciiAlpha (c : Char) : Bool :=
  ('a' ≤ c && c ≤ 'z') || ('A' ≤ c && c ≤ 'Z')

def isAsciiDigit (c : Char) : Bool := '0' ≤ c && c ≤ '9'

/-- urllib's scheme_chars: ASCII letters, digits and `+ - .`. -/
def isSchemeChar (c : Char) : Bool :=
  isAsciiAlpha c || isAsciiDigit c || c = '+' || c = '-' || c = '.'

/-- ASCII lowercasing, the effect of str.lower() on a scheme candidate (which
the caller has already checked to be pure ASCII). -/
def lowerChar (c : Char) : Char :=
  if 'A' ≤ c && c ≤ 'Z' then Char.ofNat (c.toNat + 32) else c

/-- WHATWG C0-control-or-space class used by urlsplit's cleanup. -/
def isC0orSpace (c : Char) : Bool := c.toNat ≤ 32

/-- urllib's _UNSAFE_URL_BYTES_TO_REMOVE: tab, carriage return, newline. -/
def isUnsafeUrlByte (c : Char) : Bool := c = '\t' || c = '\x0d' || c = '\n'

/-- urlsplit's cleanup of the url argument: lstrip C0 controls and spaces,
then remove every tab, CR and LF. -/
def cleanUrl (u : List Char) : List Char :=
  (u.dropWhile isC0orSpace).filter (fun c => !isUnsafeUrlByte c)

/-- urlsplit's cleanup of the default-scheme argument: strip both ends, then
remove every tab, CR and LF. -/
def cleanScheme (s : List Char) : List Char :=
  (((s.dropWhile isC0orSpace).reverse.dropWhile isC0orSpace).reverse).filter
    (fun c => !isUnsafeUrlByte c)

/-- Head-is-ASCII-letter test for the scheme candidate. -/
def headAlpha : List Char → Bool
  | c :: _ => isAsciiAlpha c
  | [] => false

/-- The scheme sniff of urlsplit: at the first colon, if the part before it
is nonempty, starts with an ASCII letter and consists of scheme characters,
it is the scheme (lowercased) and the rest follows the colon; otherwise the
default scheme applies and the url is unchanged. -/
def sniff (dscheme u : List Char) : List Char × List Char :=
  match splitFirst ':' u with
  | (before, some after) =>
    if before ≠ [] ∧ headAlpha before ∧ before.all isSchemeChar
    then (before.map lowerChar, after)
    else (dscheme, u)
  | (_, none) => (dscheme, u)

/-- Netloc delimiters of _splitnetloc: `/`, `?`, `#`. -/
def notDelim (c : Char) : Bool := !(c = '/' || c = '?' || c = '#')

/-- `netloc.partition('[')[2].partition(']')[0]`: the bracketed host. -/
def bracketHost (n : List Char) : List Char :=
  match splitFirst '[' n with
  | (_, some after) => (splitFirst ']' after).1
  | (_, none) => []

/-- The external host validators of urlsplit, both raising ValueError when
false: _check_bracketed_host on a bracketed (IPv6/IPvFuture) host, and
_checknetloc's NFKC-normalization check, which only examines non-ASCII
netlocs. -/
structure Validators where
  bracketOk : List Char → Bool
  nfkcOk : List Char → Bool

/-- The netloc stage of urlsplit: when the url starts with `//`, the netloc
runs up to the first `/`, `?` or `#`; mismatched square brackets raise
ValueError, a bracketed host is validated by _check_bracketed_host, and
_checknetloc validates non-ASCII netlocs (it returns at once for ASCII
ones). -/
def netlocSplit (V : Validators) (u : List Char) :
    Except Unit (List Char × List Char) :=
  if u.take 2 = ['/', '/'] then
    let r := u.drop 2
    let n := r.takeWhile notDelim
    let rest := r.dropWhile notDelim
    if (('[' ∈ n) ∧ (']' ∉ n)) ∨ ((']' ∈ n) ∧ ('[' ∉ n)) then Except.error ()
    else if ('[' ∈ n) ∧ ¬V.bracketOk (bracketHost n) then Except.error ()
    else if (¬n.all (fun c => c.toNat < 128)) ∧ ¬V.nfkcOk n then Except.error ()
    else Except.ok (n, rest)
  else Except.ok ([], u)

/-- Model of urllib.parse.urlsplit (scheme, netloc, path, query, fragment):
cleanup, scheme sniff, netloc, then the fragment split before the query
split (allow_fragments is always true in this program). -/
def urlsplitE (V : Validators) (dscheme0 u0 : List Char) :
    Except Unit (List Char × List Char × List Char × List Char × List Char) :=
  let u1 := cleanUrl u0
  let ds := cleanScheme dscheme0
  let sp := sniff ds u1
  match netlocSplit V sp.2 with
  | Except.error e => Except.error e
  | Except.ok (netloc, u3) =>
    let fsplit := splitFirst '#' u3
    let u4 := fsplit.1
    let fragment := (fsplit.2).getD []
    let qsplit := splitFirst '?' u4
    Except.ok (sp.1, netloc, qsplit.1, (qsplit.2).getD [], fragment)

/-- The last path segment (after the last `/`; the whole path when it has no
slash), the region _splitparams searches for `;`. -/
def lastSeg (p : List Char) : List Char :=
  (p.reverse.takeWhile (fun c => c ≠ '/')).reverse

/-- urllib's _splitparams: split path parameters at the first `;` of the
last path segment (of the whole path when it has no slash). -/
def splitparams (p : List Char) : List Char × List Char :=
  let searchIn := if ('/' : Char) ∈ p then lastSeg p else p
  match splitFirst ';' searchIn with
  | (_, none) => (p, [])
  | (a, some b) => (p.take (p.length - searchIn.length) ++ a, b)

/-- urllib's uses_params scheme list. -/
def uses_params : List (List Char) :=
  [[], "ftp".toList, "hdl".toList, "prospero".toList, "http".toList,
   "imap".toList, "https".toList, "shttp".toList, "rtsp".toList,
   "rtspu".toList, "sip".toList, "sips".toList, "mms".toList,
   "sftp".toList, "tel".toList]

/-- A parsed URL, the 6-tuple of urllib.parse.urlparse. -/
structure ParseResult where
  scheme : List Char
  netloc : List Char
  path : List Char
  params : List Char
  query : List Char
  fragment : List Char
deriving DecidableEq

/-- Model of urllib.parse.urlparse: urlsplit, then split the path parameters
when the scheme uses them and the path has a `;`. -/
def urlparseE (V : Validators) (dscheme u : List Char) :
    Except Unit ParseResult :=
  match urlsplitE V dscheme u with
  | Except.error e => Except.error e
  | Except.ok (scheme, netloc, rest, query, fragment) =>
    let pp :=
      if scheme ∈ uses_params ∧ (';' : Char) ∈ rest then splitparams rest
      else (rest, [])
    Except.ok ⟨scheme, netloc, pp.1, pp.2, query, fragment⟩

/-- urllib's uses_netloc scheme list. -/
def uses_netloc : List (List Char) :=
  [[], "ftp".toList, "http".toList, "gopher".toList, "nntp".toList,
   "telnet".toList, "imap".toList, "wais".toList, "file".toList,
   "mms".toList, "https".toList, "shttp".toList, "snews".toList,
   "prospero".toList, "rtsp".toList, "rtspu".toList, "rsync".toList,
   "svn".toList, "svn+ssh".toList, "sftp".toList, "nfs".toList,
   "git".toList, "git+ssh".toList, "ws".toList, "wss".toList,
   "itms-services".toList]

/-- Model of urllib.parse.urlunparse (via urlunsplit, CPython 3.11): reattach
params with `;`; add `//`+netloc (with a `/` guard) when the netloc is
nonempty or when the scheme is nonempty, uses a netloc and the url does not
already start with `//`; then scheme with `:`, query with `?` and fragment
with `#`, each only when nonempty. -/
def urlunparse (p : ParseResult) : List Char :=
  let url0 := if p.params ≠ [] then p.path ++ ';' :: p.params else p.path
  let url1 :=
    if p.netloc ≠ [] ∨ (p.scheme ≠ [] ∧ p.scheme ∈ uses_netloc ∧ url0.take 2 ≠ ['/', '/']) then
      '/' :: '/' :: p.netloc ++
        (if url0 ≠ [] ∧ url0.head? ≠ some '/' then '/' :: url0 else url0)
    else url0
  let url2 := if p.scheme ≠ [] then p.scheme ++ ':' :: url1 else url1
  let url3 := if p.query ≠ [] then url2 ++ '?' :: p.query else url2
  if p.fragment ≠ [] then url3 ++ '#' :: p.fragment else url3

end Url

namespace Url

/-- Hex digit value, both cases, as accepted by unquote's escape parser. -/
def hexVal (c : Char) : Option Nat :=
  if '0' ≤ c && c ≤ '9' then some (c.toNat - 48)
  else if 'a' ≤ c && c ≤ 'f' then some (c.toNat - 87)
  else if 'A' ≤ c && c ≤ 'F' then some (c.toNat - 55)
  else none

/-- Uppercase hex digit, as emitted by quote's %XX escapes. -/
def hexDigitU (n : Nat) : Char :=
  if n < 10 then Char.ofNat (48 + n) else Char.ofNat (55 + n)

/-- UTF-8 encoding of one scalar value, as a list of byte values. -/
def utf8Encode (c : Char) : List Nat :=
  let n := c.toNat
  if n < 128 then [n]
  else if n < 2048 then [192 + n / 64, 128 + n % 64]
  else if n < 65536 then [224 + n / 4096, 128 + (n / 64) % 64, 128 + n % 64]
  else [240 + n / 262144, 128 + (n / 4096) % 64, 128 + (n / 64) % 64, 128 + n % 64]

/-- `%XX` escape of one byte. -/
def pctByte (b : Nat) : List Char := ['%', hexDigitU (b / 16), hexDigitU (b % 16)]

/-- quote's always-safe characters: ASCII letters, digits, `_ . - ~`. -/
def alwaysSafe (c : Char) : Bool :=
  isAsciiAlpha c || isAsciiDigit c || c = '_' || c = '.' || c = '-' || c = '~'

/-- urllib.parse.quote_plus with safe='' on one character: space becomes
`+`, always-safe characters stay, everything else is %XX-escaped per UTF-8
byte. -/
def quotePlusChar (c : Char) : List Char :=
  if c = ' ' then ['+']
  else if alwaysSafe c then [c]
  else (utf8Encode c).flatMap pctByte

def quote_plus (s : List Char) : List Char := s.flatMap quotePlusChar

/-- urllib.parse.urlencode on a list of pairs (doseq=False,
quote_via=quote_plus): `k=v` joined by `&`. -/
def urlencode (l : List (List Char × List Char)) : List Char :=
  joinSep '&' (l.map (fun kv => quote_plus kv.1 ++ '=' :: quote_plus kv.2))

/-- U+FFFD, the replacement character of errors='replace'. -/
def FFFD : Char := Char.ofNat 65533

/-- UTF-8 continuation byte test. -/
def isCont (b : Nat) : Bool := 128 ≤ b && b < 192

/-- Valid second byte after a three-byte lead: E0 requires A0-BF (no
overlong), ED requires 80-9F (no surrogates), otherwise 80-BF. -/
def cont3ok (lead b : Nat) : Bool :=
  if lead = 224 then 160 ≤ b && b < 192
  else if lead = 237 then 128 ≤ b && b < 160
  else isCont b

/-- Valid second byte after a four-byte lead: F0 requires 90-BF (no
overlong), F4 requires 80-8F (≤ U+10FFFF), otherwise 80-BF. -/
def cont4ok (lead b : Nat) : Bool :=
  if lead = 240 then 144 ≤ b && b < 192
  else if lead = 244 then 128 ≤ b && b < 144
  else isCont b

/-- One byte examined in initial decoder state: ASCII emits its character,
an invalid lead (80-C1, F5-FF) emits one replacement character, a valid
lead opens a pending sequence (accumulated value, continuation bytes still
expected, and the allowed range of the next byte - restricted after E0, ED,
F0 and F4 to exclude overlong forms, surrogates and values beyond U+10FFFF).
-/
def leadStep (b : Nat) : List Char × Option (Nat × Nat × Nat × Nat) :=
  if b < 128 then ([Char.ofNat b], none)
  else if b < 194 then ([FFFD], none)
  else if b < 224 then ([], some (b - 192, 1, 128, 192))
  else if b = 224 then ([], some (0, 2, 160, 192))
  else if b = 237 then ([], some (13, 2, 128, 160))
  else if b < 240 then ([], some (b - 224, 2, 128, 192))
  else if b = 240 then ([], some (0, 3, 144, 192))
  else if b = 244 then ([], some (4, 3, 128, 144))
  else if b < 245 then ([], some (b - 240, 3, 128, 192))
  else ([FFFD], none)

/-- UTF-8 decoding with errors='replace' as a byte-at-a-time state machine:
each maximal invalid subpart becomes one U+FFFD (a byte failing its expected
range is reprocessed as a fresh lead), valid sequences decode to their
scalar value. -/
def decodeGo : Option (Nat × Nat × Nat × Nat) → List Nat → List Char
  | none, [] => []
  | some _, [] => [FFFD]
  | none, b :: rest =>
    let st := leadStep b
    st.1 ++ decodeGo st.2 rest
  | some (acc, expect, lo, hi), b :: rest =>
    if lo ≤ b ∧ b < hi then
      if expect = 1 then Char.ofNat (acc * 64 + (b - 128)) :: decodeGo none rest
      else decodeGo (some (acc * 64 + (b - 128), expect - 1, 128, 192)) rest
    else
      FFFD :: (let st := leadStep b; st.1 ++ decodeGo st.2 rest)

def utf8DecodeReplace (bs : List Nat) : List Char := decodeGo none bs

/-- Lexer for unquote: a `%` followed by two hex digits is a byte escape,
anything else is a literal character. -/
def tokens : List Char → List (Sum Nat Char)
  | [] => []
  | '%' :: a :: b :: rest =>
    match hexVal a, hexVal b with
    | some x, some y => Sum.inl (16 * x + y) :: tokens rest
    | _, _ => Sum.inr '%' :: tokens (a :: b :: rest)
  | c :: rest => Sum.inr c :: tokens rest

/-- Emit the token stream: maximal runs of byte escapes are UTF-8 decoded
together (with replacement on error), literals pass through.  `pending`
holds the byte run read so far. -/
def emitTokens : List Nat → List (Sum Nat Char) → List Char
  | pending, [] => utf8DecodeReplace pending
  | pending, Sum.inl b :: rest => emitTokens (pending ++ [b]) rest
  | pending, Sum.inr c :: rest =>
    utf8DecodeReplace pending ++ c :: emitTokens [] rest

/-- urllib.parse.unquote with encoding='utf-8', errors='replace'. -/
def unquote (s : List Char) : List Char := emitTokens [] (tokens s)

/-- unquote_plus as used by parse_qsl: `+` to space, then unquote. -/
def unquote_plus (s : List Char) : List Char :=
  unquote (s.map (fun c => if c = '+' then ' ' else c))

/-- urllib.parse.parse_qsl with the given keep_blank_values (strict parsing
off, separator `&`): empty chunks are skipped, a chunk without `=` is kept
only with keep_blank_values (with empty value), a chunk with empty value is
kept only with keep_blank_values, and names and values go through
unquote_plus. -/
def parse_qsl (keepBlank : Bool) (qs : List Char) : List (List Char × List Char) :=
  (splitAll '&' qs).foldr
    (fun nv acc =>
      if nv = [] then acc
      else
        match splitFirst '=' nv with
        | (name, some value) =>
          if value ≠ [] ∨ keepBlank then
            (unquote_plus name, unquote_plus value) :: acc
          else acc
        | (name, none) =>
          if keepBlank then (unquote_plus name, []) :: acc else acc)
    []

/-- The tracking parameter names removed by scrape_news.canonicalize_url. -/
def TRACKING : List (List Char) :=
  ["utm_source".toList, "utm_medium".toList, "utm_campaign".toList,
   "utm_term".toList, "utm_content".toList, "gclid".toList, "fbclid".toList]

/-- Model of canonicalize_url (scripts/scrape_news.py lines 46-57) at its
exception branch `final = url` (the requests.get redirect resolution is
external network I/O; the normalization applied to `final` is what the
dedup properties are about): parse, drop query pairs whose lowercased name
is a tracking parameter (k.lower() is ASCII lowercasing here - no tracking
name contains a character reachable from a non-ASCII lowercasing), re-encode
the query, and unparse with the fragment removed. -/
def canonicalize_url (V : Validators) (url : List Char) :
    Except Unit (List Char) :=
  match urlparseE V [] url with
  | Except.error e => Except.error e
  | Except.ok p =>
    let qs := (parse_qsl false p.query).filter
      (fun kv => !decide ((kv.1.map lowerChar) ∈ TRACKING))
    Except.ok (urlunparse ⟨p.scheme, p.netloc, p.path, p.params, urlencode qs, []⟩)

end Url

namespace Url

/-- Code-point lexicographic `<` on strings, Python str comparison. -/
def strLt : List Char → List Char → Bool
  | [], [] => false
  | [], _ :: _ => true
  | _ :: _, [] => false
  | a :: as_, b :: bs_ =>
    if a.toNat < b.toNat then true
    else if a = b then strLt as_ bs_
    else false

/-- Lexicographic `≤` on (name, value) pairs, Python tuple comparison, as
used by `sorted` on parse_qsl output. -/
def pairLe (x y : List Char × List Char) : Bool :=
  strLt x.1 y.1 || (x.1 = y.1 && (strLt x.2 y.2 || x.2 = y.2))

/-- Python `sorted` on pairs of strings: a stable sort by the total order
`pairLe` (stability is irrelevant for equal pairs, so any stable sort
models it; insertionSort is stable). -/
def sortPairs (l : List (List Char × List Char)) : List (List Char × List Char) :=
  l.insertionSort (fun a b => pairLe a b)

/-- urllib's uses_relative scheme list. -/
def uses_relative : List (List Char) :=
  [[], "ftp".toList, "http".toList, "gopher".toList, "nntp".toList,
   "imap".toList, "wais".toList, "file".toList, "https".toList,
   "shttp".toList, "mms".toList, "prospero".toList, "rtsp".toList,
   "rtspu".toList, "sftp".toList, "svn".toList, "svn+ssh".toList,
   "ws".toList, "wss".toList]

/-- The `..`/`.` resolution loop of urljoin: `..` pops (IndexError on an
empty stack is ignored), `.` is skipped, other segments are pushed. -/
def resolveSegs : List (List Char) → List (List Char) → List (List Char)
  | acc, [] => acc
  | acc, seg :: rest =>
    if seg = ['.'] then resolveSegs acc rest
    else if seg = ['.', '.'] then resolveSegs acc.dropLast rest
    else resolveSegs (acc ++ [seg]) rest

/-- `segments[1:-1] = filter(None, segments[1:-1])`: drop empty segments,
keeping the first and last. -/
def dropEmptyMiddle (segments : List (List Char)) : List (List Char) :=
  match segments with
  | [] => []
  | [s] => [s]
  | s :: rest =>
    s :: ((rest.dropLast.filter (fun seg => seg ≠ [])) ++ [rest.getLastD []])

/-- Model of urllib.parse.urljoin: empty-argument shortcuts, parse base and
url (the url with the base's scheme as default), return the url for a
different or non-relative scheme, adopt the base's netloc and - for an empty
path - path/params/query, otherwise resolve `.` and `..` segments of the
combined path. -/
def urljoinE (V : Validators) (base url : List Char) :
    Except Unit (List Char) :=
  if base = [] then Except.ok url
  else if url = [] then Except.ok base
  else
    match urlparseE V [] base with
    | Except.error e => Except.error e
    | Except.ok b =>
      match urlparseE V b.scheme url with
      | Except.error e => Except.error e
      | Except.ok r =>
        if r.scheme ≠ b.scheme ∨ r.scheme ∉ uses_relative then Except.ok url
        else if r.scheme ∈ uses_netloc ∧ r.netloc ≠ [] then
          Except.ok (urlunparse r)
        else
          let netloc := if r.scheme ∈ uses_netloc then b.netloc else r.netloc
          if r.path = [] ∧ r.params = [] then
            Except.ok (urlunparse ⟨r.scheme, netloc, b.path, b.params,
              (if r.query = [] then b.query else r.query), r.fragment⟩)
          else
            let base_parts0 := splitAll '/' b.path
            let base_parts :=
              if base_parts0.getLastD [] ≠ [] then base_parts0.dropLast
              else base_parts0
            let segments :=
              if r.path.take 1 = ['/'] then splitAll '/' r.path
              else dropEmptyMiddle (base_parts ++ splitAll '/' r.path)
            let resolved := resolveSegs [] segments
            let resolved :=
              if segments.getLastD [] = ['.'] ∨ segments.getLastD [] = ['.', '.']
              then resolved ++ [[]] else resolved
            let joined := joinSep '/' resolved
            Except.ok (urlunparse ⟨r.scheme, netloc,
              (if joined = [] then ['/'] else joined), r.params, r.query, r.fragment⟩)

/-- Model of canonicalize_url (src/utils.py lines 56-65): resolve the href
against the base with urljoin, sort the query pairs (keeping blank values),
re-encode, drop the fragment; any exception falls back to `href or base`. -/
def utils_canonicalize_url (V : Validators) (base href : List Char) :
    List Char :=
  let r : Except Unit (List Char) :=
    match urljoinE V base href with
    | Except.error e => Except.error e
    | Except.ok absu =>
      match urlparseE V [] absu with
      | Except.error e => Except.error e
      | Except.ok p =>
        Except.ok (urlunparse ⟨p.scheme, p.netloc, p.path, p.params,
          urlencode (sortPairs (parse_qsl true p.query)), []⟩)
  match r with
  | Except.ok v => v
  | Except.error _ => if href ≠ [] then href else base
end Url

namespace Url

theorem sf_cons_self (sep : Char) (rest : List Char) :
    splitFirst sep (sep :: rest) = ([], some rest) := by
  simp [splitFirst]

theorem sf_cons_ne {ch sep : Char} (h : ¬ch = sep) (rest : List Char) :
    splitFirst sep (ch :: rest)
      = (ch :: (splitFirst sep rest).1, (splitFirst sep rest).2) := by
  simp [splitFirst, h]

theorem sf_not_mem {c : Char} {l : List Char} (h : c ∉ l) :
    splitFirst c l = (l, none) := by
  induction l with
  | nil => rfl
  | cons a rest ih =>
    have ha : ¬a = c := fun e => h (e ▸ List.mem_cons_self a rest)
    have hr : c ∉ rest := fun m => h (List.mem_cons_of_mem a m)
    rw [sf_cons_ne ha, ih hr]

theorem sf_insert {c : Char} {a b : List Char} (h : c ∉ a) :
    splitFirst c (a ++ c :: b) = (a, some b) := by
  induction a with
  | nil => simpa using sf_cons_self c b
  | cons x rest ih =>
    have hx : ¬x = c := fun e => h (e ▸ List.mem_cons_self x rest)
    have hr : c ∉ rest := fun m => h (List.mem_cons_of_mem x m)
    rw [List.cons_append, sf_cons_ne hx, ih hr]

theorem sf_append_some {c : Char} {a x y : List Char}
    (h : splitFirst c a = (x, some y)) (t : List Char) :
    splitFirst c (a ++ t) = (x, some (y ++ t)) := by
  induction a generalizing x with
  | nil => simp [splitFirst] at h
  | cons ch rest ih =>
    by_cases hc : ch = c
    · subst hc
      rw [sf_cons_self] at h
      injection h with h1 h2
      injection h2 with h2
      subst h1; subst h2
      simpa using sf_cons_self ch (rest ++ t)
    · rw [sf_cons_ne hc] at h
      injection h with h1 h2
      cases hr : splitFirst c rest with
      | mk r1 r2 =>
        rw [hr] at h1 h2
        cases r2 with
        | none => simp at h2
        | some yy =>
          injection h2 with h2
          subst h2
          rw [List.cons_append, sf_cons_ne hc, ih (x := r1) hr]
          simp [← h1]

theorem sf_append_not_mem {c : Char} {a : List Char} (h : c ∉ a) (t : List Char) :
    splitFirst c (a ++ t) = (a ++ (splitFirst c t).1, (splitFirst c t).2) := by
  induction a with
  | nil => simp
  | cons x rest ih =>
    have hx : ¬x = c := fun e => h (e ▸ List.mem_cons_self x rest)
    have hr : c ∉ rest := fun m => h (List.mem_cons_of_mem x m)
    rw [List.cons_append, sf_cons_ne hx, ih hr]
    simp

theorem sf_decomp_some {c : Char} {l x y : List Char}
    (h : splitFirst c l = (x, some y)) : l = x ++ c :: y ∧ c ∉ x := by
  induction l generalizing x with
  | nil => simp [splitFirst] at h
  | cons a rest ih =>
    by_cases ha : a = c
    · subst ha
      rw [sf_cons_self] at h
      injection h with h1 h2
      injection h2 with h2
      subst h1; subst h2
      simp
    · rw [sf_cons_ne ha] at h
      injection h with h1 h2
      cases hr : splitFirst c rest with
      | mk r1 r2 =>
        rw [hr] at h1 h2
        cases r2 with
        | none => simp at h2
        | some yy =>
          injection h2 with h2
          subst h2
          have hd := ih (x := r1) hr
          refine ⟨?_, ?_⟩
          · rw [← h1, hd.1]
            simp
          · rw [← h1]
            intro hm
            rcases List.mem_cons.mp hm with e | e
            · exact ha e.symm
            · exact hd.2 e

theorem sf_decomp_none {c : Char} {l x : List Char}
    (h : splitFirst c l = (x, none)) : x = l ∧ c ∉ l := by
  induction l generalizing x with
  | nil =>
    rw [show splitFirst c [] = (([] : List Char), (none : Option (List Char))) from rfl] at h
    injection h with h1 h2
    exact ⟨h1.symm, by simp⟩
  | cons a rest ih =>
    by_cases ha : a = c
    · rw [ha, sf_cons_self] at h
      injection h with h1 h2
      simp at h2
    · rw [sf_cons_ne ha] at h
      injection h with h1 h2
      cases hr : splitFirst c rest with
      | mk r1 r2 =>
        rw [hr] at h1 h2
        cases r2 with
        | some yy => simp at h2
        | none =>
          have hd := ih (x := r1) hr
          constructor
          · rw [← h1, hd.1]
          · intro hm
            rcases List.mem_cons.mp hm with e | e
            · exact ha e.symm
            · exact hd.2 e

theorem takeWhile_append_all {p : Char → Bool} {a b : List Char}
    (ha : a.all p) (hb : b = [] ∨ ∃ c r, b = c :: r ∧ p c = false) :
    (a ++ b).takeWhile p = a ∧ (a ++ b).dropWhile p = b := by
  induction a with
  | nil =>
    rcases hb with rfl | ⟨c, r, rfl, hc⟩
    · simp
    · simp [List.takeWhile, List.dropWhile, hc]
  | cons x rest ih =>
    have hx : p x = true := (List.all_eq_true.mp ha) x (List.mem_cons_self x rest)
    have hrest : rest.all p := by
      rw [List.all_eq_true] at ha ⊢
      exact fun c hc => ha c (List.mem_cons_of_mem x hc)
    have h2 := ih hrest
    simp [List.takeWhile_cons, List.dropWhile_cons, hx, h2.1, h2.2]

end Url

namespace Url

theorem leadStep_ascii {b : Nat} (h : b < 128) :
    leadStep b = ([Char.ofNat b], none) := by
  unfold leadStep
  rw [if_pos h]

theorem leadStep_two {b : Nat} (h1 : 194 ≤ b) (h2 : b < 224) :
    leadStep b = ([], some (b - 192, 1, 128, 192)) := by
  unfold leadStep
  rw [if_neg (by omega), if_neg (by omega), if_pos h2]

theorem leadStep_224 : leadStep 224 = ([], some (0, 2, 160, 192)) := by
  unfold leadStep
  norm_num

theorem leadStep_237 : leadStep 237 = ([], some (13, 2, 128, 160)) := by
  unfold leadStep
  norm_num

theorem leadStep_threeMid {b : Nat} (h1 : 224 ≤ b) (h2 : b < 240)
    (h3 : b ≠ 224) (h4 : b ≠ 237) :
    leadStep b = ([], some (b - 224, 2, 128, 192)) := by
  unfold leadStep
  rw [if_neg (by omega), if_neg (by omega), if_neg (by omega), if_neg h3,
    if_neg h4, if_pos h2]

theorem leadStep_240 : leadStep 240 = ([], some (0, 3, 144, 192)) := by
  unfold leadStep
  norm_num

theorem leadStep_244 : leadStep 244 = ([], some (4, 3, 128, 144)) := by
  unfold leadStep
  norm_num

theorem leadStep_fourMid {b : Nat} (h1 : 240 ≤ b) (h2 : b < 245)
    (h3 : b ≠ 240) (h4 : b ≠ 244) :
    leadStep b = ([], some (b - 240, 3, 128, 192)) := by
  unfold leadStep
  rw [if_neg (by omega), if_neg (by omega), if_neg (by omega),
    if_neg (by omega), if_neg (by omega), if_neg (by omega), if_neg h3,
    if_neg h4, if_pos h2]

theorem decodeGo_none_cons (b : Nat) (rest : List Nat) :
    decodeGo none (b :: rest) = (leadStep b).1 ++ decodeGo (leadStep b).2 rest := rfl

theorem decodeGo_some_last {acc lo hi b : Nat} (rest : List Nat)
    (h1 : lo ≤ b) (h2 : b < hi) :
    decodeGo (some (acc, 1, lo, hi)) (b :: rest)
      = Char.ofNat (acc * 64 + (b - 128)) :: decodeGo none rest := by
  show (if lo ≤ b ∧ b < hi then _ else _) = _
  rw [if_pos ⟨h1, h2⟩, if_pos rfl]

theorem decodeGo_some_step {acc expect lo hi b : Nat} (rest : List Nat)
    (h1 : lo ≤ b) (h2 : b < hi) (h3 : expect ≠ 1) :
    decodeGo (some (acc, expect, lo, hi)) (b :: rest)
      = decodeGo (some (acc * 64 + (b - 128), expect - 1, 128, 192)) rest := by
  show (if lo ≤ b ∧ b < hi then _ else _) = _
  rw [if_pos ⟨h1, h2⟩, if_neg h3]

theorem char_range (c : Char) :
    c.toNat < 55296 ∨ (57344 ≤ c.toNat ∧ c.toNat < 1114112) := by
  have hv := c.valid
  rcases hv with h | ⟨h1, h2⟩
  · left
    exact_mod_cast h
  · right
    constructor
    · exact_mod_cast h1
    · exact_mod_cast h2

theorem decode_encode (c : Char) (bs : List Nat) :
    decodeGo none (utf8Encode c ++ bs) = c :: decodeGo none bs := by
  have hofn : Char.ofNat c.toNat = c := Char.ofNat_toNat c
  have hval := char_range c
  by_cases h1 : c.toNat < 128
  · have he : utf8Encode c = [c.toNat] := by
      simp only [utf8Encode]
      rw [if_pos h1]
    rw [he, List.cons_append, List.nil_append, decodeGo_none_cons,
      leadStep_ascii h1]
    simp [hofn]
  · by_cases h2 : c.toNat < 2048
    · have he : utf8Encode c = [192 + c.toNat / 64, 128 + c.toNat % 64] := by
        simp only [utf8Encode]
        rw [if_neg h1, if_pos h2]
      rw [he]
      show decodeGo none ((192 + c.toNat / 64) :: (128 + c.toNat % 64) :: bs) = _
      rw [decodeGo_none_cons, leadStep_two (by omega) (by omega)]
      show decodeGo (some (192 + c.toNat / 64 - 192, 1, 128, 192)) _ = _
      have ha : 192 + c.toNat / 64 - 192 = c.toNat / 64 := by omega
      rw [ha, decodeGo_some_last bs (by omega) (by omega)]
      have hb : c.toNat / 64 * 64 + (128 + c.toNat % 64 - 128) = c.toNat := by omega
      rw [hb, hofn]
    · by_cases h3 : c.toNat < 65536
      · have he : utf8Encode c
            = [224 + c.toNat / 4096, 128 + (c.toNat / 64) % 64, 128 + c.toNat % 64] := by
          simp only [utf8Encode]
          rw [if_neg h1, if_neg h2, if_pos h3]
        rw [he]
        show decodeGo none ((224 + c.toNat / 4096) :: (128 + (c.toNat / 64) % 64)
          :: (128 + c.toNat % 64) :: bs) = _
        have hsur : c.toNat < 55296 ∨ 57344 ≤ c.toNat := by omega
        by_cases hc1 : c.toNat < 4096
        · have hl : 224 + c.toNat / 4096 = 224 := by omega
          rw [hl, decodeGo_none_cons, leadStep_224]
          show decodeGo (some (0, 2, 160, 192)) _ = _
          rw [decodeGo_some_step _ (by omega) (by omega) (by omega),
            decodeGo_some_last bs (by omega) (by omega)]
          have hb : (0 * 64 + (128 + c.toNat / 64 % 64 - 128)) * 64
              + (128 + c.toNat % 64 - 128) = c.toNat := by omega
          rw [hb, hofn]
        · by_cases hc2 : c.toNat / 4096 = 13
          · have hl : 224 + c.toNat / 4096 = 237 := by omega
            rw [hl, decodeGo_none_cons, leadStep_237]
            show decodeGo (some (13, 2, 128, 160)) _ = _
            have hmid : 128 + (c.toNat / 64) % 64 < 160 := by omega
            rw [decodeGo_some_step _ (by omega) hmid (by omega),
              decodeGo_some_last bs (by omega) (by omega)]
            have hb : (13 * 64 + (128 + c.toNat / 64 % 64 - 128)) * 64
                + (128 + c.toNat % 64 - 128) = c.toNat := by omega
            rw [hb, hofn]
          · rw [decodeGo_none_cons,
              leadStep_threeMid (by omega) (by omega) (by omega) (by omega)]
            show decodeGo (some (224 + c.toNat / 4096 - 224, 2, 128, 192)) _ = _
            have ha : 224 + c.toNat / 4096 - 224 = c.toNat / 4096 := by omega
            rw [ha, decodeGo_some_step _ (by omega) (by omega) (by omega),
              decodeGo_some_last bs (by omega) (by omega)]
            have hb : (c.toNat / 4096 * 64 + (128 + c.toNat / 64 % 64 - 128)) * 64
                + (128 + c.toNat % 64 - 128) = c.toNat := by omega
            rw [hb, hofn]
      · have h4 : c.toNat < 1114112 := by omega
        have he : utf8Encode c
            = [240 + c.toNat / 262144, 128 + (c.toNat / 4096) % 64,
               128 + (c.toNat / 64) % 64, 128 + c.toNat % 64] := by
          simp only [utf8Encode]
          rw [if_neg h1, if_neg h2, if_neg h3]
        rw [he]
        show decodeGo none ((240 + c.toNat / 262144) :: (128 + (c.toNat / 4096) % 64)
          :: (128 + (c.toNat / 64) % 64) :: (128 + c.toNat % 64) :: bs) = _
        by_cases hc1 : c.toNat < 262144
        · have hl : 240 + c.toNat / 262144 = 240 := by omega
          rw [hl, decodeGo_none_cons, leadStep_240]
          show decodeGo (some (0, 3, 144, 192)) _ = _
          rw [decodeGo_some_step _ (by omega) (by omega) (by omega),
            decodeGo_some_step _ (by omega) (by omega) (by omega),
            decodeGo_some_last bs (by omega) (by omega)]
          have hb : ((0 * 64 + (128 + c.toNat / 4096 % 64 - 128)) * 64
              + (128 + c.toNat / 64 % 64 - 128)) * 64
              + (128 + c.toNat % 64 - 128) = c.toNat := by omega
          rw [hb, hofn]
        · by_cases hc2 : c.toNat / 262144 = 4
          · have hl : 240 + c.toNat / 262144 = 244 := by omega
            rw [hl, decodeGo_none_cons, leadStep_244]
            show decodeGo (some (4, 3, 128, 144)) _ = _
            have hmid : 128 + (c.toNat / 4096) % 64 < 144 := by omega
            rw [decodeGo_some_step _ (by omega) hmid (by omega),
              decodeGo_some_step _ (by omega) (by omega) (by omega),
              decodeGo_some_last bs (by omega) (by omega)]
            have hb : ((4 * 64 + (128 + c.toNat / 4096 % 64 - 128)) * 64
                + (128 + c.toNat / 64 % 64 - 128)) * 64
                + (128 + c.toNat % 64 - 128) = c.toNat := by omega
            rw [hb, hofn]
          · rw [decodeGo_none_cons,
              leadStep_fourMid (by omega) (by omega) (by omega) (by omega)]
            show decodeGo (some (240 + c.toNat / 262144 - 240, 3, 128, 192)) _ = _
            have ha : 240 + c.toNat / 262144 - 240 = c.toNat / 262144 := by omega
            rw [ha, decodeGo_some_step _ (by omega) (by omega) (by omega),
              decodeGo_some_step _ (by omega) (by omega) (by omega),
              decodeGo_some_last bs (by omega) (by omega)]
            have hb : ((c.toNat / 262144 * 64 + (128 + c.toNat / 4096 % 64 - 128)) * 64
                + (128 + c.toNat / 64 % 64 - 128)) * 64
                + (128 + c.toNat % 64 - 128) = c.toNat := by omega
            rw [hb, hofn]

end Url

namespace Url

theorem hexVal_hexDigitU {n : Nat} (h : n < 16) : hexVal (hexDigitU n) = some n := by
  interval_cases n <;> rfl

theorem utf8Encode_lt (c : Char) : ∀ b ∈ utf8Encode c, b < 256 := by
  intro b hb
  have := char_range c
  simp only [utf8Encode] at hb
  split at hb
  · simp at hb
    omega
  · split at hb
    · simp at hb
      rcases hb with rfl | rfl <;> omega
    · split at hb
      · simp at hb
        rcases hb with rfl | rfl | rfl <;> omega
      · simp at hb
        rcases hb with rfl | rfl | rfl | rfl <;> omega

theorem tok_lit {c : Char} (h : ¬c = '%') (rest : List Char) :
    tokens (c :: rest) = Sum.inr c :: tokens rest := by
  cases rest with
  | nil => simp [tokens, h]
  | cons a t =>
    cases t with
    | nil => simp [tokens, h]
    | cons b t2 => simp [tokens, h]

theorem tok_pct {b : Nat} (h : b < 256) (rest : List Char) :
    tokens (pctByte b ++ rest) = Sum.inl b :: tokens rest := by
  show tokens ('%' :: hexDigitU (b / 16) :: hexDigitU (b % 16) :: rest) = _
  rw [show tokens ('%' :: hexDigitU (b / 16) :: hexDigitU (b % 16) :: rest)
      = (match hexVal (hexDigitU (b / 16)), hexVal (hexDigitU (b % 16)) with
        | some x, some y => Sum.inl (16 * x + y) :: tokens rest
        | _, _ => Sum.inr '%' :: tokens (hexDigitU (b / 16) :: hexDigitU (b % 16) :: rest))
      from rfl]
  rw [hexVal_hexDigitU (by omega), hexVal_hexDigitU (by omega)]
  show Sum.inl (16 * (b / 16) + b % 16) :: tokens rest = _
  have hb : 16 * (b / 16) + b % 16 = b := by omega
  rw [hb]

/-- Token image of one character under quote_plus followed by the
plus-to-space map of unquote_plus. -/
def tokOf (c : Char) : List (Sum Nat Char) :=
  if c = ' ' then [Sum.inr ' ']
  else if alwaysSafe c then [Sum.inr c]
  else (utf8Encode c).map Sum.inl

theorem hexDigitU_ne {m : Nat} (h : m < 16) :
    ¬hexDigitU m = '+' ∧ ¬hexDigitU m = '%' := by
  interval_cases m <;> exact ⟨by decide, by decide⟩

theorem map_plus_pct {b : Nat} (h : b < 256) :
    (pctByte b).map (fun c => if c = '+' then ' ' else c) = pctByte b := by
  show ['%', _, _].map _ = _
  have h1 := hexDigitU_ne (m := b / 16) (by omega)
  have h2 := hexDigitU_ne (m := b % 16) (by omega)
  simp [pctByte, h1.1, h2.1]

end Url

namespace Url

theorem tok_pcts {bs : List Nat} (h : ∀ b ∈ bs, b < 256) (t : List Char) :
    tokens (bs.flatMap pctByte ++ t) = bs.map Sum.inl ++ tokens t := by
  induction bs with
  | nil => simp
  | cons b rest ih =>
    have hb : b < 256 := h b (List.mem_cons_self b rest)
    have hrest : ∀ x ∈ rest, x < 256 := fun x hx => h x (List.mem_cons_of_mem b hx)
    rw [List.flatMap_cons, List.append_assoc, tok_pct hb, ih hrest]
    simp

theorem alwaysSafe_ne {c : Char} (h : alwaysSafe c = true) : ¬c = '+' ∧ ¬c = '%' := by
  constructor
  · intro e; rw [e] at h; simp [alwaysSafe, isAsciiAlpha, isAsciiDigit] at h
  · intro e; rw [e] at h; simp [alwaysSafe, isAsciiAlpha, isAsciiDigit] at h

theorem map_flatMap_chars (f : Char → Char) (g : Nat → List Char) (l : List Nat) :
    (l.flatMap g).map f = l.flatMap (fun b => (g b).map f) := by
  induction l with
  | nil => rfl
  | cons b rest ih => simp [List.flatMap_cons, ih]

theorem tokens_quote (s : List Char) (t : List Char) :
    tokens (((quote_plus s).map (fun c => if c = '+' then ' ' else c)) ++ t)
      = s.flatMap tokOf ++ tokens t := by
  induction s with
  | nil => simp [quote_plus]
  | cons c s' ih =>
    rw [show quote_plus (c :: s') = quotePlusChar c ++ quote_plus s' from rfl,
      List.map_append, List.append_assoc]
    by_cases hsp : c = ' '
    · subst hsp
      rw [show quotePlusChar ' ' = ['+'] from rfl]
      rw [show (['+'].map (fun c => if c = '+' then ' ' else c)) = [' '] from rfl]
      rw [show ([' '] ++ ((quote_plus s').map _ ++ t))
          = ' ' :: ((quote_plus s').map (fun c => if c = '+' then ' ' else c) ++ t)
          from rfl]
      rw [tok_lit (by decide), ih]
      rfl
    · by_cases hsafe : alwaysSafe c
      · have hne := alwaysSafe_ne hsafe
        rw [show quotePlusChar c = [c] from by simp [quotePlusChar, hsp, hsafe]]
        rw [show ([c].map (fun c => if c = '+' then ' ' else c)) = [c] from by
          simp [hne.1]]
        rw [show ([c] ++ ((quote_plus s').map _ ++ t))
            = c :: ((quote_plus s').map (fun c => if c = '+' then ' ' else c) ++ t)
            from rfl]
        rw [tok_lit hne.2, ih, List.flatMap_cons]
        simp [tokOf, hsp, hsafe]
      · rw [show quotePlusChar c = (utf8Encode c).flatMap pctByte from by
          simp [quotePlusChar, hsp, hsafe]]
        rw [map_flatMap_chars]
        have hmp : ((utf8Encode c).flatMap
            (fun b => (pctByte b).map (fun c => if c = '+' then ' ' else c)))
            = (utf8Encode c).flatMap pctByte := by
          apply List.flatMap_congr
          intro b hb
          exact map_plus_pct (utf8Encode_lt c b hb)
        rw [hmp, tok_pcts (utf8Encode_lt c), ih, List.flatMap_cons]
        simp [tokOf, hsp, hsafe]

/-- Leading byte-escape run of a token list. -/
def bytesPre : List (Sum Nat Char) → List Nat
  | Sum.inl b :: r => b :: bytesPre r
  | _ => []

/-- The token list after its leading byte-escape run. -/
def afterBytes : List (Sum Nat Char) → List (Sum Nat Char)
  | Sum.inl _ :: r => afterBytes r
  | l => l

/-- Emission of a token list that does not start with a byte escape. -/
def emitRest : List (Sum Nat Char) → List Char
  | [] => []
  | Sum.inr c :: r => c :: emitTokens [] r
  | Sum.inl _ :: _ => []

theorem emit_decomp : ∀ (toks : List (Sum Nat Char)) (pend : List Nat),
    emitTokens pend toks
      = utf8DecodeReplace (pend ++ bytesPre toks) ++ emitRest (afterBytes toks) := by
  intro toks
  induction toks with
  | nil => intro pend; simp [emitTokens, bytesPre, afterBytes, emitRest]
  | cons tk r ih =>
    intro pend
    cases tk with
    | inl b =>
      rw [show emitTokens pend (Sum.inl b :: r) = emitTokens (pend ++ [b]) r from rfl,
        ih, show bytesPre (Sum.inl b :: r) = b :: bytesPre r from rfl,
        show afterBytes (Sum.inl b :: r) = afterBytes r from rfl]
      simp
    | inr c =>
      rw [show emitTokens pend (Sum.inr c :: r)
          = utf8DecodeReplace pend ++ c :: emitTokens [] r from rfl,
        show bytesPre (Sum.inr c :: r) = [] from rfl,
        show afterBytes (Sum.inr c :: r) = Sum.inr c :: r from rfl,
        show emitRest (Sum.inr c :: r) = c :: emitTokens [] r from rfl]
      simp

theorem emit_tokOf (s : List Char) (t : List (Sum Nat Char)) :
    emitTokens [] (s.flatMap tokOf ++ t) = s ++ emitTokens [] t := by
  induction s with
  | nil => simp
  | cons c s' ih =>
    rw [List.flatMap_cons, List.append_assoc]
    by_cases hsp : c = ' '
    · subst hsp
      rw [show tokOf ' ' = [Sum.inr ' '] from rfl]
      rw [show ([Sum.inr ' '] ++ (s'.flatMap tokOf ++ t))
          = Sum.inr ' ' :: (s'.flatMap tokOf ++ t) from rfl]
      rw [show emitTokens [] (Sum.inr ' ' :: (s'.flatMap tokOf ++ t))
          = utf8DecodeReplace [] ++ ' ' :: emitTokens [] (s'.flatMap tokOf ++ t)
          from rfl, ih]
      rfl
    · by_cases hsafe : alwaysSafe c
      · rw [show tokOf c = [Sum.inr c] from by simp [tokOf, hsp, hsafe]]
        rw [show ([Sum.inr c] ++ (s'.flatMap tokOf ++ t))
            = Sum.inr c :: (s'.flatMap tokOf ++ t) from rfl]
        rw [show emitTokens [] (Sum.inr c :: (s'.flatMap tokOf ++ t))
            = utf8DecodeReplace [] ++ c :: emitTokens [] (s'.flatMap tokOf ++ t)
            from rfl, ih]
        rfl
      · rw [show tokOf c = (utf8Encode c).map Sum.inl from by simp [tokOf, hsp, hsafe]]
        have hb : ∀ (bs : List Nat) (x : List (Sum Nat Char)) (pend : List Nat),
            emitTokens pend (bs.map Sum.inl ++ x) = emitTokens (pend ++ bs) x := by
          intro bs
          induction bs with
          | nil => intro x pend; simp
          | cons b bb ihb =>
            intro x pend
            rw [List.map_cons, List.cons_append,
              show emitTokens pend (Sum.inl b :: (bb.map Sum.inl ++ x))
                = emitTokens (pend ++ [b]) (bb.map Sum.inl ++ x) from rfl, ihb]
            simp
        rw [hb _ _ []]
        rw [emit_decomp, List.nil_append]
        rw [show utf8DecodeReplace (utf8Encode c ++ bytesPre (s'.flatMap tokOf ++ t))
            = decodeGo none (utf8Encode c ++ bytesPre (s'.flatMap tokOf ++ t)) from rfl,
          decode_encode]
        rw [show (decodeGo none (bytesPre (s'.flatMap tokOf ++ t)))
            = utf8DecodeReplace (bytesPre (s'.flatMap tokOf ++ t)) from rfl]
        have := emit_decomp (s'.flatMap tokOf ++ t) []
        rw [List.nil_append] at this
        rw [List.cons_append, ← this, ih]
        simp

theorem unquote_plus_quote_plus (s : List Char) :
    unquote_plus (quote_plus s) = s := by
  rw [unquote_plus, unquote]
  have h1 := tokens_quote s []
  rw [show tokens ([] : List Char) = [] from rfl, List.append_nil,
    List.append_nil] at h1
  rw [h1]
  have h2 := emit_tokOf s []
  rw [show emitTokens [] ([] : List (Sum Nat Char)) = [] from rfl,
    List.append_nil, List.append_nil] at h2
  exact h2

end Url

namespace Url

theorem hexDigitU_safe {m : Nat} (h : m < 16) : alwaysSafe (hexDigitU m) = true := by
  interval_cases m <;> decide

theorem qp_class {s : List Char} : ∀ x ∈ quote_plus s,
    alwaysSafe x = true ∨ x = '+' ∨ x = '%' := by
  intro x hx
  rw [quote_plus, List.mem_flatMap] at hx
  rcases hx with ⟨c, _, hc⟩
  rw [quotePlusChar] at hc
  split at hc
  · right; left; simpa using hc
  · split at hc
    · left
      have hxc : x = c := by simpa using hc
      subst hxc
      assumption
    · rw [List.mem_flatMap] at hc
      rcases hc with ⟨b, hb, hpb⟩
      have hb256 := utf8Encode_lt c b hb
      simp only [pctByte, List.mem_cons, List.not_mem_nil, or_false] at hpb
      rcases hpb with h | h | h
      · right; right; exact h
      · left; rw [h]; exact hexDigitU_safe (by omega)
      · left; rw [h]; exact hexDigitU_safe (by omega)

theorem qp_ne_special {s : List Char} {d : Char}
    (hd : alwaysSafe d = false) (h1 : ¬d = '+') (h2 : ¬d = '%') : d ∉ quote_plus s := by
  intro hm
  rcases qp_class d hm with h | h | h
  · rw [hd] at h; exact Bool.false_ne_true h
  · exact h1 h
  · exact h2 h

theorem quotePlusChar_ne_nil (c : Char) : quotePlusChar c ≠ [] := by
  rw [quotePlusChar]
  split
  · simp
  · split
    · simp
    · simp only [utf8Encode]
      split
      · simp [pctByte]
      · split
        · simp [pctByte]
        · split
          · simp [pctByte]
          · simp [pctByte]

theorem quote_plus_ne_nil {s : List Char} (h : s ≠ []) : quote_plus s ≠ [] := by
  cases s with
  | nil => exact absurd rfl h
  | cons c rest =>
    rw [show quote_plus (c :: rest) = quotePlusChar c ++ quote_plus rest from rfl]
    intro he
    exact quotePlusChar_ne_nil c (List.append_eq_nil.mp he).1

theorem sa_go_term {sep : Char} {a : List Char} (h : sep ∉ a) (acc : List Char) :
    splitAllGo sep acc a = [acc.reverse ++ a] := by
  induction a generalizing acc with
  | nil => simp [splitAllGo]
  | cons c a' ih =>
    have hc : ¬c = sep := fun e => h (e ▸ List.mem_cons_self c a')
    have ha : sep ∉ a' := fun m => h (List.mem_cons_of_mem c m)
    rw [splitAllGo, if_neg hc, ih ha]
    simp

theorem sa_go_skip {sep : Char} {a : List Char} (h : sep ∉ a) (acc rest : List Char) :
    splitAllGo sep acc (a ++ sep :: rest)
      = (acc.reverse ++ a) :: splitAllGo sep [] rest := by
  induction a generalizing acc with
  | nil =>
    rw [List.nil_append, splitAllGo, if_pos rfl]
    simp
  | cons c a' ih =>
    have hc : ¬c = sep := fun e => h (e ▸ List.mem_cons_self c a')
    have ha : sep ∉ a' := fun m => h (List.mem_cons_of_mem c m)
    rw [List.cons_append, splitAllGo, if_neg hc, ih ha]
    simp

theorem sa_join {sep : Char} : ∀ {parts : List (List Char)}, parts ≠ [] →
    (∀ x ∈ parts, sep ∉ x) → splitAll sep (joinSep sep parts) = parts := by
  intro parts
  induction parts with
  | nil => intro h; exact absurd rfl h
  | cons p rest ih =>
    intro _ hall
    have hp : sep ∉ p := hall p (List.mem_cons_self p rest)
    cases rest with
    | nil =>
      rw [show joinSep sep [p] = p from rfl, splitAll, sa_go_term hp]
      simp
    | cons q rest2 =>
      rw [show joinSep sep (p :: q :: rest2) = p ++ sep :: joinSep sep (q :: rest2)
        from rfl, splitAll, sa_go_skip hp]
      have := ih (by simp) (fun x hx => hall x (List.mem_cons_of_mem p hx))
      rw [splitAll] at this
      rw [this]
      simp

theorem parse_qsl_urlencode {L : List (List Char × List Char)}
    (h : ∀ kv ∈ L, kv.2 ≠ []) : parse_qsl false (urlencode L) = L := by
  cases L with
  | nil => rfl
  | cons kv0 L0 =>
    rw [parse_qsl, urlencode]
    have hform : ∀ x ∈ (kv0 :: L0).map
        (fun kv => quote_plus kv.1 ++ '=' :: quote_plus kv.2), ('&' : Char) ∉ x := by
      intro x hx
      rw [List.mem_map] at hx
      rcases hx with ⟨kv, _, rfl⟩
      intro hm
      rcases List.mem_append.mp hm with hm | hm
      · exact qp_ne_special (by decide) (by decide) (by decide) hm
      · rcases List.mem_cons.mp hm with e | hm
        · exact absurd e (by decide)
        · exact qp_ne_special (by decide) (by decide) (by decide) hm
    rw [sa_join (by simp) hform]
    have main : ∀ (M : List (List Char × List Char)), (∀ kv ∈ M, kv.2 ≠ []) →
        (M.map (fun kv => quote_plus kv.1 ++ '=' :: quote_plus kv.2)).foldr
          (fun nv acc =>
            if nv = [] then acc
            else
              match splitFirst '=' nv with
              | (name, some value) =>
                if value ≠ [] ∨ false then
                  (unquote_plus name, unquote_plus value) :: acc
                else acc
              | (name, none) => if false then (unquote_plus name, []) :: acc else acc)
          [] = M := by
      intro M
      induction M with
      | nil => intro _; rfl
      | cons kv M0 ihm =>
        intro hM
        rw [List.map_cons, List.foldr_cons]
        rw [ihm (fun x hx => hM x (List.mem_cons_of_mem kv hx))]
        have hne : quote_plus kv.1 ++ '=' :: quote_plus kv.2 ≠ [] := by simp
        rw [if_neg hne]
        have hsf : splitFirst '=' (quote_plus kv.1 ++ '=' :: quote_plus kv.2)
            = (quote_plus kv.1, some (quote_plus kv.2)) :=
          sf_insert (qp_ne_special (by decide) (by decide) (by decide))
        have hv : quote_plus kv.2 ≠ [] :=
          quote_plus_ne_nil (hM kv (List.mem_cons_self kv M0))
        simp only [hsf, hv, ne_eq, not_false_iff, true_or, if_true,
          unquote_plus_quote_plus]
    exact main (kv0 :: L0) h

end Url

namespace Url

theorem decodeGo_some_ne_nil (st : Nat × Nat × Nat × Nat) :
    ∀ l : List Nat, decodeGo (some st) l ≠ [] := by
  intro l
  induction l generalizing st with
  | nil => simp [decodeGo]
  | cons b rest ih =>
    obtain ⟨acc, expect, lo, hi⟩ := st
    show (if lo ≤ b ∧ b < hi then _ else _) ≠ []
    split
    · split
      · simp
      · exact ih _
    · simp

theorem leadStep_shape (b : Nat) :
    (leadStep b).1 ≠ [] ∨ ∃ st, (leadStep b).2 = some st := by
  unfold leadStep
  repeat' split
  all_goals simp

theorem decode_ne_nil {bs : List Nat} (h : bs ≠ []) : utf8DecodeReplace bs ≠ [] := by
  cases bs with
  | nil => exact absurd rfl h
  | cons b rest =>
    rw [utf8DecodeReplace, decodeGo_none_cons]
    rcases leadStep_shape b with h1 | ⟨st, h2⟩
    · intro he
      exact h1 (List.append_eq_nil.mp he).1
    · rw [h2]
      intro he
      exact decodeGo_some_ne_nil st rest (List.append_eq_nil.mp he).2

theorem tokens_ne_nil {s : List Char} (h : s ≠ []) : tokens s ≠ [] := by
  cases s with
  | nil => exact absurd rfl h
  | cons c rest =>
    by_cases hc : c = '%'
    · subst hc
      cases rest with
      | nil => simp [tokens]
      | cons a t =>
        cases t with
        | nil => simp [tokens]
        | cons b t2 =>
          rw [show tokens ('%' :: a :: b :: t2)
              = (match hexVal a, hexVal b with
                | some x, some y => Sum.inl (16 * x + y) :: tokens t2
                | _, _ => Sum.inr '%' :: tokens (a :: b :: t2)) from rfl]
          rcases hexVal a with _ | x <;> rcases hexVal b with _ | y <;> simp
    · rw [tok_lit hc]
      simp

theorem unquote_ne_nil {s : List Char} (h : s ≠ []) : unquote s ≠ [] := by
  rw [unquote]
  have htk : tokens s ≠ [] := tokens_ne_nil h
  cases htok : tokens s with
  | nil => exact absurd htok htk
  | cons tk r =>
    cases tk with
    | inl b =>
      rw [emit_decomp]
      intro he
      have h1 := (List.append_eq_nil.mp he).1
      rw [show bytesPre (Sum.inl b :: r) = b :: bytesPre r from rfl] at h1
      exact decode_ne_nil (by simp) h1
    | inr c =>
      rw [show emitTokens [] (Sum.inr c :: r)
          = utf8DecodeReplace [] ++ c :: emitTokens [] r from rfl]
      simp

theorem unquote_plus_ne_nil {s : List Char} (h : s ≠ []) : unquote_plus s ≠ [] := by
  rw [unquote_plus]
  refine unquote_ne_nil ?_
  cases s with
  | nil => exact absurd rfl h
  | cons c rest => simp

/-- parse_qsl with keep_blank_values=False, with the boolean conditions
reduced: chunks without `=` or with empty value are dropped. -/
def qslStep (nv : List Char) (acc : List (List Char × List Char)) :
    List (List Char × List Char) :=
  if nv = [] then acc
  else
    match splitFirst '=' nv with
    | (name, some value) =>
      if value = [] then acc else (unquote_plus name, unquote_plus value) :: acc
    | (_, none) => acc

def qslF (q : List Char) : List (List Char × List Char) :=
  (splitAll '&' q).foldr qslStep []

theorem parse_qsl_false_eq (q : List Char) : parse_qsl false q = qslF q := by
  rw [parse_qsl, qslF]
  induction splitAll '&' q with
  | nil => rfl
  | cons nv rest ih =>
    rw [List.foldr_cons, List.foldr_cons, ih]
    generalize List.foldr qslStep [] rest = acc
    by_cases hnv : nv = []
    · simp [qslStep, hnv]
    · cases hsf : splitFirst '=' nv with
      | mk name o =>
        cases o with
        | none => simp [qslStep, hnv, hsf]
        | some value =>
          by_cases hval : value = []
          · subst hval
            simp [qslStep, hnv, hsf]
          · simp [qslStep, hnv, hsf, hval]

theorem qslF_values_ne_nil {q : List Char} :
    ∀ kv ∈ qslF q, kv.2 ≠ [] := by
  rw [qslF]
  induction splitAll '&' q with
  | nil => simp
  | cons nv rest ih =>
    rw [List.foldr_cons]
    intro kv hkv
    rw [qslStep] at hkv
    by_cases hnv : nv = []
    · rw [if_pos hnv] at hkv
      exact ih kv hkv
    · rw [if_neg hnv] at hkv
      cases hsf : splitFirst '=' nv with
      | mk name o =>
        cases o with
        | none =>
          rw [hsf] at hkv
          exact ih kv hkv
        | some value =>
          rw [hsf] at hkv
          by_cases hval : value = []
          · have hkv2 : kv ∈ (List.foldr qslStep [] rest) := by
              have he : (if value = []
                  then (List.foldr qslStep [] rest)
                  else (unquote_plus name, unquote_plus value)
                    :: (List.foldr qslStep [] rest))
                  = (List.foldr qslStep [] rest) := if_pos hval
              exact he ▸ hkv
            exact ih kv hkv2
          · have hkv2 : kv ∈ ((unquote_plus name, unquote_plus value)
                :: (List.foldr qslStep [] rest)) := by
              have he : (if value = []
                  then (List.foldr qslStep [] rest)
                  else (unquote_plus name, unquote_plus value)
                    :: (List.foldr qslStep [] rest))
                  = (unquote_plus name, unquote_plus value)
                    :: (List.foldr qslStep [] rest) := if_neg hval
              exact he ▸ hkv
            rcases List.mem_cons.mp hkv2 with rfl | hm
            · exact unquote_plus_ne_nil hval
            · exact ih kv hm

theorem joinSep_mem {sep : Char} {x : Char} :
    ∀ {parts : List (List Char)}, x ∈ joinSep sep parts →
      x = sep ∨ ∃ p ∈ parts, x ∈ p := by
  intro parts
  induction parts with
  | nil => intro h; simp [joinSep] at h
  | cons p rest ih =>
    intro h
    cases rest with
    | nil =>
      rw [show joinSep sep [p] = p from rfl] at h
      exact Or.inr ⟨p, List.mem_cons_self p [], h⟩
    | cons q rest2 =>
      rw [show joinSep sep (p :: q :: rest2) = p ++ sep :: joinSep sep (q :: rest2)
        from rfl] at h
      rcases List.mem_append.mp h with h1 | h1
      · exact Or.inr ⟨p, List.mem_cons_self p _, h1⟩
      · rcases List.mem_cons.mp h1 with rfl | h2
        · exact Or.inl rfl
        · rcases ih h2 with h3 | ⟨pp, hpp, hx⟩
          · exact Or.inl h3
          · exact Or.inr ⟨pp, List.mem_cons_of_mem p hpp, hx⟩

theorem urlencode_class {L : List (List Char × List Char)} :
    ∀ x ∈ urlencode L, alwaysSafe x = true ∨ x = '+' ∨ x = '%' ∨ x = '=' ∨ x = '&' := by
  intro x hx
  rw [urlencode] at hx
  rcases joinSep_mem hx with h | ⟨p, hp, hxp⟩
  · right; right; right; right; exact h
  · rw [List.mem_map] at hp
    rcases hp with ⟨kv, _, rfl⟩
    rcases List.mem_append.mp hxp with h1 | h1
    · rcases qp_class x h1 with h | h | h
      · left; exact h
      · right; left; exact h
      · right; right; left; exact h
    · rcases List.mem_cons.mp h1 with rfl | h2
      · right; right; right; left; rfl
      · rcases qp_class x h2 with h | h | h
        · left; exact h
        · right; left; exact h
        · right; right; left; exact h

theorem urlencode_not_mem {L : List (List Char × List Char)} {d : Char}
    (hd : alwaysSafe d = false) (h1 : ¬d = '+') (h2 : ¬d = '%') (h3 : ¬d = '=')
    (h4 : ¬d = '&') : d ∉ urlencode L := by
  intro hm
  rcases urlencode_class d hm with h | h | h | h | h
  · rw [hd] at h; exact Bool.false_ne_true h
  · exact h1 h
  · exact h2 h
  · exact h3 h
  · exact h4 h

end Url

namespace Url

theorem charLe_iff {c d : Char} : (c ≤ d) ↔ c.toNat ≤ d.toNat :=
  ⟨fun h => h, fun h => h⟩

theorem toNat_ofNat_valid {n : Nat} (h : n.isValidChar) : (Char.ofNat n).toNat = n := by
  rw [Char.ofNat, dif_pos h]
  rfl

theorem alpha_nat {c : Char} : isAsciiAlpha c = true ↔
    (97 ≤ c.toNat ∧ c.toNat ≤ 122) ∨ (65 ≤ c.toNat ∧ c.toNat ≤ 90) := by
  rw [isAsciiAlpha]
  simp only [Bool.or_eq_true, Bool.and_eq_true, decide_eq_true_eq]
  constructor
  · rintro (⟨h1, h2⟩ | ⟨h1, h2⟩)
    · exact Or.inl ⟨h1, h2⟩
    · exact Or.inr ⟨h1, h2⟩
  · rintro (⟨h1, h2⟩ | ⟨h1, h2⟩)
    · exact Or.inl ⟨h1, h2⟩
    · exact Or.inr ⟨h1, h2⟩

theorem digit_nat {c : Char} : isAsciiDigit c = true ↔
    48 ≤ c.toNat ∧ c.toNat ≤ 57 := by
  rw [isAsciiDigit]
  simp only [Bool.and_eq_true, decide_eq_true_eq]
  constructor
  · rintro ⟨h1, h2⟩
    exact ⟨h1, h2⟩
  · rintro ⟨h1, h2⟩
    exact ⟨h1, h2⟩

theorem char_eq_of_toNat {c d : Char} (h : c.toNat = d.toNat) : c = d := by
  have h2 := congrArg Char.ofNat h
  rwa [Char.ofNat_toNat, Char.ofNat_toNat] at h2

theorem scheme_nat {c : Char} : isSchemeChar c = true ↔
    (97 ≤ c.toNat ∧ c.toNat ≤ 122) ∨ (65 ≤ c.toNat ∧ c.toNat ≤ 90)
    ∨ (48 ≤ c.toNat ∧ c.toNat ≤ 57) ∨ c.toNat = 43 ∨ c.toNat = 45 ∨ c.toNat = 46 := by
  rw [isSchemeChar]
  simp only [Bool.or_eq_true, alpha_nat, digit_nat, decide_eq_true_eq]
  constructor
  · rintro ((((ha | hd) | hp) | hm) | hn)
    · rcases ha with ha | ha
      · exact Or.inl ha
      · exact Or.inr (Or.inl ha)
    · exact Or.inr (Or.inr (Or.inl hd))
    · subst hp
      exact Or.inr (Or.inr (Or.inr (Or.inl rfl)))
    · subst hm
      exact Or.inr (Or.inr (Or.inr (Or.inr (Or.inl rfl))))
    · subst hn
      exact Or.inr (Or.inr (Or.inr (Or.inr (Or.inr rfl))))
  · rintro (ha | ha | hd | hp | hm | hn)
    · exact Or.inl (Or.inl (Or.inl (Or.inl (Or.inl ha))))
    · exact Or.inl (Or.inl (Or.inl (Or.inl (Or.inr ha))))
    · exact Or.inl (Or.inl (Or.inl (Or.inr hd)))
    · refine Or.inl (Or.inl (Or.inr ?_))
      exact char_eq_of_toNat (by rw [hp]; rfl)
    · refine Or.inl (Or.inr ?_)
      exact char_eq_of_toNat (by rw [hm]; rfl)
    · refine Or.inr ?_
      exact char_eq_of_toNat (by rw [hn]; rfl)

theorem lowerChar_toNat {c : Char} :
    (lowerChar c).toNat = if 65 ≤ c.toNat ∧ c.toNat ≤ 90 then c.toNat + 32 else c.toNat := by
  rw [lowerChar]
  by_cases h : 65 ≤ c.toNat ∧ c.toNat ≤ 90
  · rw [if_pos (by
      simp only [Bool.and_eq_true, decide_eq_true_eq]
      exact ⟨h.1, h.2⟩), if_pos h]
    exact toNat_ofNat_valid (Or.inl (by omega))
  · rw [if_neg (by
      simp only [Bool.and_eq_true, decide_eq_true_eq]
      intro hcon
      exact h ⟨hcon.1, hcon.2⟩), if_neg h]

theorem lowerChar_alpha {c : Char} (h : isAsciiAlpha c = true) :
    isAsciiAlpha (lowerChar c) = true := by
  rw [alpha_nat] at h ⊢
  rw [lowerChar_toNat]
  rcases h with h | h
  · rw [if_neg (by omega)]
    exact Or.inl h
  · rw [if_pos (by omega)]
    left
    omega

theorem lowerChar_scheme {c : Char} (h : isSchemeChar c = true) :
    isSchemeChar (lowerChar c) = true := by
  rw [scheme_nat] at h ⊢
  rw [lowerChar_toNat]
  by_cases hc : 65 ≤ c.toNat ∧ c.toNat ≤ 90
  · rw [if_pos hc]
    left
    omega
  · rw [if_neg hc]
    rcases h with h | h | h | h | h | h <;> omega

theorem lowerChar_idem {c : Char} (h : isSchemeChar c = true) :
    lowerChar (lowerChar c) = lowerChar c := by
  apply char_eq_of_toNat
  rw [lowerChar_toNat (c := lowerChar c), lowerChar_toNat]
  rw [scheme_nat] at h
  by_cases hc : 65 ≤ c.toNat ∧ c.toNat ≤ 90
  · rw [if_pos hc, if_neg (by omega)]
  · rw [if_neg hc, if_neg hc]

theorem lowerChar_ne_colon {c : Char} (h : isSchemeChar c = true) :
    ¬lowerChar c = ':' := by
  intro he
  have h2 : (lowerChar c).toNat = 58 := by rw [he]; rfl
  rw [lowerChar_toNat] at h2
  rw [scheme_nat] at h
  split at h2 <;> omega

end Url

namespace Url

theorem cleanScheme_nil : cleanScheme [] = [] := rfl

theorem sniff_success {s : List Char} (hs : s ≠ []) (hh : headAlpha s = true)
    (hall : s.all isSchemeChar = true) (hlow : s.map lowerChar = s)
    (hnc : ':' ∉ s) (d rest : List Char) :
    sniff d (s ++ ':' :: rest) = (s, rest) := by
  rw [sniff, sf_insert hnc]
  show (if s ≠ [] ∧ headAlpha s = true ∧ s.all isSchemeChar = true
    then (s.map lowerChar, rest) else (d, s ++ ':' :: rest)) = (s, rest)
  rw [if_pos ⟨hs, hh, hall⟩, hlow]

theorem sniff_head_slash {v : List Char} (hv : v.head? = some '/') (d : List Char) :
    sniff d v = (d, v) := by
  rw [sniff]
  cases hsf : splitFirst ':' v with
  | mk before o =>
    cases o with
    | none => rfl
    | some after =>
      have hd := sf_decomp_some hsf
      show (if before ≠ [] ∧ headAlpha before = true ∧ before.all isSchemeChar = true
        then (before.map lowerChar, after) else (d, v)) = (d, v)
      rw [if_neg ?_]
      rintro ⟨hne, hha, _⟩
      cases before with
      | nil => exact hne rfl
      | cons b bs =>
        have : b = '/' := by
          rw [hd.1] at hv
          simpa using hv
        subst this
        rw [headAlpha] at hha
        simp [isAsciiAlpha] at hha

theorem all_takeWhile {p : Char → Bool} {l : List Char} :
    (l.takeWhile p).all p = true := by
  induction l with
  | nil => rfl
  | cons c rest ih =>
    rw [List.takeWhile_cons]
    by_cases hc : p c = true
    · rw [if_pos hc]
      simpa [hc] using ih
    · rw [if_neg hc]
      rfl

theorem dropWhile_head {p : Char → Bool} (l : List Char) :
    l.dropWhile p = [] ∨ ∃ c r, l.dropWhile p = c :: r ∧ p c = false := by
  induction l with
  | nil => exact Or.inl rfl
  | cons c rest ih =>
    rw [List.dropWhile_cons]
    by_cases hc : p c = true
    · rw [if_pos hc]
      exact ih
    · rw [if_neg hc]
      exact Or.inr ⟨c, rest, rfl, Bool.not_eq_true _ ▸ hc⟩

/-- The error-free outcome of urlsplit's netloc validations. -/
def netChecksOk (V : Validators) (n : List Char) : Prop :=
  ¬((('[' ∈ n) ∧ (']' ∉ n)) ∨ ((']' ∈ n) ∧ ('[' ∉ n)))
  ∧ (('[' ∈ n) → V.bracketOk (bracketHost n) = true)
  ∧ ((¬n.all (fun c => c.toNat < 128) = true) → V.nfkcOk n = true)

theorem netlocSplit_start {V : Validators} {n : List Char}
    (hall : n.all notDelim = true) (hchk : netChecksOk V n) (rest : List Char)
    (hrest : rest = [] ∨ ∃ c r, rest = c :: r ∧ notDelim c = false) :
    netlocSplit V ('/' :: '/' :: (n ++ rest)) = Except.ok (n, rest) := by
  rw [netlocSplit, if_pos (by simp)]
  have hd : ('/' :: '/' :: (n ++ rest)).drop 2 = n ++ rest := rfl
  rw [hd]
  have htd := takeWhile_append_all (p := notDelim) hall hrest
  dsimp only
  rw [htd.1, htd.2]
  rw [if_neg hchk.1]
  by_cases hbr : '[' ∈ n
  · rw [if_neg (by
      intro hcon
      exact absurd (hchk.2.1 hbr) (by simpa using hcon.2))]
    by_cases hascii : n.all (fun c => c.toNat < 128) = true
    · rw [if_neg (by
        intro hcon
        exact absurd hascii (by simpa using hcon.1))]
    · rw [if_neg (by
        intro hcon
        exact absurd (hchk.2.2 hascii) (by simpa using hcon.2))]
  · rw [if_neg (by
      intro hcon
      exact hbr hcon.1)]
    by_cases hascii : n.all (fun c => c.toNat < 128) = true
    · rw [if_neg (by
        intro hcon
        exact absurd hascii (by simpa using hcon.1))]
    · rw [if_neg (by
        intro hcon
        exact absurd (hchk.2.2 hascii) (by simpa using hcon.2))]

theorem netlocSplit_default {V : Validators} {u : List Char}
    (h : u.take 2 ≠ ['/', '/']) : netlocSplit V u = Except.ok ([], u) := by
  rw [netlocSplit, if_neg h]

end Url

namespace Url

theorem lastSeg_subset {c : Char} {p : List Char} (h : c ∈ lastSeg p) : c ∈ p := by
  rw [lastSeg, List.mem_reverse] at h
  have h2 := (List.takeWhile_sublist (fun c => decide ¬c = '/')).mem h
  rwa [List.mem_reverse] at h2

theorem slash_not_mem_lastSeg (p : List Char) : '/' ∉ lastSeg p := by
  rw [lastSeg, List.mem_reverse]
  intro h
  have h2 := List.mem_takeWhile_imp h
  simp at h2

theorem lastSeg_split (p : List Char) :
    (p.reverse.dropWhile (fun c => c ≠ '/')).reverse ++ lastSeg p = p := by
  rw [lastSeg]
  rw [← List.reverse_append, List.takeWhile_append_dropWhile, List.reverse_reverse]

theorem take_eq_pre (p : List Char) :
    p.take (p.length - (lastSeg p).length)
      = (p.reverse.dropWhile (fun c => c ≠ '/')).reverse := by
  have hsplit := lastSeg_split p
  have hlen := congrArg List.length hsplit
  rw [List.length_append] at hlen
  have h1 := List.take_left
    ((p.reverse.dropWhile (fun c => c ≠ '/')).reverse) (lastSeg p)
  rw [hsplit] at h1
  rw [show p.length - (lastSeg p).length
    = (p.reverse.dropWhile (fun c => c ≠ '/')).reverse.length from by omega]
  exact h1

theorem pre_head_slash {p : List Char} (h : '/' ∈ p) :
    (p.reverse.dropWhile (fun c => c ≠ '/')).head? = some '/' := by
  rcases dropWhile_head (p := fun c => decide ¬c = '/') p.reverse with hd | ⟨c, r, hd, hc⟩
  · exfalso
    have hall : p.reverse.takeWhile (fun c => decide ¬c = '/') = p.reverse := by
      have h2 := List.takeWhile_append_dropWhile (fun c => decide ¬c = '/') p.reverse
      rw [hd, List.append_nil] at h2
      exact h2
    have h2 : '/' ∈ p.reverse := List.mem_reverse.mpr h
    rw [← hall] at h2
    have h3 := List.mem_takeWhile_imp h2
    simp at h3
  · rw [hd]
    have hcs : c = '/' := by simpa using hc
    rw [hcs]
    rfl

theorem sf_fst_ne_mem {c : Char} {l : List Char} : c ∉ (splitFirst c l).1 := by
  induction l with
  | nil => simp [splitFirst]
  | cons a rest ih =>
    by_cases ha : a = c
    · subst ha
      rw [sf_cons_self]
      simp
    · rw [sf_cons_ne ha]
      intro hm
      rcases List.mem_cons.mp hm with e | e
      · exact ha e.symm
      · exact ih e

theorem lastSeg_append {X a : List Char} (hX : X.reverse.head? = some '/')
    (ha : '/' ∉ a) : lastSeg (X ++ a) = a := by
  rw [lastSeg, List.reverse_append]
  cases hXr : X.reverse with
  | nil => rw [hXr] at hX; simp at hX
  | cons x xr =>
    have hx : x = '/' := by rw [hXr] at hX; simpa using hX
    subst hx
    have htw := takeWhile_append_all (p := fun c => decide ¬c = '/')
      (a := a.reverse) (b := '/' :: xr)
      (by
        rw [List.all_eq_true]
        intro c hc
        have hca : c ∈ a := List.mem_reverse.mp hc
        simp only [decide_eq_true_eq]
        intro he
        exact ha (he ▸ hca))
      (Or.inr ⟨'/', xr, rfl, by simp⟩)
    rw [htw.1, List.reverse_reverse]

theorem sp_decomp {rest p par : List Char} (h : splitparams rest = (p, par))
    (hpar : par ≠ []) : rest = p ++ ';' :: par ∧ '/' ∉ par := by
  rw [splitparams] at h
  cases hsf : splitFirst ';' (if ('/' : Char) ∈ rest then lastSeg rest else rest) with
  | mk a o =>
    rw [hsf] at h
    cases o with
    | none =>
      injection h with h1 h2
      exact absurd h2.symm hpar
    | some b =>
      injection h with h1 h2
      subst h2
      have hd := sf_decomp_some hsf
      by_cases hslash : ('/' : Char) ∈ rest
      · rw [if_pos hslash] at hd h1
        have hsplit := lastSeg_split rest
        have hpre := take_eq_pre rest
        constructor
        · rw [← h1, hpre, List.append_assoc, ← hd.1, hsplit]
        · intro hm
          exact slash_not_mem_lastSeg rest (hd.1 ▸ List.mem_append.mpr
            (Or.inr (List.mem_cons_of_mem ';' hm)))
      · rw [if_neg hslash] at hd h1
        simp only [Nat.sub_self, List.take_zero, List.nil_append] at h1
        subst h1
        constructor
        · exact hd.1
        · intro hm
          exact hslash (hd.1 ▸ List.mem_append.mpr (Or.inr (List.mem_cons_of_mem ';' hm)))

theorem sp_self {rest p par : List Char} (h : splitparams rest = (p, par))
    (hsemi : (';' : Char) ∈ p) : splitparams p = (p, []) := by
  rw [splitparams] at h
  cases hsf : splitFirst ';' (if ('/' : Char) ∈ rest then lastSeg rest else rest) with
  | mk a o =>
    rw [hsf] at h
    cases o with
    | none =>
      injection h with h1 h2
      have hd := sf_decomp_none hsf
      rw [splitparams]
      subst h1
      rw [hsf]
    | some b =>
      injection h with h1 h2
      have hd := sf_decomp_some hsf
      by_cases hslash : ('/' : Char) ∈ rest
      · rw [if_pos hslash] at hd h1
        have hpre := take_eq_pre rest
        rw [hpre] at h1
        have hXhead := pre_head_slash hslash
        have hano : '/' ∉ a := by
          intro hm
          exact slash_not_mem_lastSeg rest (hd.1 ▸ List.mem_append.mpr (Or.inl hm))
        have hplast : lastSeg p = a := by
          rw [← h1]
          refine lastSeg_append ?_ hano
          rwa [List.reverse_reverse]
        have hpslash : ('/' : Char) ∈ p := by
          rw [← h1]
          refine List.mem_append.mpr (Or.inl ?_)
          rw [List.mem_reverse]
          rcases dropWhile_head (p := fun c => decide ¬c = '/') rest.reverse
            with he | ⟨c, r, he, hc⟩
          · rw [he] at hXhead; simp at hXhead
          · rw [he]
            have hcs : c = '/' := by simpa using hc
            rw [hcs]
            exact List.mem_cons_self '/' r
        rw [splitparams, if_pos hpslash, hplast, sf_not_mem hd.2]
      · rw [if_neg hslash] at hd h1
        simp only [Nat.sub_self, List.take_zero, List.nil_append] at h1
        exfalso
        subst h1
        exact hd.2 hsemi

end Url

namespace Url

theorem cleanUrl_eq_self {v : List Char}
    (hchars : ∀ c ∈ v, isUnsafeUrlByte c = false)
    (hhead : v = [] ∨ ∃ c r, v = c :: r ∧ isC0orSpace c = false) :
    cleanUrl v = v := by
  rw [cleanUrl]
  rcases hhead with rfl | ⟨c, r, rfl, hc⟩
  · rfl
  · rw [List.dropWhile_cons, if_neg (by simp [hc])]
    rw [List.filter_eq_self.mpr (fun a ha => by simp [hchars a ha])]

theorem alpha_not_space {c : Char} (h : isAsciiAlpha c = true) :
    isC0orSpace c = false := by
  rw [alpha_nat] at h
  rw [isC0orSpace]
  simp only [decide_eq_false_iff_not]
  omega

theorem reparse_netloc (V : Validators) (s n p par q : List Char)
    (hn : n ≠ [])
    (hs : s = [] ∨ (s ≠ [] ∧ headAlpha s = true ∧ s.all isSchemeChar = true
      ∧ s.map lowerChar = s ∧ ':' ∉ s))
    (hnall : n.all notDelim = true)
    (hnchk : netChecksOk V n)
    (hpq : '#' ∉ p ∧ '?' ∉ p)
    (hparq : '#' ∉ par ∧ '?' ∉ par)
    (hqq : '#' ∉ q ∧ '?' ∉ q)
    (hsp : (p = [] ∧ par = []) ∨ p.take 1 = ['/'])
    (hres : (par = [] ∧ (s ∈ uses_params → (';' : Char) ∈ p → splitparams p = (p, [])))
      ∨ (par ≠ [] ∧ s ∈ uses_params ∧ splitparams (p ++ ';' :: par) = (p, par)))
    (hclean : ∀ c, (c ∈ s ∨ c ∈ n ∨ c ∈ p ∨ c ∈ par ∨ c ∈ q) → isUnsafeUrlByte c = false) :
    urlparseE V [] (urlunparse ⟨s, n, p, par, q, []⟩) = Except.ok ⟨s, n, p, par, q, []⟩ := by
  have hpar_nil_of : p = [] → par = [] := by
    intro hp
    rcases hres with ⟨h1, _⟩ | ⟨h1, _, hspl⟩
    · exact h1
    · exfalso
      rcases hsp with ⟨_, hc⟩ | hc
      · exact h1 hc
      · rw [hp] at hc
        simp at hc
  -- the reattached path section
  have hu0 : ∃ url0 : List Char,
      (if par ≠ [] then p ++ ';' :: par else p) = url0
      ∧ (url0 = [] ∨ ∃ r0, url0 = '/' :: r0)
      ∧ ('#' ∉ url0 ∧ '?' ∉ url0) := by
    refine ⟨if par ≠ [] then p ++ ';' :: par else p, rfl, ?_, ?_⟩
    · rcases hsp with ⟨hp0, hpar0⟩ | h1
      · subst hp0
        rw [if_neg (by simpa using hpar0)]
        exact Or.inl rfl
      · cases p with
        | nil => simp at h1
        | cons c p' =>
          have hc : c = '/' := by simpa using h1
          subst hc
          by_cases hp : par ≠ []
          · rw [if_pos hp]
            exact Or.inr ⟨p' ++ ';' :: par, rfl⟩
          · rw [if_neg hp]
            exact Or.inr ⟨p', rfl⟩
    · constructor
      · intro hm
        by_cases hp : par ≠ []
        · rw [if_pos hp] at hm
          rcases List.mem_append.mp hm with h1 | h1
          · exact hpq.1 h1
          · rcases List.mem_cons.mp h1 with e | h2
            · exact absurd e (by decide)
            · exact hparq.1 h2
        · rw [if_neg hp] at hm
          exact hpq.1 hm
      · intro hm
        by_cases hp : par ≠ []
        · rw [if_pos hp] at hm
          rcases List.mem_append.mp hm with h1 | h1
          · exact hpq.2 h1
          · rcases List.mem_cons.mp h1 with e | h2
            · exact absurd e (by decide)
            · exact hparq.2 h2
        · rw [if_neg hp] at hm
          exact hpq.2 hm
  obtain ⟨url0, hu0eq, hu0head, hu0clean⟩ := hu0
  -- normal form of the unparsed string
  have hguard : ¬(url0 ≠ [] ∧ url0.head? ≠ some '/') := by
    rcases hu0head with rfl | ⟨r0, rfl⟩
    · rintro ⟨h1, _⟩
      exact h1 rfl
    · rintro ⟨_, h2⟩
      exact h2 rfl
  have hveq : urlunparse ⟨s, n, p, par, q, []⟩
      = (if s = [] then [] else s ++ [':'])
        ++ ('/' :: '/' :: (n ++ url0)) ++ (if q = [] then [] else '?' :: q) := by
    by_cases hse : s = [] <;> by_cases hq : q = [] <;>
      simp [urlunparse, hu0eq, hguard, hse, hq, hn, List.append_assoc]
  -- the query tail and the netloc remainder
  have hqmem : ∀ c, c ∈ (if q = [] then ([] : List Char) else '?' :: q) →
      c = '?' ∨ c ∈ q := by
    intro c hc
    by_cases hq : q = []
    · rw [if_pos hq] at hc
      simp at hc
    · rw [if_neg hq] at hc
      rcases List.mem_cons.mp hc with e | h2
      · exact Or.inl e
      · exact Or.inr h2
  have hu0mem : ∀ c, c ∈ url0 → c = ';' ∨ c ∈ p ∨ c ∈ par := by
    intro c hc
    rw [← hu0eq] at hc
    by_cases hp : par ≠ []
    · rw [if_pos hp] at hc
      rcases List.mem_append.mp hc with h1 | h1
      · exact Or.inr (Or.inl h1)
      · rcases List.mem_cons.mp h1 with e | h2
        · exact Or.inl e
        · exact Or.inr (Or.inr h2)
    · rw [if_neg hp] at hc
      exact Or.inr (Or.inl hc)
  have hvclean : ∀ c ∈ urlunparse ⟨s, n, p, par, q, []⟩, isUnsafeUrlByte c = false := by
    intro c hc
    rw [hveq] at hc
    rcases List.mem_append.mp hc with h1 | h1
    · rcases List.mem_append.mp h1 with h2 | h2
      · by_cases hse : s = []
        · rw [if_pos hse] at h2
          simp at h2
        · rw [if_neg hse] at h2
          rcases List.mem_append.mp h2 with h3 | h3
          · exact hclean c (Or.inl h3)
          · have : c = ':' := by simpa using h3
            subst this
            decide
      · rcases List.mem_cons.mp h2 with e | h3
        · subst e; decide
        · rcases List.mem_cons.mp h3 with e | h4
          · subst e; decide
          · rcases List.mem_append.mp h4 with h5 | h5
            · exact hclean c (Or.inr (Or.inl h5))
            · rcases hu0mem c h5 with e | h6 | h6
              · subst e; decide
              · exact hclean c (Or.inr (Or.inr (Or.inl h6)))
              · exact hclean c (Or.inr (Or.inr (Or.inr (Or.inl h6))))
    · rcases hqmem c h1 with e | h2
      · subst e; decide
      · exact hclean c (Or.inr (Or.inr (Or.inr (Or.inr h2))))
  have hvhead : urlunparse ⟨s, n, p, par, q, []⟩ = [] ∨
      ∃ c r, urlunparse ⟨s, n, p, par, q, []⟩ = c :: r ∧ isC0orSpace c = false := by
    rw [hveq]
    rcases hs with rfl | ⟨hsne, hh, _⟩
    · rw [if_pos rfl, List.nil_append]
      exact Or.inr ⟨'/', _, rfl, by decide⟩
    · rw [if_neg hsne]
      cases s with
      | nil => exact absurd rfl hsne
      | cons c0 s' =>
        refine Or.inr ⟨c0, s' ++ ':' :: ('/' :: '/' :: (n ++ url0))
          ++ (if q = [] then [] else '?' :: q), ?_, ?_⟩
        · simp [List.append_assoc]
        · exact alpha_not_space (by simpa [headAlpha] using hh)
  have h1 : cleanUrl (urlunparse ⟨s, n, p, par, q, []⟩) = urlunparse ⟨s, n, p, par, q, []⟩ :=
    cleanUrl_eq_self hvclean hvhead
  have hsniff : sniff (cleanScheme []) (urlunparse ⟨s, n, p, par, q, []⟩)
      = (s, '/' :: '/' :: (n ++ (url0 ++ (if q = [] then [] else '?' :: q)))) := by
    rw [cleanScheme_nil, hveq]
    rcases hs with rfl | ⟨hsne, hh, hall, hlow, hnc⟩
    · rw [if_pos rfl, List.nil_append]
      have hform : ('/' :: '/' :: (n ++ url0)) ++ (if q = [] then [] else '?' :: q)
          = '/' :: '/' :: (n ++ (url0 ++ (if q = [] then [] else '?' :: q))) := by
        simp [List.append_assoc]
      rw [hform]
      exact sniff_head_slash (by simp) []
    · rw [if_neg hsne]
      have hform : (s ++ [':']) ++ ('/' :: '/' :: (n ++ url0))
          ++ (if q = [] then [] else '?' :: q)
          = s ++ ':' :: ('/' :: '/' :: (n ++ (url0 ++ (if q = [] then [] else '?' :: q)))) := by
        simp [List.append_assoc]
      rw [hform]
      exact sniff_success hsne hh hall hlow hnc [] _
  have hnet : netlocSplit V ('/' :: '/' :: (n ++ (url0 ++ (if q = [] then [] else '?' :: q))))
      = Except.ok (n, url0 ++ (if q = [] then [] else '?' :: q)) := by
    refine netlocSplit_start hnall hnchk _ ?_
    rcases hu0head with rfl | ⟨r0, rfl⟩
    · by_cases hq : q = []
      · rw [if_pos hq]
        exact Or.inl rfl
      · rw [if_neg hq, List.nil_append]
        exact Or.inr ⟨'?', q, rfl, by decide⟩
    · exact Or.inr ⟨'/', r0 ++ (if q = [] then [] else '?' :: q), by simp, by decide⟩
  have hfr : splitFirst '#' (url0 ++ (if q = [] then [] else '?' :: q))
      = (url0 ++ (if q = [] then [] else '?' :: q), none) := by
    refine sf_not_mem ?_
    intro hm
    rcases List.mem_append.mp hm with h2 | h2
    · exact hu0clean.1 h2
    · rcases hqmem '#' h2 with e | h3
      · exact absurd e (by decide)
      · exact hqq.1 h3
  have hurlsplit : urlsplitE V [] (urlunparse ⟨s, n, p, par, q, []⟩)
      = Except.ok (s, n, url0, q, []) := by
    rw [urlsplitE]
    dsimp only
    rw [h1, hsniff]
    dsimp only
    rw [hnet]
    dsimp only
    rw [hfr]
    dsimp only
    by_cases hq : q = []
    · subst hq
      rw [show (if ([] : List Char) = [] then ([] : List Char) else '?' :: []) = []
        from rfl, List.append_nil]
      rw [sf_not_mem hu0clean.2]
      rfl
    · rw [if_neg hq]
      rw [sf_insert hu0clean.2]
      rfl
  rw [urlparseE, hurlsplit]
  dsimp only
  rcases hres with ⟨hpar0, himp⟩ | ⟨hparne, hsup, hspl⟩
  · have hu0p : url0 = p := by
      rw [← hu0eq, if_neg (by simpa using hpar0)]
    subst hu0p
    subst hpar0
    by_cases hcond : s ∈ uses_params ∧ (';' : Char) ∈ url0
    · rw [if_pos hcond, himp hcond.1 hcond.2]
    · rw [if_neg hcond]
  · have hu0p : url0 = p ++ ';' :: par := by
      rw [← hu0eq, if_pos (by simpa using hparne)]
    subst hu0p
    rw [if_pos ⟨hsup, List.mem_append.mpr (Or.inr (List.mem_cons_self ';' par))⟩, hspl]

end Url
namespace Url

theorem sf_subset {ch c : Char} {l : List Char} (h : c ∈ (splitFirst ch l).1) : c ∈ l := by
  cases hsf : splitFirst ch l with
  | mk a o =>
    rw [hsf] at h
    cases o with
    | none => exact (sf_decomp_none hsf).1 ▸ h
    | some b =>
      rw [(sf_decomp_some hsf).1]
      exact List.mem_append.mpr (Or.inl h)

theorem sf_fst_head (ch : Char) (l : List Char) :
    (splitFirst ch l).1 = [] ∨ (splitFirst ch l).1.head? = l.head? := by
  cases hsf : splitFirst ch l with
  | mk a o =>
    cases o with
    | none =>
      rw [(sf_decomp_none hsf).1]
      exact Or.inr rfl
    | some b =>
      cases a with
      | nil => exact Or.inl rfl
      | cons x xs =>
        right
        rw [(sf_decomp_some hsf).1]
        rfl

theorem unsafe_nat {c : Char} : isUnsafeUrlByte c = true ↔
    c.toNat = 9 ∨ c.toNat = 13 ∨ c.toNat = 10 := by
  rw [isUnsafeUrlByte]
  simp only [Bool.or_eq_true, decide_eq_true_eq]
  constructor
  · rintro ((rfl | rfl) | rfl)
    · exact Or.inl rfl
    · exact Or.inr (Or.inl rfl)
    · exact Or.inr (Or.inr rfl)
  · rintro (h | h | h)
    · exact Or.inl (Or.inl (char_eq_of_toNat (by rw [h]; rfl)))
    · exact Or.inl (Or.inr (char_eq_of_toNat (by rw [h]; rfl)))
    · exact Or.inr (char_eq_of_toNat (by rw [h]; rfl))

theorem lowered_scheme_not_unsafe {c : Char} (h : isSchemeChar c = true) :
    isUnsafeUrlByte (lowerChar c) = false := by
  rw [scheme_nat] at h
  rw [Bool.eq_false_iff]
  intro hcon
  rw [unsafe_nat, lowerChar_toNat] at hcon
  split at hcon <;> omega

theorem sniff_inv {u s r : List Char} (h : sniff [] u = (s, r)) :
    (s = [] ∧ r = u)
    ∨ (s ≠ [] ∧ headAlpha s = true ∧ s.all isSchemeChar = true
        ∧ s.map lowerChar = s ∧ ':' ∉ s
        ∧ ∃ before, before.all isSchemeChar = true ∧ s = before.map lowerChar
          ∧ u = before ++ ':' :: r) := by
  rw [sniff] at h
  cases hsf : splitFirst ':' u with
  | mk before o =>
    rw [hsf] at h
    cases o with
    | none =>
      injection h with h1 h2
      exact Or.inl ⟨h1.symm, h2.symm⟩
    | some after =>
      have h' : (if before ≠ [] ∧ headAlpha before = true ∧ before.all isSchemeChar = true
          then (List.map lowerChar before, after) else (([] : List Char), u)) = (s, r) := h
      by_cases hcond : before ≠ [] ∧ headAlpha before = true ∧ before.all isSchemeChar = true
      · rw [if_pos hcond] at h'
        injection h' with h1 h2
        right
        have hd := sf_decomp_some hsf
        refine ⟨?_, ?_, ?_, ?_, ?_, before, hcond.2.2, h1.symm, by rw [← h2]; exact hd.1⟩
        · rw [← h1]
          intro he
          exact hcond.1 (List.map_eq_nil_iff.mp he)
        · rw [← h1]
          cases before with
          | nil => exact absurd rfl hcond.1
          | cons b bs =>
            show isAsciiAlpha (lowerChar b) = true
            exact lowerChar_alpha (by simpa [headAlpha] using hcond.2.1)
        · rw [← h1, List.all_map]
          rw [List.all_eq_true]
          intro c hc
          exact lowerChar_scheme ((List.all_eq_true.mp hcond.2.2) c hc)
        · rw [← h1, List.map_map]
          refine List.map_congr_left ?_
          intro c hc
          show lowerChar (lowerChar c) = lowerChar c
          exact lowerChar_idem ((List.all_eq_true.mp hcond.2.2) c hc)
        · rw [← h1]
          intro hm
          rcases List.mem_map.mp hm with ⟨c, hc, he⟩
          exact lowerChar_ne_colon ((List.all_eq_true.mp hcond.2.2) c hc) he
      · rw [if_neg hcond] at h'
        injection h' with h1 h2
        exact Or.inl ⟨h1.symm, h2.symm⟩

theorem netloc_inv {V : Validators} {u2 n u3 : List Char}
    (h : netlocSplit V u2 = Except.ok (n, u3)) :
    n.all notDelim = true ∧ netChecksOk V n
    ∧ (∀ c, (c ∈ n ∨ c ∈ u3) → c ∈ u2)
    ∧ (n ≠ [] → u3 = [] ∨ ∃ c r, u3 = c :: r ∧ notDelim c = false) := by
  rw [netlocSplit] at h
  by_cases hss : u2.take 2 = ['/', '/']
  · rw [if_pos hss] at h
    by_cases h1 : (('[' ∈ (u2.drop 2).takeWhile notDelim) ∧ (']' ∉ (u2.drop 2).takeWhile notDelim))
        ∨ ((']' ∈ (u2.drop 2).takeWhile notDelim) ∧ ('[' ∉ (u2.drop 2).takeWhile notDelim))
    · rw [if_pos h1] at h
      exact absurd h (by simp)
    · rw [if_neg h1] at h
      by_cases h2 : ('[' ∈ (u2.drop 2).takeWhile notDelim)
          ∧ ¬V.bracketOk (bracketHost ((u2.drop 2).takeWhile notDelim)) = true
      · rw [if_pos h2] at h
        exact absurd h (by simp)
      · rw [if_neg h2] at h
        by_cases h3 : (¬((u2.drop 2).takeWhile notDelim).all (fun c => c.toNat < 128) = true)
            ∧ ¬V.nfkcOk ((u2.drop 2).takeWhile notDelim) = true
        · rw [if_pos h3] at h
          exact absurd h (by simp)
        · rw [if_neg h3] at h
          injection h with h4
          injection h4 with h5 h6
          subst h5
          subst h6
          refine ⟨all_takeWhile, ⟨h1, ?_, ?_⟩, ?_, ?_⟩
          · intro hb
            by_contra hcon
            exact h2 ⟨hb, by simpa using hcon⟩
          · intro ha
            by_contra hcon
            exact h3 ⟨by simpa using ha, by simpa using hcon⟩
          · intro c hc
            have hsub : c ∈ u2.drop 2 := by
              rcases hc with hc | hc
              · exact (List.takeWhile_sublist notDelim).mem hc
              · exact (List.dropWhile_sublist notDelim).mem hc
            exact (List.drop_sublist 2 u2).mem hsub
          · intro _
            exact dropWhile_head _
  · rw [if_neg hss] at h
    injection h with h4
    injection h4 with h5 h6
    subst h5
    subst h6
    refine ⟨rfl, ⟨by simp, by simp, by simp⟩, ?_, ?_⟩
    · intro c hc
      rcases hc with hc | hc
      · simp at hc
      · exact hc
    · intro hcon
      exact absurd rfl hcon

end Url

namespace Url

theorem cleanUrl_all_safe {u : List Char} : ∀ c ∈ cleanUrl u, isUnsafeUrlByte c = false := by
  intro c hc
  rw [cleanUrl] at hc
  have h2 := List.of_mem_filter hc
  simpa using h2

theorem sp_subset (rest : List Char) :
    (∀ c ∈ (splitparams rest).1, c ∈ rest) ∧ (∀ c ∈ (splitparams rest).2, c ∈ rest) := by
  rw [splitparams]
  cases hsf : splitFirst ';' (if ('/' : Char) ∈ rest then lastSeg rest else rest) with
  | mk a o =>
    have hsub : ∀ c, c ∈ (if ('/' : Char) ∈ rest then lastSeg rest else rest) → c ∈ rest := by
      intro c hc
      by_cases hs : ('/' : Char) ∈ rest
      · rw [if_pos hs] at hc
        exact lastSeg_subset hc
      · rw [if_neg hs] at hc
        exact hc
    cases o with
    | none =>
      exact ⟨fun c hc => hc, fun c hc => by simp at hc⟩
    | some b =>
      constructor
      · intro c hc
        rcases List.mem_append.mp hc with h1 | h1
        · exact List.take_subset _ _ h1
        · exact hsub c ((sf_decomp_some hsf).1 ▸ List.mem_append.mpr (Or.inl h1))
      · intro c hc
        exact hsub c ((sf_decomp_some hsf).1 ▸ List.mem_append.mpr
          (Or.inr (List.mem_cons_of_mem ';' hc)))

theorem take_one_append {x y : List Char} (h : x ≠ []) :
    (x ++ y).take 1 = x.take 1 := by
  cases x with
  | nil => exact absurd rfl h
  | cons c r => rfl

theorem sp_fst_head {rest : List Char} (h : rest.take 1 = ['/']) :
    (splitparams rest).1.take 1 = ['/'] := by
  have hslash : ('/' : Char) ∈ rest := by
    cases rest with
    | nil => simp at h
    | cons c r =>
      have : c = '/' := by simpa using h
      exact this ▸ List.mem_cons_self c r
  rw [splitparams, if_pos hslash]
  cases hsf : splitFirst ';' (lastSeg rest) with
  | mk a o =>
    cases o with
    | none => exact h
    | some b =>
      show (rest.take (rest.length - (lastSeg rest).length) ++ a).take 1 = ['/']
      have hsplit := lastSeg_split rest
      have hlen := congrArg List.length hsplit
      rw [List.length_append] at hlen
      have hAne : (rest.reverse.dropWhile (fun c => c ≠ '/')).reverse ≠ [] := by
        intro he
        have h2 := pre_head_slash hslash
        rw [show rest.reverse.dropWhile (fun c => c ≠ '/')
          = ((rest.reverse.dropWhile (fun c => c ≠ '/')).reverse).reverse from by simp,
          he] at h2
        simp at h2
      have hk : 1 ≤ rest.length - (lastSeg rest).length := by
        have : (rest.reverse.dropWhile (fun c => c ≠ '/')).reverse.length ≠ 0 :=
          fun he => hAne (List.length_eq_zero.mp he)
        omega
      have htne : rest.take (rest.length - (lastSeg rest).length) ≠ [] := by
        intro he
        have := congrArg List.length he
        rw [List.length_take] at this
        simp at this
        omega
      rw [take_one_append htne, List.take_take]
      rw [show min 1 (rest.length - (lastSeg rest).length) = 1 from by omega]
      exact h

end Url


namespace Url

theorem head_take {l : List Char} {c : Char} (hl : l.head? = some c) : l.take 1 = [c] := by
  cases l with
  | nil => simp at hl
  | cons x r =>
    have hx : x = c := by simpa using hl
    rw [hx]
    rfl

theorem parse_facts {V : Validators} {u : List Char} {P : ParseResult}
    (h : urlparseE V [] u = Except.ok P) :
    (P.scheme = [] ∨ (P.scheme ≠ [] ∧ headAlpha P.scheme = true
      ∧ P.scheme.all isSchemeChar = true ∧ P.scheme.map lowerChar = P.scheme
      ∧ ':' ∉ P.scheme))
    ∧ P.netloc.all notDelim = true
    ∧ netChecksOk V P.netloc
    ∧ ('#' ∉ P.path ∧ '?' ∉ P.path)
    ∧ ('#' ∉ P.params ∧ '?' ∉ P.params)
    ∧ (P.netloc ≠ [] → (P.path = [] ∧ P.params = []) ∨ P.path.take 1 = ['/'])
    ∧ ((P.params = [] ∧ (P.scheme ∈ uses_params → (';' : Char) ∈ P.path →
          splitparams P.path = (P.path, [])))
       ∨ (P.params ≠ [] ∧ P.scheme ∈ uses_params
          ∧ splitparams (P.path ++ ';' :: P.params) = (P.path, P.params)))
    ∧ (∀ c, (c ∈ P.scheme ∨ c ∈ P.netloc ∨ c ∈ P.path ∨ c ∈ P.params)
        → isUnsafeUrlByte c = false) := by
  rw [urlparseE] at h
  cases hsp : urlsplitE V [] u with
  | error e =>
    rw [hsp] at h
    exact absurd h (by simp)
  | ok tup =>
    obtain ⟨s, n, rest, q0, f⟩ := tup
    rw [hsp] at h
    have h' : Except.ok (⟨s, n,
        (if s ∈ uses_params ∧ (';' : Char) ∈ rest then splitparams rest else (rest, [])).1,
        (if s ∈ uses_params ∧ (';' : Char) ∈ rest then splitparams rest else (rest, [])).2,
        q0, f⟩ : ParseResult) = Except.ok P := h
    injection h' with h2
    subst h2
    rw [urlsplitE] at hsp
    dsimp only at hsp
    rw [cleanScheme_nil] at hsp
    cases hsn : sniff [] (cleanUrl u) with
    | mk s0 u2 =>
      rw [hsn] at hsp
      dsimp only at hsp
      cases hnl : netlocSplit V u2 with
      | error e =>
        rw [hnl] at hsp
        exact absurd hsp (by simp)
      | ok pair =>
        obtain ⟨n0, u3⟩ := pair
        rw [hnl] at hsp
        dsimp only at hsp
        injection hsp with hA
        injection hA with hs1 hB
        injection hB with hn1 hC
        injection hC with hrest hD
        subst hs1
        subst hn1
        subst hrest
        have hsniffi := sniff_inv hsn
        have hnli := netloc_inv hnl
        have hu3sub : ∀ c ∈ u3, c ∈ u2 := fun c hc => hnli.2.2.1 c (Or.inr hc)
        have hu2sub : ∀ c ∈ u2, c ∈ cleanUrl u := by
          rcases hsniffi with ⟨_, h2⟩ | ⟨_, _, _, _, _, before, _, _, hdec⟩
          · intro c hc
            rw [h2] at hc
            exact hc
          · intro c hc
            rw [hdec]
            exact List.mem_append.mpr (Or.inr (List.mem_cons_of_mem ':' hc))
        have hrest_sub : ∀ c ∈ (splitFirst '?' (splitFirst '#' u3).1).1, c ∈ u3 :=
          fun c hc => sf_subset (sf_subset hc)
        have hrest_safe : ∀ c ∈ (splitFirst '?' (splitFirst '#' u3).1).1,
            isUnsafeUrlByte c = false :=
          fun c hc => cleanUrl_all_safe c (hu2sub c (hu3sub c (hrest_sub c hc)))
        have hs_facts : s0 = [] ∨ (s0 ≠ [] ∧ headAlpha s0 = true
            ∧ s0.all isSchemeChar = true ∧ s0.map lowerChar = s0 ∧ ':' ∉ s0) := by
          rcases hsniffi with ⟨h1, _⟩ | ⟨h1, h2, h3, h4, h5, _⟩
          · exact Or.inl h1
          · exact Or.inr ⟨h1, h2, h3, h4, h5⟩
        have hs_safe : ∀ c ∈ s0, isUnsafeUrlByte c = false := by
          rcases hsniffi with ⟨h1, _⟩ | ⟨_, _, _, _, _, before, hbs, hmap, _⟩
          · intro c hc
            rw [h1] at hc
            simp at hc
          · intro c hc
            rw [hmap] at hc
            rcases List.mem_map.mp hc with ⟨b, hb, rfl⟩
            exact lowered_scheme_not_unsafe ((List.all_eq_true.mp hbs) b hb)
        have hrest_nohash : '#' ∉ (splitFirst '?' (splitFirst '#' u3).1).1 := by
          intro hm
          exact (sf_fst_ne_mem (c := '#') (l := u3)) (sf_subset hm)
        have hrest_noqm : '?' ∉ (splitFirst '?' (splitFirst '#' u3).1).1 := sf_fst_ne_mem
        have hrest_head : n0 ≠ [] →
            (splitFirst '?' (splitFirst '#' u3).1).1 = []
            ∨ ((splitFirst '?' (splitFirst '#' u3).1).1).take 1 = ['/'] := by
          intro hn0
          rcases hnli.2.2.2 hn0 with hu3nil | ⟨c, r, hu3c, hcnd⟩
          · left
            rw [hu3nil]
            rfl
          · have hcval : c = '/' ∨ c = '?' ∨ c = '#' := by
              rw [notDelim] at hcnd
              cases hb : (c = '/' || c = '?' || c = '#') with
              | false =>
                rw [hb] at hcnd
                simp at hcnd
              | true =>
                simp only [Bool.or_eq_true, decide_eq_true_eq] at hb
                rcases hb with (h1 | h1) | h1
                · exact Or.inl h1
                · exact Or.inr (Or.inl h1)
                · exact Or.inr (Or.inr h1)
            rcases hcval with rfl | rfl | rfl
            · have hu3h : u3.head? = some '/' := by rw [hu3c]; rfl
              rcases sf_fst_head '#' u3 with h1 | h1
              · left
                rw [h1]
                rfl
              · rcases sf_fst_head '?' (splitFirst '#' u3).1 with h2 | h2
                · exact Or.inl h2
                · right
                  exact head_take (h2.trans (h1.trans hu3h))
            · rcases sf_fst_head '#' u3 with h1 | h1
              · left
                rw [h1]
                rfl
              · have hu3h : u3.head? = some '?' := by rw [hu3c]; rfl
                left
                cases hU4 : (splitFirst '#' u3).1 with
                | nil => rfl
                | cons x xs =>
                  have hx : x = '?' := by
                    have h3 := h1.trans hu3h
                    rw [hU4] at h3
                    simpa using h3
                  rw [hx, sf_cons_self]
            · left
              rw [hu3c, sf_cons_self]
              rfl
        refine ⟨hs_facts, hnli.1, hnli.2.1, ?_, ?_, ?_, ?_, ?_⟩
        · by_cases hcond : s0 ∈ uses_params
            ∧ (';' : Char) ∈ (splitFirst '?' (splitFirst '#' u3).1).1
          · rw [if_pos hcond]
            exact ⟨fun hm => hrest_nohash ((sp_subset _).1 '#' hm),
              fun hm => hrest_noqm ((sp_subset _).1 '?' hm)⟩
          · rw [if_neg hcond]
            exact ⟨hrest_nohash, hrest_noqm⟩
        · by_cases hcond : s0 ∈ uses_params
            ∧ (';' : Char) ∈ (splitFirst '?' (splitFirst '#' u3).1).1
          · rw [if_pos hcond]
            exact ⟨fun hm => hrest_nohash ((sp_subset _).2 '#' hm),
              fun hm => hrest_noqm ((sp_subset _).2 '?' hm)⟩
          · rw [if_neg hcond]
            exact ⟨by simp, by simp⟩
        · intro hn0
          rcases hrest_head hn0 with hR | hR
          · left
            rw [if_neg (by
              rw [hR]
              rintro ⟨_, hsemi⟩
              simp at hsemi)]
            rw [hR]
            exact ⟨rfl, rfl⟩
          · right
            by_cases hcond : s0 ∈ uses_params
              ∧ (';' : Char) ∈ (splitFirst '?' (splitFirst '#' u3).1).1
            · rw [if_pos hcond]
              exact sp_fst_head hR
            · rw [if_neg hcond]
              exact hR
        · by_cases hcond : s0 ∈ uses_params
            ∧ (';' : Char) ∈ (splitFirst '?' (splitFirst '#' u3).1).1
          · rw [if_pos hcond]
            cases hspr : splitparams (splitFirst '?' (splitFirst '#' u3).1).1 with
            | mk pp1 pp2 =>
              by_cases hpar : pp2 = []
              · subst hpar
                left
                refine ⟨rfl, fun _ hsemi => ?_⟩
                exact sp_self hspr hsemi
              · right
                refine ⟨hpar, hcond.1, ?_⟩
                rw [← (sp_decomp hspr hpar).1]
                exact hspr
          · rw [if_neg hcond]
            left
            refine ⟨rfl, fun hup hsemi => absurd ⟨hup, hsemi⟩ hcond⟩
        · intro c hc
          by_cases hcond : s0 ∈ uses_params
            ∧ (';' : Char) ∈ (splitFirst '?' (splitFirst '#' u3).1).1
          · rw [if_pos hcond] at hc
            rcases hc with hc | hc | hc | hc
            · exact hs_safe c hc
            · exact cleanUrl_all_safe c (hu2sub c (hnli.2.2.1 c (Or.inl hc)))
            · exact hrest_safe c ((sp_subset _).1 c hc)
            · exact hrest_safe c ((sp_subset _).2 c hc)
          · rw [if_neg hcond] at hc
            rcases hc with hc | hc | hc | hc
            · exact hs_safe c hc
            · exact cleanUrl_all_safe c (hu2sub c (hnli.2.2.1 c (Or.inl hc)))
            · exact hrest_safe c hc
            · simp at hc

end Url

namespace Url

theorem alwaysSafe_not_unsafe {c : Char} (h : alwaysSafe c = true) :
    isUnsafeUrlByte c = false := by
  rw [Bool.eq_false_iff]
  intro hcon
  rw [unsafe_nat] at hcon
  rw [alwaysSafe] at h
  simp only [Bool.or_eq_true, alpha_nat, digit_nat, decide_eq_true_eq] at h
  rcases h with ((((ha | hd) | h1) | h1) | h1) | h1
  · rcases ha with ha | ha <;> omega
  · omega
  all_goals
    subst h1
    exact absurd hcon (by decide)

theorem urlencode_not_unsafe {L : List (List Char × List Char)} :
    ∀ c ∈ urlencode L, isUnsafeUrlByte c = false := by
  intro c hc
  rcases urlencode_class c hc with h | h | h | h | h
  · exact alwaysSafe_not_unsafe h
  all_goals
    subst h
    decide

/-- The tracking filter applied to query pairs in canonicalize_url. -/
def notTracking (kv : List Char × List Char) : Bool :=
  !decide ((kv.1.map lowerChar) ∈ TRACKING)

theorem canonicalize_eq (V : Validators) (u : List Char) (P : ParseResult)
    (hp : urlparseE V [] u = Except.ok P) :
    canonicalize_url V u = Except.ok (urlunparse ⟨P.scheme, P.netloc, P.path, P.params,
      urlencode ((parse_qsl false P.query).filter
        (fun kv => !decide ((kv.1.map lowerChar) ∈ TRACKING))), []⟩) := by
  rw [canonicalize_url, hp]

theorem filtered_qsl_roundtrip (q : List Char) :
    (parse_qsl false (urlencode ((parse_qsl false q).filter
        (fun kv => !decide ((kv.1.map lowerChar) ∈ TRACKING))))).filter
        (fun kv => !decide ((kv.1.map lowerChar) ∈ TRACKING))
      = (parse_qsl false q).filter
        (fun kv => !decide ((kv.1.map lowerChar) ∈ TRACKING)) := by
  have hvals : ∀ kv ∈ (parse_qsl false q).filter
      (fun kv => !decide ((kv.1.map lowerChar) ∈ TRACKING)), kv.2 ≠ [] := by
    intro kv hkv
    have h1 := List.mem_of_mem_filter hkv
    rw [parse_qsl_false_eq] at h1
    exact qslF_values_ne_nil kv h1
  rw [parse_qsl_urlencode hvals, List.filter_filter]
  refine List.filter_congr ?_
  intro kv _
  exact Bool.and_self _

/-- Trivial host validators: every bracketed host and every non-ASCII netloc
is accepted. -/
def allOk : Validators := ⟨fun _ => true, fun _ => true⟩

end Url

/-- Claim C9 counterexample: canonicalization is not idempotent for every
URL under the reference urllib behavior (CPython 3.11): the netloc-free
input "/////y" canonicalizes to "///y", which canonicalizes further to
"/y", because urlunsplit omits the `//` marker when the netloc is empty and
re-parsing then swallows two path slashes. -/
theorem c9_canonicalize_not_idempotent :
    Url.canonicalize_url Url.allOk "/////y".toList = Except.ok "///y".toList
    ∧ Url.canonicalize_url Url.allOk "///y".toList = Except.ok "/y".toList
    ∧ "///y".toList ≠ "/y".toList := by
  refine ⟨by rfl, by rfl, by decide⟩

/-- Claim C9 (amended): for every URL whose parse yields a nonempty network
location - in particular every absolute http(s)://host/... URL the scraper
handles - canonicalize_url is idempotent: it succeeds, and applying it to
its own output returns that output unchanged. -/
theorem c9_canonicalize_idempotent_with_netloc (V : Url.Validators) (u : List Char)
    (P : Url.ParseResult) (hp : Url.urlparseE V [] u = Except.ok P)
    (hn : P.netloc ≠ []) :
    ∃ v, Url.canonicalize_url V u = Except.ok v
      ∧ Url.canonicalize_url V v = Except.ok v := by
  obtain ⟨hs, hnall, hnchk, hpq, hparq, hslash, hres, hsafe⟩ := Url.parse_facts hp
  refine ⟨Url.urlunparse ⟨P.scheme, P.netloc, P.path, P.params,
    Url.urlencode ((Url.parse_qsl false P.query).filter
      (fun kv => !decide ((kv.1.map Url.lowerChar) ∈ Url.TRACKING))), []⟩,
    Url.canonicalize_eq V u P hp, ?_⟩
  have hq_hash : '#' ∉ Url.urlencode ((Url.parse_qsl false P.query).filter
      (fun kv => !decide ((kv.1.map Url.lowerChar) ∈ Url.TRACKING))) :=
    Url.urlencode_not_mem (by decide) (by decide) (by decide) (by decide) (by decide)
  have hq_qm : '?' ∉ Url.urlencode ((Url.parse_qsl false P.query).filter
      (fun kv => !decide ((kv.1.map Url.lowerChar) ∈ Url.TRACKING))) :=
    Url.urlencode_not_mem (by decide) (by decide) (by decide) (by decide) (by decide)
  have hrep := Url.reparse_netloc V P.scheme P.netloc P.path P.params
    (Url.urlencode ((Url.parse_qsl false P.query).filter
      (fun kv => !decide ((kv.1.map Url.lowerChar) ∈ Url.TRACKING))))
    hn hs hnall hnchk hpq hparq ⟨hq_hash, hq_qm⟩ (hslash hn) hres
    (by
      intro c hc
      rcases hc with hc | hc | hc | hc | hc
      · exact hsafe c (Or.inl hc)
      · exact hsafe c (Or.inr (Or.inl hc))
      · exact hsafe c (Or.inr (Or.inr (Or.inl hc)))
      · exact hsafe c (Or.inr (Or.inr (Or.inr hc)))
      · exact Url.urlencode_not_unsafe c hc)
  have hfin : Url.canonicalize_url V (Url.urlunparse ⟨P.scheme, P.netloc, P.path, P.params,
      Url.urlencode ((Url.parse_qsl false P.query).filter
        (fun kv => !decide ((kv.1.map Url.lowerChar) ∈ Url.TRACKING))), []⟩)
      = Except.ok (Url.urlunparse ⟨P.scheme, P.netloc, P.path, P.params,
        Url.urlencode ((Url.parse_qsl false (Url.urlencode ((Url.parse_qsl false P.query).filter
          (fun kv => !decide ((kv.1.map Url.lowerChar) ∈ Url.TRACKING))))).filter
          (fun kv => !decide ((kv.1.map Url.lowerChar) ∈ Url.TRACKING))), []⟩) :=
    Url.canonicalize_eq V _ _ hrep
  rw [hfin, Url.filtered_qsl_roundtrip]

/-- Witness for claim C9 at a concrete absolute URL with mixed-case host,
tracking parameter and fragment. -/
theorem c9_canonicalize_idempotent_with_netloc_witness :
    ∃ v, Url.canonicalize_url Url.allOk "https://News.site.com/a?utm_source=x&b=1#f".toList
        = Except.ok v
      ∧ Url.canonicalize_url Url.allOk v = Except.ok v :=
  c9_canonicalize_idempotent_with_netloc Url.allOk
    "https://News.site.com/a?utm_source=x&b=1#f".toList
    ⟨"https".toList, "News.site.com".toList, "/a".toList, [],
      "utm_source=x&b=1".toList, "f".toList⟩
    (by rfl) (by decide)

/-- Claim C4 counterexample: the canonicalizer in utils.py does not remove
tracking parameters - it only resolves the href, sorts the query and strips
the fragment - so the spec's two URLs canonicalize to different strings
there and both survive a dedup keyed on that canonical form. -/
theorem c4_utils_canonicalize_keeps_tracking :
    Url.utils_canonicalize_url Url.allOk "https://site.com/".toList
        "https://site.com/a?utm_source=x".toList
      = "https://site.com/a?utm_source=x".toList
    ∧ Url.utils_canonicalize_url Url.allOk "https://site.com/".toList
        "https://site.com/a".toList
      = "https://site.com/a".toList
    ∧ "https://site.com/a?utm_source=x".toList ≠ "https://site.com/a".toList := by
  refine ⟨by rfl, by rfl, by decide⟩

/-- Claim C4 (amended): the canonicalizer in scrape_news.py does strip
tracking parameters: two URLs that parse to the same scheme, netloc, path
and params and whose queries agree after dropping tracking pairs
canonicalize to one string, and the per-run dedup on the canonical URL then
keeps exactly the first of two such rows. -/
theorem c4_tracking_params_same_canonical (V : Url.Validators) (u1 u2 : List Char)
    (P1 P2 : Url.ParseResult)
    (h1 : Url.urlparseE V [] u1 = Except.ok P1)
    (h2 : Url.urlparseE V [] u2 = Except.ok P2)
    (hs : P1.scheme = P2.scheme) (hn : P1.netloc = P2.netloc)
    (hp : P1.path = P2.path) (hpar : P1.params = P2.params)
    (hq : (Url.parse_qsl false P1.query).filter
        (fun kv => !decide ((kv.1.map Url.lowerChar) ∈ Url.TRACKING))
      = (Url.parse_qsl false P2.query).filter
        (fun kv => !decide ((kv.1.map Url.lowerChar) ∈ Url.TRACKING))) :
    Url.canonicalize_url V u1 = Url.canonicalize_url V u2
    ∧ ∀ (cs : List Char) (t1 t2 hh1 hh2 : String),
        Pipeline.run_block_dedup [⟨t1, String.mk cs, hh1⟩, ⟨t2, String.mk cs, hh2⟩]
          = [⟨t1, String.mk cs, hh1⟩] := by
  constructor
  · rw [Url.canonicalize_eq V u1 P1 h1, Url.canonicalize_eq V u2 P2 h2,
      hs, hn, hp, hpar, hq]
  · intro cs t1 t2 hh1 hh2
    simp [Pipeline.run_block_dedup, Pipeline.drop_duplicates, Pipeline.dropDupGo]

/-- Witness for claim C4 at the spec's pair: the URL with `utm_source` and the
URL without it canonicalize to one string, and the run dedup keyed on the
shared canonical URL keeps only the first of two rows carrying it. -/
theorem c4_tracking_params_same_canonical_witness :
    Url.canonicalize_url Url.allOk "https://site.com/a?utm_source=x".toList
      = Url.canonicalize_url Url.allOk "https://site.com/a".toList
    ∧ Pipeline.run_block_dedup
        [⟨"T1", "https://site.com/a", "h1"⟩, ⟨"T2", "https://site.com/a", "h2"⟩]
      = [⟨"T1", "https://site.com/a", "h1"⟩] := by
  have h := c4_tracking_params_same_canonical Url.allOk
    "https://site.com/a?utm_source=x".toList "https://site.com/a".toList
    ⟨"https".toList, "site.com".toList, "/a".toList, [], "utm_source=x".toList, []⟩
    ⟨"https".toList, "site.com".toList, "/a".toList, [], [], []⟩
    (by rfl) (by rfl) rfl rfl rfl rfl (by rfl)
  exact ⟨h.1, h.2 "https://site.com/a".toList "T1" "T2" "h1" "h2"⟩
